import Mathlib

/-!
# Ray tracer with an AABB tree: a shallow embedding of `src/main.cpp`

Numbers.  A C++ `double` is modelled by `Dbl`: a finite value, given by the rational it
denotes, or one of the IEEE-754 special values `+inf`, `-inf`, `NaN`.  Every arithmetic
operation computes the exact rational result and rounds it once with `Dbl.round`, the
rounding of binary64 to nearest, ties to even, with gradual underflow and overflow to an
infinity; the special values follow the IEEE rules (`x/0`, `inf - inf`, `0 * inf`, comparisons
with `NaN` are false).  Zero is unsigned, so `1/0 = +inf` as for `+0.0`.  A value `fin q` is
admitted for every rational `q`; the doubles are the `q` with `Dbl.round q = fin q`, and a
decimal literal such as `0.2` is `Dbl.lit (1/5)`, the double nearest to it.

Library code.  Eigen (`Vector3d`, `Matrix3d::inverse`, `AlignedBox3d`, `normalized`) and the
C++ standard library (`std::max`, `std::min`, `std::max_element`, `std::sort`, `std::pow`) are
modelled by what they compute; a reduction over three terms (`dot`, `squaredNorm`, the
determinant of the 3x3 inverse) is `(x + y) + z`, the order of Eigen's packet reduction of
three doubles, each product and each sum rounded, without fused multiply-add.  The particular
rays and triangles on which a computed value is stated below are chosen so that the other
order, `x + (y + z)`, gives the same value.  `sqrt` is a parameter `sqrt : ℚ → ℚ` wherever `normalized()` is used, and
its value is rounded to a double; `sqrt64` is the correctly rounded square root.  `std::pow`
is taken as correctly rounded.  `std::sort` is a parameter `sort` of the builder.
-/

set_option linter.dupNamespace false

namespace Raytracer

/-! ## The model of `double` -/

/-- A `double`: a finite value, given by the rational it denotes, or an IEEE special value. -/
inductive Dbl where
  | fin (q : ℚ)
  | pinf
  | ninf
  | nan
deriving DecidableEq

namespace Dbl

/-- The power `2 ^ e` for an integer exponent. -/
def pow2 (e : Int) : ℚ :=
  if 0 ≤ e then ((2 ^ e.toNat : Nat) : ℚ) else 1 / ((2 ^ (-e).toNat : Nat) : ℚ)

/-- The least `j` from `j0` on with `n < 2 ^ 2 ^ j`, in at most `fuel` steps. -/
def log2Bound (n : Nat) : Nat → Nat → Nat
  | 0, j => j
  | fuel + 1, j => if n < 2 ^ 2 ^ j then j else log2Bound n fuel (j + 1)

/-- Binary search for the largest `k` with `2 ^ k <= n`, over the bits `2 ^ (b - 1)`, ..., 1. -/
def log2Search (n : Nat) : Nat → Nat → Nat
  | 0, k => k
  | b + 1, k => if 2 ^ (k + 2 ^ b) ≤ n then log2Search n b (k + 2 ^ b) else log2Search n b k

/-- The position of the leading bit of `n`: the largest `k` with `2 ^ k <= n` (0 for 0). -/
def log2 (n : Nat) : Nat := log2Search n (log2Bound n n 0) 0

/-- The binary exponent of a non-zero rational: the `e` with `2 ^ e <= |q| < 2 ^ (e + 1)`. -/
def expo (q : ℚ) : Int :=
  let e : Int := (log2 q.num.natAbs : Int) - (log2 q.den : Int)
  if pow2 e ≤ |q| then e else e - 1

/-- The integer nearest to `x`, the even one of the two when `x` is half-way. -/
def rne (x : ℚ) : Int :=
  if x - ⌊x⌋ < 1 / 2 then ⌊x⌋
  else if 1 / 2 < x - ⌊x⌋ then ⌊x⌋ + 1
  else if ⌊x⌋ % 2 = 0 then ⌊x⌋ else ⌊x⌋ + 1

/-- The unit in the last place of the doubles around `q`: `2 ^ (e - 52)` with `e` the binary
exponent of `q`, and `2 ^ -1074` below `2 ^ -1022` (subnormal numbers). -/
def ulp (q : ℚ) : ℚ := pow2 (Max.max (expo q) (-1022) - 52)

/-- The multiple of `ulp q` nearest to `q`, the even multiple when `q` is half-way. -/
def rval (q : ℚ) : ℚ := (rne (q / ulp q) : ℚ) * ulp q

/-- The rounding of binary64: the multiple of `ulp q` nearest to `q`, ties to the even
multiple; an infinity when that is `2 ^ 1024` or beyond. -/
def round (q : ℚ) : Dbl :=
  if pow2 1024 ≤ rval q then pinf else if rval q ≤ -pow2 1024 then ninf else fin (rval q)

/-- A decimal literal: the double nearest to `q`. -/
def lit (q : ℚ) : Dbl := round q

/-- The rational that a finite value denotes (0 for the special values). -/
def toQ : Dbl → ℚ
  | fin q => q
  | _ => 0

/-- The quotient `a / 0` of a finite `a` by zero: signed infinity, or NaN for `0 / 0`. -/
def divZero (a : ℚ) : Dbl :=
  if 0 < a then pinf else if a < 0 then ninf else nan

/-- The product of a finite `a` and `+inf`. -/
def mulInf (a : ℚ) : Dbl :=
  if 0 < a then pinf else if a < 0 then ninf else nan

/-- IEEE negation. -/
def neg : Dbl → Dbl
  | fin a => fin (-a)
  | pinf => ninf
  | ninf => pinf
  | nan => nan

/-- IEEE addition: the exact sum of finite values, rounded. -/
def add : Dbl → Dbl → Dbl
  | fin a, fin b => round (a + b)
  | fin _, pinf => pinf
  | fin _, ninf => ninf
  | pinf, fin _ => pinf
  | ninf, fin _ => ninf
  | pinf, pinf => pinf
  | ninf, ninf => ninf
  | _, _ => nan

/-- IEEE subtraction. -/
def sub (a b : Dbl) : Dbl := add a (neg b)

/-- IEEE multiplication: the exact product of finite values, rounded. -/
def mul : Dbl → Dbl → Dbl
  | fin a, fin b => round (a * b)
  | fin a, pinf => mulInf a
  | fin a, ninf => mulInf (-a)
  | pinf, fin b => mulInf b
  | ninf, fin b => mulInf (-b)
  | pinf, pinf => pinf
  | pinf, ninf => ninf
  | ninf, pinf => ninf
  | ninf, ninf => pinf
  | _, _ => nan

/-- IEEE division: the exact quotient of finite values, rounded; division by zero gives an
infinity or NaN. -/
def div : Dbl → Dbl → Dbl
  | fin a, fin b => if b = 0 then divZero a else round (a / b)
  | fin _, pinf => fin 0
  | fin _, ninf => fin 0
  | pinf, fin b => if 0 ≤ b then pinf else ninf
  | ninf, fin b => if 0 ≤ b then ninf else pinf
  | _, _ => nan

/-- The comparison `a < b` of C++: false when an operand is NaN. -/
def lt : Dbl → Dbl → Bool
  | fin a, fin b => decide (a < b)
  | fin _, pinf => true
  | ninf, fin _ => true
  | ninf, pinf => true
  | _, _ => false

/-- The comparison `a <= b` of C++: false when an operand is NaN. -/
def le : Dbl → Dbl → Bool
  | fin a, fin b => decide (a ≤ b)
  | fin _, pinf => true
  | ninf, fin _ => true
  | ninf, pinf => true
  | pinf, pinf => true
  | ninf, ninf => true
  | _, _ => false

/-- The comparison `a >= b` of C++. -/
def ge (a b : Dbl) : Bool := le b a

/-- The function `std::max(a, b)`: `(a < b) ? b : a`. -/
def max (a b : Dbl) : Dbl := if lt a b then b else a

/-- The function `std::min(a, b)`: `(b < a) ? b : a`. -/
def min (a b : Dbl) : Dbl := if lt b a then b else a

/-- The function `std::max({a, b, c})`: the first largest element. -/
def max3 (a b c : Dbl) : Dbl := max (max a b) c

/-- The function `std::min({a, b, c})`: the first smallest element. -/
def min3 (a b c : Dbl) : Dbl := min (min a b) c

/-- The power `std::pow(x, n)` for an exponent that is a natural number, correctly rounded. -/
def pow : Dbl → Nat → Dbl
  | _, 0 => fin 1
  | fin a, n + 1 => round (a ^ (n + 1))
  | pinf, _ + 1 => pinf
  | ninf, n + 1 => if (n + 1) % 2 = 0 then pinf else ninf
  | nan, _ + 1 => nan

/-- Newton's iteration for the integer square root, from above, while it decreases. -/
def isqrtIter (n : Nat) : Nat → Nat → Nat
  | 0, x => x
  | fuel + 1, x => if (x + n / x) / 2 < x then isqrtIter n fuel ((x + n / x) / 2) else x

/-- The integer square root: the largest `k` with `k * k <= n`. -/
def isqrt (n : Nat) : Nat :=
  if n = 0 then 0 else isqrtIter n (log2 n + 2) (2 ^ (log2 n / 2 + 1))

/-- The correctly rounded square root of binary64 on a rational `a`, as a rational: the
multiple of the unit in the last place nearest to the square root of `a` (0 for `a <= 0`). -/
def sqrt64 (a : ℚ) : ℚ :=
  if a ≤ 0 then 0
  else
    let u := pow2 (Max.max (expo a / 2) (-1022) - 52)
    let x := a / (u * u)
    let k : ℚ := (isqrt ⌊x⌋.toNat : ℚ)
    if x < (k + 1 / 2) ^ 2 then k * u
    else if (k + 1 / 2) ^ 2 < x then (k + 1) * u
    else if isqrt ⌊x⌋.toNat % 2 = 0 then k * u else (k + 1) * u

/-- The square root of a `double`, over a rational `sqrt`: the value of `sqrt`, rounded. -/
def sqrt (sqrt : ℚ → ℚ) : Dbl → Dbl
  | fin a => if 0 ≤ a then round (sqrt a) else nan
  | pinf => pinf
  | _ => nan

/-- A `double` that is neither an infinity nor NaN. -/
def isFinite : Dbl → Bool
  | fin _ => true
  | _ => false

end Dbl

/-- The double nearest to `q`, as a rational (0 when the rounding overflows). -/
def dbl (q : ℚ) : ℚ := (Dbl.round q).toQ

/-- The constant `std::numeric_limits<double>::max()`. -/
def DBL_MAX : ℚ := (2 ^ 53 - 1) * 2 ^ 971

/-! ## Eigen vectors, matrices and boxes -/

/-- An Eigen `Vector3d`. -/
structure Vector3d where
  x : Dbl
  y : Dbl
  z : Dbl
deriving DecidableEq

namespace Vector3d

/-- A vector of three finite coordinates. -/
def ofQ (x y z : ℚ) : Vector3d := ⟨.fin x, .fin y, .fin z⟩

/-- The coefficient `v(i)`. -/
def coeff (v : Vector3d) (i : Nat) : Dbl :=
  match i with
  | 0 => v.x
  | 1 => v.y
  | _ => v.z

/-- The vector `a + b`. -/
def add (a b : Vector3d) : Vector3d := ⟨a.x.add b.x, a.y.add b.y, a.z.add b.z⟩

/-- The vector `a - b`. -/
def sub (a b : Vector3d) : Vector3d := ⟨a.x.sub b.x, a.y.sub b.y, a.z.sub b.z⟩

/-- The vector `-a`. -/
def neg (a : Vector3d) : Vector3d := ⟨a.x.neg, a.y.neg, a.z.neg⟩

/-- The vector `s * a` for a scalar `s`. -/
def smul (s : Dbl) (a : Vector3d) : Vector3d := ⟨s.mul a.x, s.mul a.y, s.mul a.z⟩

/-- The vector `a / s` for a scalar `s`. -/
def divScalar (a : Vector3d) (s : Dbl) : Vector3d := ⟨a.x.div s, a.y.div s, a.z.div s⟩

/-- The method `cwiseProduct`. -/
def cwiseProduct (a b : Vector3d) : Vector3d := ⟨a.x.mul b.x, a.y.mul b.y, a.z.mul b.z⟩

/-- The method `cwiseInverse`: `1 / a(i)` on every coefficient. -/
def cwiseInverse (a : Vector3d) : Vector3d :=
  ⟨(Dbl.fin 1).div a.x, (Dbl.fin 1).div a.y, (Dbl.fin 1).div a.z⟩

/-- The method `cwiseMin`, with Eigen's `mini(a, b) = (b < a) ? b : a`. -/
def cwiseMin (a b : Vector3d) : Vector3d := ⟨a.x.min b.x, a.y.min b.y, a.z.min b.z⟩

/-- The method `cwiseMax`, with Eigen's `maxi(a, b) = (a < b) ? b : a`. -/
def cwiseMax (a b : Vector3d) : Vector3d := ⟨a.x.max b.x, a.y.max b.y, a.z.max b.z⟩

/-- The method `dot`. -/
def dot (a b : Vector3d) : Dbl := ((a.x.mul b.x).add (a.y.mul b.y)).add (a.z.mul b.z)

/-- The method `cross`. -/
def cross (a b : Vector3d) : Vector3d :=
  ⟨(a.y.mul b.z).sub (a.z.mul b.y), (a.z.mul b.x).sub (a.x.mul b.z),
   (a.x.mul b.y).sub (a.y.mul b.x)⟩

/-- The method `squaredNorm`. -/
def squaredNorm (a : Vector3d) : Dbl := dot a a

/-- The method `normalized` of Eigen: `z = squaredNorm(); z > 0 ? n / sqrt(z) : n`. -/
def normalized (sqrt : ℚ → ℚ) (a : Vector3d) : Vector3d :=
  let z := a.squaredNorm
  if Dbl.lt (.fin 0) z then a.divScalar (Dbl.sqrt sqrt z) else a

end Vector3d

/-- An Eigen `Vector4d`. -/
structure Vector4d where
  x : Dbl
  y : Dbl
  z : Dbl
  w : Dbl
deriving DecidableEq

namespace Vector4d

/-- A vector of four finite coordinates. -/
def ofQ (x y z w : ℚ) : Vector4d := ⟨.fin x, .fin y, .fin z, .fin w⟩

/-- The constructor `Vector4d(x, y, z, w)` on four decimal literals. -/
def lit (x y z w : ℚ) : Vector4d := ⟨.lit x, .lit y, .lit z, .lit w⟩

/-- The vector `a + b`. -/
def add (a b : Vector4d) : Vector4d := ⟨a.x.add b.x, a.y.add b.y, a.z.add b.z, a.w.add b.w⟩

/-- The vector `a * s` for a scalar `s`. -/
def mulScalar (a : Vector4d) (s : Dbl) : Vector4d := ⟨a.x.mul s, a.y.mul s, a.z.mul s, a.w.mul s⟩

/-- The vector `a / s` for a scalar `s`. -/
def divScalar (a : Vector4d) (s : Dbl) : Vector4d := ⟨a.x.div s, a.y.div s, a.z.div s, a.w.div s⟩

/-- The method `cwiseProduct` (also `a.array() * b.array()`). -/
def cwiseProduct (a b : Vector4d) : Vector4d :=
  ⟨a.x.mul b.x, a.y.mul b.y, a.z.mul b.z, a.w.mul b.w⟩

end Vector4d

/-- An Eigen `Matrix3d`, stored by columns. -/
structure Matrix3d where
  col0 : Vector3d
  col1 : Vector3d
  col2 : Vector3d
deriving DecidableEq

namespace Matrix3d

/-- The coefficient `m(i, j)`. -/
def coeff (m : Matrix3d) (i j : Nat) : Dbl :=
  match j with
  | 0 => m.col0.coeff i
  | 1 => m.col1.coeff i
  | _ => m.col2.coeff i

/-- The helper `cofactor_3x3<i, j>` of Eigen. -/
def cofactor_3x3 (m : Matrix3d) (i j : Nat) : Dbl :=
  ((m.coeff ((i + 1) % 3) ((j + 1) % 3)).mul (m.coeff ((i + 2) % 3) ((j + 2) % 3))).sub
    ((m.coeff ((i + 1) % 3) ((j + 2) % 3)).mul (m.coeff ((i + 2) % 3) ((j + 1) % 3)))

/-- The determinant as Eigen's 3x3 inverse computes it: the first column against its
cofactors. -/
def det (m : Matrix3d) : Dbl :=
  (((m.cofactor_3x3 0 0).mul (m.coeff 0 0)).add ((m.cofactor_3x3 1 0).mul (m.coeff 1 0))).add
    ((m.cofactor_3x3 2 0).mul (m.coeff 2 0))

/-- The row `r` of `m.inverse()` in Eigen's 3x3 specialisation: entry `(r, c)` is
`cofactor_3x3<c, r>(m) * invdet` with `invdet = 1 / det`. -/
def inverseRow (m : Matrix3d) (r : Nat) : Vector3d :=
  let invdet := (Dbl.fin 1).div m.det
  ⟨(m.cofactor_3x3 0 r).mul invdet, (m.cofactor_3x3 1 r).mul invdet,
   (m.cofactor_3x3 2 r).mul invdet⟩

/-- The product `m.inverse() * w`. -/
def inverseMulVec (m : Matrix3d) (w : Vector3d) : Vector3d :=
  ⟨(m.inverseRow 0).dot w, (m.inverseRow 1).dot w, (m.inverseRow 2).dot w⟩

end Matrix3d

/-- An Eigen `AlignedBox3d`: the corners `min()` and `max()`. -/
structure AlignedBox3d where
  min : Vector3d
  max : Vector3d
deriving DecidableEq

namespace AlignedBox3d

/-- The default-constructed (empty) box: `min = highest()`, `max = lowest()`. -/
def empty : AlignedBox3d :=
  ⟨Vector3d.ofQ DBL_MAX DBL_MAX DBL_MAX, Vector3d.ofQ (-DBL_MAX) (-DBL_MAX) (-DBL_MAX)⟩

/-- The method `extend(p)` for a point. -/
def extend (b : AlignedBox3d) (p : Vector3d) : AlignedBox3d :=
  ⟨b.min.cwiseMin p, b.max.cwiseMax p⟩

/-- The method `extend(box)` for a box. -/
def extendBox (b c : AlignedBox3d) : AlignedBox3d :=
  ⟨b.min.cwiseMin c.min, b.max.cwiseMax c.max⟩

end AlignedBox3d

/-! ## Intersection code -/

/-- The function `bbox_from_triangle` (main.cpp 136-143). -/
def bbox_from_triangle (a b c : Vector3d) : AlignedBox3d :=
  ((AlignedBox3d.empty.extend a).extend b).extend c

/-- The function `ray_triangle_intersection` (main.cpp 228-253).  The references `p` and `N`
are passed in and returned: the result is `(t, p, N)`. -/
def ray_triangle_intersection (sqrt : ℚ → ℚ) (ray_origin ray_direction a b c : Vector3d)
    (p N : Vector3d) : Dbl × Vector3d × Vector3d :=
  let u := b.sub a
  let v := c.sub a
  let intersectionMatrix : Matrix3d := ⟨u.neg, v.neg, ray_direction⟩
  let uvt := intersectionMatrix.inverseMulVec (a.sub ray_origin)
  let isInsideTriangle :=
    Dbl.ge uvt.x (.fin 0) && Dbl.ge uvt.y (.fin 0) && Dbl.ge uvt.z (.fin 0) &&
      Dbl.le (uvt.x.add uvt.y) (.fin 1)
  if isInsideTriangle then
    (uvt.z, ray_origin.add (Vector3d.smul uvt.z ray_direction),
      (u.cross v).normalized sqrt)
  else
    (.fin (-1), p, N)

/-- The local `uvt` of `ray_triangle_intersection` (main.cpp 233-239): the product of the
inverse of the matrix with columns `-(b - a)`, `-(c - a)`, `ray_direction` and `a - ray_origin`. -/
def uvtOf (ray_origin ray_direction a b c : Vector3d) : Vector3d :=
  Matrix3d.inverseMulVec ⟨(b.sub a).neg, (c.sub a).neg, ray_direction⟩ (a.sub ray_origin)

/-- The local `isInsideTriangle` of `ray_triangle_intersection` (main.cpp 241-244). -/
def isInsideTriangle (uvt : Vector3d) : Bool :=
  Dbl.ge uvt.x (.fin 0) && Dbl.ge uvt.y (.fin 0) && Dbl.ge uvt.z (.fin 0) &&
    Dbl.le (uvt.x.add uvt.y) (.fin 1)

/-- The statement `if (c) std::swap(lo, hi)` on a pair `(lo, hi)`. -/
def swapIf (c : Bool) (lohi : Dbl × Dbl) : Dbl × Dbl :=
  if c then (lohi.2, lohi.1) else lohi

/-- The function `ray_box_intersection` (main.cpp 255-268). -/
def ray_box_intersection (ray_origin ray_direction : Vector3d) (box : AlignedBox3d) : Bool :=
  let invRay := ray_direction.cwiseInverse
  let tMin := (box.min.sub ray_origin).cwiseProduct invRay
  let tMax := (box.max.sub ray_origin).cwiseProduct invRay
  let tx := swapIf (Dbl.lt invRay.x (.fin 0)) (tMin.x, tMax.x)
  let ty := swapIf (Dbl.lt invRay.y (.fin 0)) (tMin.y, tMax.y)
  let tz := swapIf (Dbl.lt invRay.z (.fin 0)) (tMin.z, tMax.z)
  let entryTime := Dbl.max3 tx.1 ty.1 tz.1
  let exitTime := Dbl.min3 tx.2 ty.2 tz.2
  Dbl.le entryTime exitTime && Dbl.ge exitTime (.fin 0)

/-! ## The mesh and the tree -/

/-- A row of the facet matrix `MatrixXi`: three vertex indices. -/
structure Vector3i where
  x : Int
  y : Int
  z : Int
deriving DecidableEq

/-- The element of a vector or the row of a matrix at a C++ `int` index; `none` when the index
is negative or past the end (out of bounds). -/
def getRow {α : Type} (l : List α) (i : Int) : Option α :=
  if 0 ≤ i then l[i.toNat]? else none

/-- The class `AABBTree::Node` (main.cpp 28-36). -/
structure Node where
  bbox : AlignedBox3d
  parent : Int
  left : Int
  right : Int
  triangle : Int
deriving DecidableEq

/-- The class `AABBTree` (main.cpp 25-47): the node arena and the root index. -/
structure AABBTree where
  nodes : List Node
  root : Int
deriving DecidableEq

/-- The three vertex positions of the facet row `f`; `none` when an index is out of bounds. -/
def triangleVertices (V : List Vector3d) (f : Vector3i) :
    Option (Vector3d × Vector3d × Vector3d) :=
  match getRow V f.x, getRow V f.y, getRow V f.z with
  | some a, some b, some c => some (a, b, c)
  | _, _, _ => none

/-- The bounding box of triangle number `tri`: `bbox_from_triangle` on the three rows of `V`
that row `tri` of `F` names (main.cpp 182-186 and 203-207). -/
def triangleBox (V : List Vector3d) (F : List Vector3i) (tri : Int) : Option AlignedBox3d :=
  match getRow F tri with
  | none => none
  | some f =>
    match triangleVertices V f with
    | none => none
    | some (a, b, c) => some (bbox_from_triangle a b c)

/-- One row of `centroids` (main.cpp 150-157): the zero row, plus the three vertices, divided
by `F.cols() = 3`. -/
def centroidRow (V : List Vector3d) (f : Vector3i) : Option Vector3d :=
  match triangleVertices V f with
  | none => none
  | some (a, b, c) =>
    some (((((Vector3d.ofQ 0 0 0).add a).add b).add c).divScalar (.fin 3))

/-- The matrix `centroids` (main.cpp 148-157), row by row. -/
def computeCentroids (V : List Vector3d) : List Vector3i → Option (List Vector3d)
  | [] => some []
  | f :: fs =>
    match centroidRow V f, computeCentroids V fs with
    | some c, some cs => some (c :: cs)
    | _, _ => none

/-- The expression `centroids.colwise().maxCoeff()`; the matrix has a row wherever the builder
evaluates it. -/
def colwiseMaxCoeff : List Vector3d → Vector3d
  | [] => Vector3d.ofQ 0 0 0
  | c :: cs => cs.foldl Vector3d.cwiseMax c

/-- The expression `centroids.colwise().minCoeff()`. -/
def colwiseMinCoeff : List Vector3d → Vector3d
  | [] => Vector3d.ofQ 0 0 0
  | c :: cs => cs.foldl Vector3d.cwiseMin c

/-- The index `std::max_element(r, r + 3) - r`: the first largest coefficient. -/
def max_element3 (r : Vector3d) : Nat :=
  let best := if Dbl.lt r.x r.y then 1 else 0
  if Dbl.lt (r.coeff best) r.z then 2 else best

/-- The comparator of the sort (main.cpp 195-197):
`centroids(f1, longest_dim) < centroids(f2, longest_dim)`. -/
def centroidLess (centroids : List Vector3d) (longest_dim : Nat) (f1 f2 : Int) : Bool :=
  match getRow centroids f1, getRow centroids f2 with
  | some c1, some c2 => Dbl.lt (c1.coeff longest_dim) (c2.coeff longest_dim)
  | _, _ => false

/-- The call `std::sort(triangles.begin() + from, triangles.begin() + to, less)` over a sorting
function `sort`. -/
def sortRange (sort : (Int → Int → Bool) → List Int → List Int) (less : Int → Int → Bool)
    (first last : Nat) (triangles : List Int) : List Int :=
  triangles.take first ++ sort less ((triangles.drop first).take (last - first)) ++
    triangles.drop last

/-- The loop of main.cpp 200-208 over the triangles `tris` of the range: the union of their
bounding boxes, from `box`. -/
def extendRange (V : List Vector3d) (F : List Vector3i) :
    List Int → AlignedBox3d → Option AlignedBox3d
  | [], box => some box
  | tri :: tris, box =>
    match triangleBox V F tri with
    | none => none
    | some b => extendRange V F tris (box.extendBox b)

/-- The method `AABBTree::build_recursive` (main.cpp 166-222).  The members `nodes` and the
argument `triangles` are threaded through: the result is `(index, nodes, triangles)`, or
`none` when an index is out of bounds.  `first` and `last` are the arguments `from` and `to`,
with `from <= to` at every call.  `uninit i` is the indeterminate value that the member
`triangle`, never assigned on an internal node, holds in the node appended at index `i`.
The recursion is on `budget`, which every caller sets above `last - first`. -/
def build_recursive (sort : (Int → Int → Bool) → List Int → List Int) (uninit : Nat → Int)
    (V : List Vector3d) (F : List Vector3i) (centroids : List Vector3d) :
    Nat → Nat → Nat → Int → List Node → List Int → Option (Int × List Node × List Int)
  | 0, _, _, _, _, _ => none
  | budget + 1, first, last, parent, nodes, triangles =>
    if last - first = 0 then
      some (-1, nodes, triangles)
    else if last - first = 1 then
      match triangles[first]? with
      | none => none
      | some tri =>
        match triangleBox V F tri with
        | none => none
        | some box =>
          let newNode : Node :=
            { triangle := tri, parent := parent, right := -1, left := -1, bbox := box }
          let nodes1 := nodes ++ [newNode]
          some ((nodes1.length : Int) - 1, nodes1, triangles)
    else
      let range := (colwiseMaxCoeff centroids).sub (colwiseMinCoeff centroids)
      let longest_dim := max_element3 range
      let triangles1 := sortRange sort (centroidLess centroids longest_dim) first last triangles
      match extendRange V F ((triangles1.drop first).take (last - first)) AlignedBox3d.empty with
      | none => none
      | some centroid_box =>
        let mid := (first + last) / 2
        match build_recursive sort uninit V F centroids budget first mid
            ((nodes.length : Int) - 1) nodes triangles1 with
        | none => none
        | some (left, nodes1, triangles2) =>
          match build_recursive sort uninit V F centroids budget mid last
              ((nodes1.length : Int) - 1) nodes1 triangles2 with
          | none => none
          | some (right, nodes2, triangles3) =>
            let node : Node :=
              { bbox := centroid_box, parent := parent, left := left, right := right,
                triangle := uninit nodes2.length }
            let nodes3 := nodes2 ++ [node]
            some ((nodes3.length : Int) - 1, nodes3, triangles3)

/-- The vector `triangles` after `std::iota(..., 0)`. -/
def iota (n : Nat) : List Int := (List.range n).map Int.ofNat

/-- The constructor `AABBTree::AABBTree(V, F)` (main.cpp 145-164). -/
def AABBTree.AABBTree (sort : (Int → Int → Bool) → List Int → List Int) (uninit : Nat → Int)
    (V : List Vector3d) (F : List Vector3i) : Option AABBTree :=
  match computeCentroids V F with
  | none => none
  | some centroids =>
    match build_recursive sort uninit V F centroids (F.length + 1) 0 F.length (-1) []
        (iota F.length) with
    | none => none
    | some (root, nodes, _) => some { nodes := nodes, root := root }

/-! ## The nearest-hit query -/

/-- The globals `vertices`, `facets` and `bvh` (main.cpp 63-65). -/
structure Scene where
  vertices : List Vector3d
  facets : List Vector3i
  bvh : AABBTree

/-- The locals of `find_nearest_object` besides the stack. -/
structure Nearest where
  closest_t : Dbl
  p : Vector3d
  N : Vector3d
  res : Bool
deriving DecidableEq

/-- The ways a run of the model stops without a result. -/
inductive Fault where
  | outOfBounds
  | outOfFuel
deriving DecidableEq

deriving instance DecidableEq for Except

/-- The body of the leaf branch (main.cpp 286-298) for triangle `tri`. -/
def visitLeaf (sqrt : ℚ → ℚ) (scene : Scene) (ray_origin ray_direction : Vector3d)
    (tri : Int) (st : Nearest) : Option Nearest :=
  match getRow scene.facets tri with
  | none => none
  | some f =>
    match triangleVertices scene.vertices f with
    | none => none
    | some (a, b, c) =>
      let r := ray_triangle_intersection sqrt ray_origin ray_direction a b c st.p st.N
      if Dbl.ge r.1 (.fin 0) && Dbl.lt r.1 st.closest_t then
        some { closest_t := r.1, p := r.2.1, N := r.2.2, res := true }
      else
        some st

/-- The `while` loop of `find_nearest_object` (main.cpp 279-305): one iteration per unit of
`fuel`, the stack as a list with its top first. -/
def find_nearest_loop (sqrt : ℚ → ℚ) (scene : Scene) (ray_origin ray_direction : Vector3d) :
    Nat → List Int → Nearest → Except Fault Nearest
  | _, [], st => .ok st
  | 0, _ :: _, _ => .error .outOfFuel
  | fuel + 1, curr_node :: stack, st =>
    match getRow scene.bvh.nodes curr_node with
    | none => .error .outOfBounds
    | some node =>
      if ray_box_intersection ray_origin ray_direction node.bbox then
        if node.right == -1 && node.left == -1 then
          match visitLeaf sqrt scene ray_origin ray_direction node.triangle st with
          | none => .error .outOfBounds
          | some st1 => find_nearest_loop sqrt scene ray_origin ray_direction fuel stack st1
        else
          find_nearest_loop sqrt scene ray_origin ray_direction fuel
            (node.left :: node.right :: stack) st
      else
        find_nearest_loop sqrt scene ray_origin ray_direction fuel stack st

/-- The function `find_nearest_object` (main.cpp 272-307).  The references `p` and `N` are
passed in and returned with the result `res`. -/
def find_nearest_object (sqrt : ℚ → ℚ) (scene : Scene) (fuel : Nat)
    (ray_origin ray_direction : Vector3d) (p N : Vector3d) : Except Fault Nearest :=
  find_nearest_loop sqrt scene ray_origin ray_direction fuel [scene.bvh.root]
    { closest_t := .fin DBL_MAX, p := p, N := N, res := false }

/-! ## Shading -/

/-- The constant `obj_ambient_color(0.0, 0.5, 0.0, 0)`. -/
def obj_ambient_color : Vector4d := Vector4d.lit 0 (1 / 2) 0 0

/-- The constant `obj_diffuse_color(0.5, 0.5, 0.5, 0)`. -/
def obj_diffuse_color : Vector4d := Vector4d.lit (1 / 2) (1 / 2) (1 / 2) 0

/-- The constant `obj_specular_color(0.2, 0.2, 0.2, 0)`: `0.2` is the double nearest to 1/5. -/
def obj_specular_color : Vector4d := Vector4d.lit (1 / 5) (1 / 5) (1 / 5) 0

/-- The constant `obj_specular_exponent`, the integer 256. -/
def obj_specular_exponent : Nat := 256

/-- The constant `ambient_light(0.2, 0.2, 0.2, 0)`. -/
def ambient_light : Vector4d := Vector4d.lit (1 / 5) (1 / 5) (1 / 5) 0

/-- The body of the loop over the lights (main.cpp 333-349): the term added to
`lights_color` for one light. -/
def lightTerm (sqrt : ℚ → ℚ) (ray_direction p N : Vector3d) (light_position : Vector3d)
    (light_color : Vector4d) : Vector4d :=
  let diff_color := obj_diffuse_color
  let Li := (light_position.sub p).normalized sqrt
  let diffuse := diff_color.mulScalar (Dbl.max (Li.dot N) (.fin 0))
  let Hi := (Li.sub ray_direction).normalized sqrt
  let specular :=
    obj_specular_color.mulScalar (Dbl.pow (Dbl.max (N.dot Hi) (.fin 0)) obj_specular_exponent)
  let D := light_position.sub p
  ((diffuse.add specular).cwiseProduct light_color).divScalar D.squaredNorm

/-- The loop over the lights (main.cpp 331-350): index `i` runs over `light_positions` and
reads `light_colors[i]`. -/
def lightsLoop (sqrt : ℚ → ℚ) (ray_direction p N : Vector3d) :
    List Vector3d → List Vector4d → Vector4d → Except Fault Vector4d
  | [], _, lights_color => .ok lights_color
  | _ :: _, [], _ => .error .outOfBounds
  | lp :: lps, lc :: lcs, lights_color =>
    lightsLoop sqrt ray_direction p N lps lcs
      (lights_color.add (lightTerm sqrt ray_direction p N lp lc))

/-- The part of `shoot_ray` after a hit (main.cpp 326-358). -/
def shadeHit (sqrt : ℚ → ℚ) (light_positions : List Vector3d) (light_colors : List Vector4d)
    (ray_direction p N : Vector3d) : Except Fault Vector4d :=
  let ambient_color := obj_ambient_color.cwiseProduct ambient_light
  match lightsLoop sqrt ray_direction p N light_positions light_colors
      (Vector4d.ofQ 0 0 0 0) with
  | .error e => .error e
  | .ok lights_color =>
    let C := ambient_color.add lights_color
    .ok { C with w := .fin 1 }

/-- The function `shoot_ray` (main.cpp 313-359).  `p` and `N` are the uninitialised locals
handed to `find_nearest_object`. -/
def shoot_ray (sqrt : ℚ → ℚ) (scene : Scene) (light_positions : List Vector3d)
    (light_colors : List Vector4d) (fuel : Nat) (ray_origin ray_direction : Vector3d)
    (p N : Vector3d) : Except Fault Vector4d :=
  match find_nearest_object sqrt scene fuel ray_origin ray_direction p N with
  | .error e => .error e
  | .ok st =>
    if !st.res then
      .ok (Vector4d.ofQ 0 0 0 0)
    else
      shadeHit sqrt light_positions light_colors ray_direction st.p st.N

/-! ## Rational inputs and auxiliary definitions for the statements -/

/-- A point or direction with rational (finite) coordinates. -/
structure Q3 where
  x : ℚ
  y : ℚ
  z : ℚ
deriving DecidableEq

/-- The `Vector3d` of a rational point. -/
def Q3.toV (q : Q3) : Vector3d := Vector3d.ofQ q.x q.y q.z

/-- The entry parameter of one slab, after the swap. -/
def slabLo (o d lo hi : ℚ) : ℚ := if 1 / d < 0 then (hi - o) * (1 / d) else (lo - o) * (1 / d)

/-- The exit parameter of one slab, after the swap. -/
def slabHi (o d lo hi : ℚ) : ℚ := if 1 / d < 0 then (lo - o) * (1 / d) else (hi - o) * (1 / d)

/-- The matrix of the ray-triangle system over ℚ: columns `-(b-a)`, `-(c-a)`, `d`. -/
def systemMatrix (d a b c : Q3) : Matrix (Fin 3) (Fin 3) ℚ :=
  !![-(b.x - a.x), -(c.x - a.x), d.x;
     -(b.y - a.y), -(c.y - a.y), d.y;
     -(b.z - a.z), -(c.z - a.z), d.z]

/-- The triple `(u, v, t)` solves `a + u (b - a) + v (c - a) = o + t d`. -/
def Solves (o d a b c : Q3) (u v t : ℚ) : Prop :=
  a.x + u * (b.x - a.x) + v * (c.x - a.x) = o.x + t * d.x ∧
  a.y + u * (b.y - a.y) + v * (c.y - a.y) = o.y + t * d.y ∧
  a.z + u * (b.z - a.z) + v * (c.z - a.z) = o.z + t * d.z

/-- The determinant that `Matrix3d.det` computes on the system matrix, over ℚ. -/
def detQ (d a b c : Q3) : ℚ :=
  ((-(c.y - a.y) * d.z - d.y * -(c.z - a.z)) * -(b.x - a.x) +
    (-(c.z - a.z) * d.x - d.z * -(c.x - a.x)) * -(b.y - a.y)) +
    (-(c.x - a.x) * d.y - d.x * -(c.y - a.y)) * -(b.z - a.z)


/-- A box with rational corners. -/
structure QBox where
  lo : Q3
  hi : Q3
deriving DecidableEq

namespace QBox

/-- The `AlignedBox3d` of a rational box. -/
def toBox (b : QBox) : AlignedBox3d := ⟨b.lo.toV, b.hi.toV⟩

/-- The empty box of Eigen over ℚ. -/
def empty : QBox := ⟨⟨DBL_MAX, DBL_MAX, DBL_MAX⟩, ⟨-DBL_MAX, -DBL_MAX, -DBL_MAX⟩⟩

/-- The union of two boxes: component-wise min of mins, max of maxes. -/
def union (b c : QBox) : QBox :=
  ⟨⟨min b.lo.x c.lo.x, min b.lo.y c.lo.y, min b.lo.z c.lo.z⟩,
   ⟨max b.hi.x c.hi.x, max b.hi.y c.hi.y, max b.hi.z c.hi.z⟩⟩

/-- The box extended by a point. -/
def addPoint (b : QBox) (p : Q3) : QBox := b.union ⟨p, p⟩

/-- The point `p` lies in the closed box. -/
def Contains (b : QBox) (p : Q3) : Prop :=
  (b.lo.x ≤ p.x ∧ p.x ≤ b.hi.x) ∧ (b.lo.y ≤ p.y ∧ p.y ≤ b.hi.y) ∧ (b.lo.z ≤ p.z ∧ p.z ≤ b.hi.z)

end QBox

/-- The three vertices of facet row `f` over ℚ. -/
def triangleVerticesQ (VQ : List Q3) (f : Vector3i) : Option (Q3 × Q3 × Q3) :=
  match getRow VQ f.x, getRow VQ f.y, getRow VQ f.z with
  | some a, some b, some c => some (a, b, c)
  | _, _, _ => none

/-- Triangle number `tri` of the mesh exists and its three vertex indices are in bounds. -/
def ValidTriangle (VQ : List Q3) (F : List Vector3i) (tri : Int) : Prop :=
  ∃ f a b c, getRow F tri = some f ∧ triangleVerticesQ VQ f = some (a, b, c)

/-- The bounding box of triangle number `tri` over ℚ (the empty box when `tri` is not a valid
triangle). -/
def triQ (VQ : List Q3) (F : List Vector3i) (tri : Int) : QBox :=
  match getRow F tri with
  | none => QBox.empty
  | some f =>
    match triangleVerticesQ VQ f with
    | none => QBox.empty
    | some (a, b, c) => ((QBox.empty.addPoint a).addPoint b).addPoint c

/-- The union of the bounding boxes of the triangles `ts`, from the empty box. -/
def boxQ (VQ : List Q3) (F : List Vector3i) (ts : List Int) : QBox :=
  ts.foldl (fun b t => b.union (triQ VQ F t)) QBox.empty

/-- The shape of a hierarchy: a leaf holds a triangle index, an internal node two subtrees. -/
inductive Tree where
  | leaf (triangle : Int)
  | node (left right : Tree)
deriving DecidableEq

namespace Tree

/-- The number of nodes of a tree. -/
def size : Tree → Nat
  | leaf _ => 1
  | node l r => l.size + r.size + 1

/-- The triangles of the leaves, left to right. -/
def leaves : Tree → List Int
  | leaf t => [t]
  | node l r => l.leaves ++ r.leaves

/-- The depth of the deepest leaf below the root. -/
def depth : Tree → Nat
  | leaf _ => 0
  | node l r => max l.depth r.depth + 1

/-- Every internal node gives its left subtree `floor(k/2)` of its `k` leaves. -/
def MedianSplit : Tree → Prop
  | leaf _ => True
  | node l r =>
    l.leaves.length = (l.leaves.length + r.leaves.length) / 2 ∧ l.MedianSplit ∧ r.MedianSplit

/-- The nodes that `build_recursive` appends for a tree, in the order it appends them (left
subtree, right subtree, the node itself), when the arena holds `start` nodes before the call
and the call receives `parent`. -/
def encode (uninit : Nat → Int) (VQ : List Q3) (F : List Vector3i) :
    Tree → Nat → Int → List Node
  | leaf t, _, parent =>
    [{ bbox := (triQ VQ F t).toBox, parent := parent, left := -1, right := -1, triangle := t }]
  | node l r, start, parent =>
    encode uninit VQ F l start ((start : Int) - 1) ++
      encode uninit VQ F r (start + l.size) (((start + l.size : Nat) : Int) - 1) ++
      [{ bbox := (boxQ VQ F (l.leaves ++ r.leaves)).toBox, parent := parent,
         left := ((start + l.size : Nat) : Int) - 1,
         right := ((start + l.size + r.size : Nat) : Int) - 1,
         triangle := uninit (start + l.size + r.size) }]

end Tree


/-- The test `node.right == -1 && node.left == -1` of `find_nearest_object`: the node is a
leaf. -/
def Node.isLeaf (n : Node) : Bool := n.right == -1 && n.left == -1

/-- The leaf node that `build_recursive` makes for triangle `t`. -/
def leafNode (VQ : List Q3) (F : List Vector3i) (t : Int) (parent : Int) : Node :=
  { bbox := (triQ VQ F t).toBox, parent := parent, left := -1, right := -1, triangle := t }

/-- The internal node that `build_recursive` makes over the subtrees `l` and `r`, when the
arena held `start` nodes before the call. -/
def innerNode (uninit : Nat → Int) (VQ : List Q3) (F : List Vector3i) (l r : Tree)
    (start : Nat) (parent : Int) : Node :=
  { bbox := (boxQ VQ F (l.leaves ++ r.leaves)).toBox, parent := parent,
    left := ((start + l.size : Nat) : Int) - 1,
    right := ((start + l.size + r.size : Nat) : Int) - 1,
    triangle := uninit (start + l.size + r.size) }

/-- The arena `A` holds the nodes of `t` from index `start` on, as `build_recursive` appends
them. -/
def Embeds (uninit : Nat → Int) (VQ : List Q3) (F : List Vector3i) (A : List Node)
    (t : Tree) (start : Nat) (parent : Int) : Prop :=
  ∃ pre post, A = pre ++ t.encode uninit VQ F start parent ++ post ∧ pre.length = start

/-- Every facet row names three vertices that exist. -/
def ValidMesh (VQ : List Q3) (F : List Vector3i) : Prop :=
  ∀ f ∈ F, ∃ a b c, triangleVerticesQ VQ f = some (a, b, c)


/-- The coordinates of `v` are in the range of a finite `double`. -/
def InRange (v : Q3) : Prop :=
  (-DBL_MAX ≤ v.x ∧ v.x ≤ DBL_MAX) ∧ (-DBL_MAX ≤ v.y ∧ v.y ≤ DBL_MAX) ∧
    (-DBL_MAX ≤ v.z ∧ v.z ≤ DBL_MAX)


/-- The brute-force test of one triangle: `ray_triangle_intersection` on the three vertices
of triangle number `tri`, with `p` and `N` passed in; `none` when an index is out of bounds. -/
def triangleTest (sqrt : ℚ → ℚ) (V : List Vector3d) (F : List Vector3i)
    (ray_origin ray_direction : Vector3d) (tri : Int) (p N : Vector3d) :
    Option (Dbl × Vector3d × Vector3d) :=
  match getRow F tri with
  | none => none
  | some f =>
    match triangleVertices V f with
    | none => none
    | some (a, b, c) => some (ray_triangle_intersection sqrt ray_origin ray_direction a b c p N)

/-- The state after the leaf branch for triangle `tri` (unchanged when the leaf branch reads
out of bounds). -/
def visit (sqrt : ℚ → ℚ) (scene : Scene) (ray_origin ray_direction : Vector3d)
    (st : Nearest) (tri : Int) : Nearest :=
  (visitLeaf sqrt scene ray_origin ray_direction tri st).getD st

/-- Every triangle of the mesh gives a non-singular system with the direction `d`. -/
def NonSingular (VQ : List Q3) (F : List Vector3i) (d : Q3) : Prop :=
  ∀ f ∈ F, ∀ a b c, triangleVerticesQ VQ f = some (a, b, c) → (systemMatrix d a b c).det ≠ 0


/-- The invariant of the scan: after the triangles `L`, the state `st` holds the nearest hit
among them, or the initial values `p0`, `N0` and the initial bound when none was hit. -/
def ScanInv (sqrt : ℚ → ℚ) (V : List Vector3d) (F : List Vector3i) (o d p0 N0 : Vector3d)
    (st : Nearest) (L : List Int) : Prop :=
  ∃ c : ℚ, st.closest_t = .fin c ∧ c ≤ DBL_MAX ∧
    (st.res = false → st.p = p0 ∧ st.N = N0 ∧ c = DBL_MAX) ∧
    (st.res = true → ∃ t ∈ L, triangleTest sqrt V F o d t p0 N0 = some (.fin c, st.p, st.N) ∧
      0 ≤ c ∧ c < DBL_MAX) ∧
    (∀ t ∈ L, ∀ r, triangleTest sqrt V F o d t p0 N0 = some r → Dbl.ge r.1 (.fin 0) = true →
      Dbl.le (.fin c) r.1 = true ∧ (Dbl.lt r.1 (.fin DBL_MAX) = true → st.res = true))


/-! ## The shading formula of the specification, in double arithmetic -/

/-- In the words of the specification: `L_i = normalize(light_i - p)`. -/
def spec_L (sqrt : ℚ → ℚ) (p light : Vector3d) : Vector3d := (light.sub p).normalized sqrt

/-- In the words of the specification: `H_i = normalize(L_i - ray_direction)`. -/
def spec_H (sqrt : ℚ → ℚ) (d p light : Vector3d) : Vector3d :=
  ((spec_L sqrt p light).sub d).normalized sqrt

/-- In the words of the specification, one channel of the term of one light:
`(diffuse_i + specular_i) * light_color_i / |light_i - p|^2` with
`diffuse_i = kd * max(0, L_i . N)` and
`specular_i = ks * max(0, N . H_i)^obj_specular_exponent`, each operation in double
arithmetic. -/
def spec_light_channel (sqrt : ℚ → ℚ) (d p N : Vector3d) (kd ks : Dbl) (light : Vector3d)
    (color : Dbl) : Dbl :=
  (((kd.mul (Dbl.max (.fin 0) ((spec_L sqrt p light).dot N))).add
      (ks.mul (Dbl.pow (Dbl.max (.fin 0) (N.dot (spec_H sqrt d p light)))
        obj_specular_exponent))).mul color).div (light.sub p).squaredNorm

/-- In the words of the specification, one channel of the colour: the ambient term `ka * la`
plus the sum over the lights, taken from 0 in the order of the list. -/
def spec_phong_channel (sqrt : ℚ → ℚ) (d p N : Vector3d) (ka la kd ks : Dbl)
    (lights : List (Vector3d × Dbl)) : Dbl :=
  (ka.mul la).add
    (lights.foldl (fun acc l => acc.add (spec_light_channel sqrt d p N kd ks l.1 l.2)) (.fin 0))

/-- The two inner products of the formula for one light are numbers, not NaN. -/
def LightDefined (sqrt : ℚ → ℚ) (d p N light : Vector3d) : Prop :=
  (spec_L sqrt p light).dot N ≠ .nan ∧ N.dot (spec_H sqrt d p light) ≠ .nan

/-! ## Concrete inputs -/

/-- An insertion sort for `std::sort`. -/
def exSort (less : Int → Int → Bool) (l : List Int) : List Int :=
  l.insertionSort (fun a b => less b a = false)

/-- An indeterminate value for the uninitialised member. -/
def exUninit (_ : Nat) : Int := 0

/-- The `sqrt` of the examples: the correctly rounded square root. -/
def exSqrt (z : ℚ) : ℚ := Dbl.sqrt64 z

/-- The vertices of two triangles, in the planes `z = 0` and `z = 1`. -/
def exV : List Q3 := [⟨0, 0, 0⟩, ⟨1, 0, 0⟩, ⟨0, 1, 0⟩, ⟨0, 0, 1⟩, ⟨1, 0, 1⟩, ⟨0, 1, 1⟩]

/-- The two facets. -/
def exF : List Vector3i := [⟨0, 1, 2⟩, ⟨3, 4, 5⟩]

/-- A ray origin above both triangles: `(0.2, 0.2, 5)`. -/
def exO : Q3 := ⟨dbl (1 / 5), dbl (1 / 5), 5⟩

/-- A ray direction with three non-zero components: `(0.01, 0.01, -1)`. -/
def exD : Q3 := ⟨dbl (1 / 100), dbl (1 / 100), -1⟩

/-- The ray direction `(0, 0, -1)` of the orthographic camera. -/
def exDown : Q3 := ⟨0, 0, -1⟩

/-- A ray direction parallel to the plane `z = 0`. -/
def exFlat : Q3 := ⟨1, 0, 0⟩

/-- The tree that the builder makes for `exV`, `exF`. -/
def exBvh : AABBTree :=
  ⟨[leafNode exV exF 0 (-1), leafNode exV exF 1 0,
    innerNode exUninit exV exF (.leaf 0) (.leaf 1) 0 (-1)], 2⟩

/-- The scene of `exV`, `exF` and their tree. -/
def exScene : Scene := ⟨exV.map Q3.toV, exF, exBvh⟩

/-- The initial value of the locals `p` and `N`. -/
def exP0 : Vector3d := Vector3d.ofQ 0 0 0

/-- The point where the ray from `exO` along `exD` hits the triangle in `z = 1`. -/
def exHit : Q3 := ⟨dbl (exO.x + 4 * exD.x), dbl (exO.y + 4 * exD.y), 1⟩

/-- The point where the ray from `exO` along `exDown` hits the triangle in `z = 1`. -/
def exHitDown : Q3 := ⟨dbl (1 / 5), dbl (1 / 5), 1⟩

/-- The normal of both triangles. -/
def exN : Q3 := ⟨0, 0, 1⟩



/-! ## The single-triangle scenario -/

/-- The vertices `(0,0,0)`, `(1,0,0)`, `(0,1,0)` of the single triangle. -/
def oneV : List Q3 := [⟨0, 0, 0⟩, ⟨1, 0, 0⟩, ⟨0, 1, 0⟩]

/-- The single facet. -/
def oneF : List Vector3i := [⟨0, 1, 2⟩]

/-- The leaf that is the whole tree of the single triangle. -/
def oneLeaf : Node :=
  { bbox := ⟨Vector3d.ofQ 0 0 0, Vector3d.ofQ 1 1 0⟩, parent := -1, left := -1, right := -1,
    triangle := 0 }

/-- The ray origin `(0.2, 0.2, 5)`: `0.2` is the double nearest to 1/5. -/
def oneO : Q3 := ⟨dbl (1 / 5), dbl (1 / 5), 5⟩


/-! ## The slab test -/

/-- The pair `(tMin, tMax)` of one axis of `ray_box_intersection` after the swap, for finite
`o`, `d`, `lo`, `hi`; `d` may be zero. -/
def slabD (o d lo hi : ℚ) : Dbl × Dbl :=
  swapIf (Dbl.lt ((Dbl.fin 1).div (.fin d)) (.fin 0))
    (((Dbl.fin lo).sub (.fin o)).mul ((Dbl.fin 1).div (.fin d)),
     ((Dbl.fin hi).sub (.fin o)).mul ((Dbl.fin 1).div (.fin d)))

/-- The value `e` is `-inf` or a finite number at most `t`. -/
def Dbl.AtMost (t : ℚ) (e : Dbl) : Prop := e = .ninf ∨ ∃ a, e = .fin a ∧ a ≤ t

/-- The value `e` is `+inf` or a finite number at least `t`. -/
def Dbl.AtLeast (t : ℚ) (e : Dbl) : Prop := e = .pinf ∨ ∃ b, e = .fin b ∧ t ≤ b

/-- The value `e` is `-inf` or a negative finite number. -/
def Dbl.Negative (e : Dbl) : Prop := e = .ninf ∨ ∃ a, e = .fin a ∧ a < 0

/-- The value `e` is `+inf` or a positive finite number. -/
def Dbl.Positive (e : Dbl) : Prop := e = .pinf ∨ ∃ a, e = .fin a ∧ 0 < a

/-- The rational `q` is a double: rounding leaves it as it is. -/
def IsDouble (q : ℚ) : Prop := Dbl.round q = .fin q

instance (q : ℚ) : Decidable (IsDouble q) := by
  unfold IsDouble
  infer_instance

/-- The reciprocal `1 / d` that `cwiseInverse` computes is finite and not zero. -/
def FiniteInv (d : ℚ) : Prop := ∃ r : ℚ, r ≠ 0 ∧ (Dbl.fin 1).div (.fin d) = .fin r

/-- The box is behind the origin along an axis: the ray moves away from the extent
`[lo, hi]`, with `|d|` between `2^-500` and `2^500` and a gap of at least `2^-500`. -/
def BehindOnAxis (o d lo hi : ℚ) : Prop :=
  Dbl.pow2 (-500) ≤ |d| ∧ |d| ≤ Dbl.pow2 500 ∧
    ((0 < d ∧ Dbl.pow2 (-500) ≤ o - hi) ∨ (d < 0 ∧ Dbl.pow2 (-500) ≤ lo - o))

instance (o d lo hi : ℚ) : Decidable (BehindOnAxis o d lo hi) := by
  unfold BehindOnAxis
  infer_instance

/-- The magnitudes on an axis are moderate: `|d|` is at least `2^-500` and the coordinates
are at most `2^500` in absolute value. -/
def AxisBounded (o d lo hi : ℚ) : Prop :=
  Dbl.pow2 (-500) ≤ |d| ∧ |o| ≤ Dbl.pow2 500 ∧ |lo| ≤ Dbl.pow2 500 ∧ |hi| ≤ Dbl.pow2 500

instance (o d lo hi : ℚ) : Decidable (AxisBounded o d lo hi) := by
  unfold AxisBounded
  infer_instance

/-- The direction component is zero and the origin, a double, is strictly inside the extent
`[lo, hi]`, whose ends are doubles. -/
def AxisOpen (o d lo hi : ℚ) : Prop :=
  d = 0 ∧ lo < o ∧ o < hi ∧ IsDouble o ∧ IsDouble lo ∧ IsDouble hi

instance (o d lo hi : ℚ) : Decidable (AxisOpen o d lo hi) := by
  unfold AxisOpen
  infer_instance

/-- The ray moves along the axis towards or inside the extent `[lo, hi]`, and the reciprocal
of its direction component is finite and not zero. -/
def AxisReached (o d lo hi : ℚ) : Prop :=
  lo ≤ hi ∧ FiniteInv d ∧ ((0 < d ∧ o ≤ hi) ∨ (d < 0 ∧ lo ≤ o))

/-- The direction component is zero, the extent `[lo, hi]` is not flat, and the origin and
the ends of the extent are doubles. -/
def ZeroAxis (o d lo hi : ℚ) : Prop :=
  d = 0 ∧ lo < hi ∧ IsDouble o ∧ IsDouble lo ∧ IsDouble hi

instance (o d lo hi : ℚ) : Decidable (ZeroAxis o d lo hi) := by
  unfold ZeroAxis
  infer_instance

/-- The direction component is zero and the origin, a double, is above the extent, whose
upper end is a double. -/
def AxisAbove (o d hi : ℚ) : Prop := d = 0 ∧ hi < o ∧ IsDouble o ∧ IsDouble hi

instance (o d hi : ℚ) : Decidable (AxisAbove o d hi) := by
  unfold AxisAbove
  infer_instance

/-- The direction component is zero and the origin, a double, is below the extent, whose
lower end is a double. -/
def AxisBelow (o d lo : ℚ) : Prop := d = 0 ∧ o < lo ∧ IsDouble o ∧ IsDouble lo

instance (o d lo : ℚ) : Decidable (AxisBelow o d lo) := by
  unfold AxisBelow
  infer_instance

/-- A box that is flat along `x`: the bounding box of a triangle in the plane `x = 0`. -/
def flatLo : Q3 := ⟨0, 0, 0⟩

/-- The upper corner of the flat box. -/
def flatHi : Q3 := ⟨0, 1, 1⟩

/-- A ray origin in the plane `x = 0`, above the centre of the flat box. -/
def flatO : Q3 := ⟨0, 1 / 2, 5⟩

/-- A ray origin below the unit cube. -/
def grazeO : Q3 := ⟨2, -3, -9⟩

/-- The ray direction `(-0.2, 0.6, 2)`. -/
def grazeD : Q3 := ⟨dbl (-1 / 5), dbl (3 / 5), 2⟩

/-- The ray direction `(0, 1e-310, 0)`: parallel to the `y` axis, with a subnormal length. -/
def subD : Q3 := ⟨0, dbl (1 / 10 ^ 310), 0⟩

/-- A ray origin beside the unit cube. -/
def besideO : Q3 := ⟨-1, 1 / 2, 1 / 2⟩

/-- The box `(0.7, 0, 0.6) - (0.7, 1, 0.6)`, flat along `x` and `z`. -/
def thinLo : Q3 := ⟨dbl (7 / 10), 0, dbl (3 / 5)⟩

/-- The upper corner of the thin box. -/
def thinHi : Q3 := ⟨dbl (7 / 10), 1, dbl (3 / 5)⟩

/-- The ray origin `(-1.2, 0.5, 1.5)`. -/
def thinO : Q3 := ⟨dbl (-6 / 5), 1 / 2, 3 / 2⟩

/-- The ray direction `(1.9, 0, -0.9)`. -/
def thinD : Q3 := ⟨dbl (19 / 10), 0, dbl (-9 / 10)⟩

/-- A ray direction whose `x` component is the smallest positive double, `2^-1074`. -/
def tinyD : Q3 := ⟨Dbl.pow2 (-1074), 1, 1⟩

/-! ## The normal of a triangle -/

/-- A triangle in the plane `3 x + 4 y = 0`, with `(b - a) x (c - a) = (3, 4, 0)`. -/
def slantA : Q3 := ⟨0, 0, 0⟩

/-- Second vertex of the triangle in the plane `3 x + 4 y = 0`. -/
def slantB : Q3 := ⟨0, 0, 1⟩

/-- Third vertex of the triangle in the plane `3 x + 4 y = 0`. -/
def slantC : Q3 := ⟨4, -3, 0⟩

/-- Origin of a ray that reaches the point `(1, -3/4, 1/4)` of the slanted triangle. -/
def slantO : Q3 := ⟨-2, -19 / 4, 1 / 4⟩

/-- Direction of the ray towards the slanted triangle. -/
def slantD : Q3 := ⟨3, 4, 0⟩

/-- Second vertex of a triangle with legs of length `2^-500` in the plane `z = 0`. -/
def tinyB : Q3 := ⟨Dbl.pow2 (-500), 0, 0⟩

/-- Third vertex of the tiny triangle. -/
def tinyC : Q3 := ⟨0, Dbl.pow2 (-500), 0⟩

/-- A ray origin above the tiny triangle. -/
def tinyO : Q3 := ⟨Dbl.pow2 (-502), Dbl.pow2 (-502), 1⟩

/-! ## The ray-triangle test on particular inputs -/

/-- A ray origin `(11.6, -7.2, 3.2)`. -/
def vertexO : Q3 := ⟨dbl (58 / 5), dbl (-36 / 5), dbl (16 / 5)⟩

/-- The ray direction `(-2.9, 1.8, -0.8)`: from `vertexO` it reaches `(0, 0, 0)` at `t = 4`. -/
def vertexD : Q3 := ⟨dbl (-29 / 10), dbl (9 / 5), dbl (-4 / 5)⟩

/-- A ray origin above the point `(1, 2^-60, 0)`, just outside the triangle
`(0,0,0)`, `(1,0,0)`, `(0,1,0)`. -/
def edgeO : Q3 := ⟨1, Dbl.pow2 (-60), 5⟩

/-- Second vertex of a triangle with integer coordinates; the first is `(0, 0, 0)`. -/
def singB : Q3 := ⟨-131442609, 89758583, 0⟩

/-- Third vertex of the triangle with integer coordinates. -/
def singC : Q3 := ⟨-103874728, 46257801, 105400473⟩

/-- A ray origin in the plane of the triangle: the point `2 c`. -/
def singO : Q3 := ⟨-207749456, 92515602, 210800946⟩

/-! ## The shape of the nodes -/

/-- Another indeterminate value for the uninitialised member: whatever the memory held. -/
def junkUninit (_ : Nat) : Int := 7

/-- The shape of the node at index `i` of a built arena: a leaf with a triangle of the mesh,
or an internal node whose children are earlier entries, the right child the one just before
it, and whose member `triangle` holds the indeterminate value. -/
def NodeShape (uninit : Nat → Int) (F : List Vector3i) (i : Nat) (n : Node) : Prop :=
  (n.left = -1 ∧ n.right = -1 ∧ ∃ k : Nat, k < F.length ∧ n.triangle = (k : Int)) ∨
  (∃ l r : Nat, n.left = (l : Int) ∧ n.right = (r : Int) ∧ l < r ∧ r + 1 = i ∧
    n.triangle = uninit i)

/-! ## The sort axis -/

/-- The local `longest_dim` of `build_recursive` (main.cpp 193-194): the first largest
coefficient of `centroids.colwise().maxCoeff() - centroids.colwise().minCoeff()`, taken over
every row of `centroids`. -/
def longest_dim (centroids : List Vector3d) : Nat :=
  max_element3 ((colwiseMaxCoeff centroids).sub (colwiseMinCoeff centroids))

/-- In the words of the specification: the longest axis of the bounding box of the centroids
of the triangles `tris` of the range, ties resolved to the lowest axis index. -/
def spec_range_longest_axis (centroids : List Vector3d) (tris : List Int) : Nat :=
  let rows := tris.filterMap (getRow centroids)
  max_element3 ((colwiseMaxCoeff rows).sub (colwiseMinCoeff rows))

/-- Three triangles whose centroids are `(1, 1, 0)`, `(31, 16, 0)` and `(34, 1, 0)`. -/
def triV : List Q3 :=
  [⟨0, 0, 0⟩, ⟨3, 0, 0⟩, ⟨0, 3, 0⟩, ⟨30, 15, 0⟩, ⟨33, 15, 0⟩, ⟨30, 18, 0⟩,
   ⟨33, 0, 0⟩, ⟨36, 0, 0⟩, ⟨33, 3, 0⟩]

/-- The three facets over `triV`. -/
def triF : List Vector3i := [⟨0, 1, 2⟩, ⟨3, 4, 5⟩, ⟨6, 7, 8⟩]

/-- The matrix `centroids` of `triV`, `triF`. -/
def triCentroids : List Vector3d :=
  [Vector3d.ofQ 1 1 0, Vector3d.ofQ 31 16 0, Vector3d.ofQ 34 1 0]

/-! ## The depth of the tree -/

/-- The depth of the deepest leaf below node `i` of an arena, following the members `left`
and `right`; `none` when an index is out of bounds or `fuel` runs out. -/
def subtreeDepth (nodes : List Node) : Nat → Int → Option Nat
  | 0, _ => none
  | fuel + 1, i =>
    match getRow nodes i with
    | none => none
    | some n =>
      if n.isLeaf then some 0
      else
        match subtreeDepth nodes fuel n.left, subtreeDepth nodes fuel n.right with
        | some a, some b => some (max a b + 1)
        | _, _ => none

/-! ## Child indices -/

/-- The child indices that the internal nodes of an arena hold, in arena order: `left` and
`right` of every node that is not a leaf. -/
def childPointers : List Node → List Int
  | [] => []
  | n :: ns => if n.isLeaf then childPointers ns else n.left :: n.right :: childPointers ns

/-! ## The logged traversal -/

/-- The loop of `find_nearest_object` (main.cpp 279-305) with a log: the same iterations as
`find_nearest_loop`, and besides the state the list `popped` of the indices taken off the
stack and the list `tested` of the triangles handed to `ray_triangle_intersection`, both in
the order of the run. -/
def find_nearest_traced (sqrt : ℚ → ℚ) (scene : Scene) (ray_origin ray_direction : Vector3d) :
    Nat → List Int → Nearest → List Int → List Int →
      Except Fault (Nearest × List Int × List Int)
  | _, [], st, popped, tested => .ok (st, popped, tested)
  | 0, _ :: _, _, _, _ => .error .outOfFuel
  | fuel + 1, curr_node :: stack, st, popped, tested =>
    match getRow scene.bvh.nodes curr_node with
    | none => .error .outOfBounds
    | some node =>
      if ray_box_intersection ray_origin ray_direction node.bbox then
        if node.right == -1 && node.left == -1 then
          match visitLeaf sqrt scene ray_origin ray_direction node.triangle st with
          | none => .error .outOfBounds
          | some st1 =>
            find_nearest_traced sqrt scene ray_origin ray_direction fuel stack st1
              (popped ++ [curr_node]) (tested ++ [node.triangle])
        else
          find_nearest_traced sqrt scene ray_origin ray_direction fuel
            (node.left :: node.right :: stack) st (popped ++ [curr_node]) tested
      else
        find_nearest_traced sqrt scene ray_origin ray_direction fuel stack st
          (popped ++ [curr_node]) tested

/-- The result of a logged run without the log. -/
def dropLog : Except Fault (Nearest × List Int × List Int) → Except Fault Nearest
  | .ok r => .ok r.1
  | .error e => .error e

/-- The bbox of the root node of a tree. -/
def Tree.box (VQ : List Q3) (F : List Vector3i) : Tree → AlignedBox3d
  | .leaf t => (triQ VQ F t).toBox
  | .node l r => (boxQ VQ F (l.leaves ++ r.leaves)).toBox

/-- The arena indices that the loop takes off the stack while it handles the subtree `t`
stored from index `s`: the root, and the two subtrees when the ray passes the box test of
the root. -/
def Tree.popped (o d : Vector3d) (VQ : List Q3) (F : List Vector3i) : Tree → Nat → List Int
  | .leaf _, s => [(s : Int)]
  | .node l r, s =>
    ((s + l.size + r.size : Nat) : Int) ::
      (if ray_box_intersection o d (Tree.box VQ F (.node l r)) then
        Tree.popped o d VQ F l s ++ Tree.popped o d VQ F r (s + l.size)
      else [])

/-- The triangles that the loop tests while it handles the subtree `t`: the leaves whose own
box and the boxes of all the nodes above them in `t` pass the ray-box test. -/
def Tree.tested (o d : Vector3d) (VQ : List Q3) (F : List Vector3i) : Tree → List Int
  | .leaf t => if ray_box_intersection o d (Tree.box VQ F (.leaf t)) then [t] else []
  | .node l r =>
    if ray_box_intersection o d (Tree.box VQ F (.node l r)) then
      Tree.tested o d VQ F l ++ Tree.tested o d VQ F r
    else []

/-- Node `i` of the arena is the root, or the child of a node that is not a leaf, was reached
and passed the ray-box test: every node above `i` passed the test. -/
inductive Reached (nodes : List Node) (root : Int) (o d : Vector3d) : Int → Prop
  | root : Reached nodes root o d root
  | left (i : Int) (n : Node) : Reached nodes root o d i → getRow nodes i = some n →
      ray_box_intersection o d n.bbox = true → n.isLeaf = false →
      Reached nodes root o d n.left
  | right (i : Int) (n : Node) : Reached nodes root o d i → getRow nodes i = some n →
      ray_box_intersection o d n.bbox = true → n.isLeaf = false →
      Reached nodes root o d n.right

/-- A ray origin beside both triangles of `exV`, `exF`. -/
def missO : Q3 := ⟨5, 5, 5⟩


/-! ## A hit that the box test loses -/

/-- The vertices of a small triangle in the plane `z = 0` and a large one in `z = 1`. -/
def nearV : List Q3 := [⟨0, 0, 0⟩, ⟨1, 0, 0⟩, ⟨0, 1, 0⟩, ⟨-5, -5, 1⟩, ⟨5, -5, 1⟩, ⟨0, 5, 1⟩]

/-- The two facets over `nearV`. -/
def nearF : List Vector3i := [⟨0, 1, 2⟩, ⟨3, 4, 5⟩]

/-- The ray origin `(3.8, 4.7, -4.2)`, below both triangles. -/
def nearO : Q3 := ⟨dbl (19 / 5), dbl (47 / 10), dbl (-21 / 5)⟩

/-- The ray direction `(-1.9, -2.2, 2.1)`. -/
def nearD : Q3 := ⟨dbl (-19 / 10), dbl (-11 / 5), dbl (21 / 10)⟩

/-- The tree that the builder makes for `nearV`, `nearF`: the leaf of triangle 1, the leaf of
triangle 0, and the root over both. -/
def nearBvh : AABBTree :=
  ⟨[leafNode nearV nearF 1 (-1), leafNode nearV nearF 0 0,
    innerNode exUninit nearV nearF (.leaf 1) (.leaf 0) 0 (-1)], 2⟩

/-! ## A light beyond the hit point -/

/-- The vertices of a triangle in the plane `z = 0` around the origin. -/
def glossV : List Q3 := [⟨-1, -1, 0⟩, ⟨1, -1, 0⟩, ⟨0, 1, 0⟩]

/-- The single facet over `glossV`. -/
def glossF : List Vector3i := [⟨0, 1, 2⟩]

/-- The scene of `glossV`, `glossF` and their tree, one leaf. -/
def glossScene : Scene :=
  ⟨glossV.map Q3.toV, glossF, ⟨[leafNode glossV glossF 0 (-1)], 0⟩⟩

/-- A ray direction of length just below 1: the doubles `0.6107764945679015` and
`-0.7918030523326783`. -/
def glossD : Q3 := ⟨2750692793342659 / 4503599627370496, 0, -7131927862872543 / 9007199254740992⟩

/-- The ray origin `-2 d`: the ray reaches `(0, 0, 0)` at `t = 2`. -/
def glossO : Q3 := ⟨-2 * glossD.x, 0, -2 * glossD.z⟩

/-- A light below the triangle, next to the point `(0, 0, 0) + d`. -/
def glossLight : Q3 := ⟨5501385586685319 / 9007199254740992, 0, -222872745714767 / 281474976710656⟩

/-! ## Finite values and comparisons -/

namespace Dbl

theorem add_fin (a b : ℚ) : add (fin a) (fin b) = round (a + b) := rfl
@[simp] theorem neg_fin (a : ℚ) : neg (fin a) = fin (-a) := rfl
theorem sub_fin (a b : ℚ) : sub (fin a) (fin b) = round (a - b) := by
  simp only [sub, neg_fin, add_fin, sub_eq_add_neg]
theorem mul_fin (a b : ℚ) : mul (fin a) (fin b) = round (a * b) := rfl
theorem div_fin (a b : ℚ) (hb : b ≠ 0) : div (fin a) (fin b) = round (a / b) := by
  simp [div, hb]
@[simp] theorem lt_fin (a b : ℚ) : lt (fin a) (fin b) = decide (a < b) := rfl
@[simp] theorem le_fin (a b : ℚ) : le (fin a) (fin b) = decide (a ≤ b) := rfl
@[simp] theorem ge_fin (a b : ℚ) : ge (fin a) (fin b) = decide (b ≤ a) := rfl
@[simp] theorem max_fin (a b : ℚ) : max (fin a) (fin b) = fin (Max.max a b) := by
  by_cases h : a < b
  · simp [max, h, max_eq_right h.le]
  · simp [max, h, max_eq_left (not_lt.mp h)]
@[simp] theorem min_fin (a b : ℚ) : min (fin a) (fin b) = fin (Min.min a b) := by
  by_cases h : b < a
  · simp [min, h, min_eq_right h.le]
  · simp [min, h, min_eq_left (not_lt.mp h)]

end Dbl

/-! ## Rounding -/

namespace Dbl

theorem pow2_eq (e : Int) : pow2 e = (2 : ℚ) ^ e := by
  unfold pow2
  split
  · rename_i h
    obtain ⟨n, rfl⟩ := Int.eq_ofNat_of_zero_le h
    simp
  · rename_i h
    obtain ⟨n, hn⟩ := Int.eq_ofNat_of_zero_le (by omega : 0 ≤ -e)
    have he : e = -(n : Int) := by omega
    subst he
    simp

theorem pow2_pos (e : Int) : 0 < pow2 e := by
  rw [pow2_eq]
  positivity

theorem pow2_add (a b : Int) : pow2 (a + b) = pow2 a * pow2 b := by
  simp only [pow2_eq]
  exact zpow_add₀ (by norm_num) a b

theorem pow2_le {a b : Int} (h : a ≤ b) : pow2 a ≤ pow2 b := by
  simp only [pow2_eq]
  exact zpow_le_zpow_right₀ (by norm_num) h

theorem pow2_lt_iff {a b : Int} : pow2 a < pow2 b ↔ a < b := by
  simp only [pow2_eq]
  exact zpow_lt_zpow_iff_right₀ (by norm_num)

theorem pow2_le_iff {a b : Int} : pow2 a ≤ pow2 b ↔ a ≤ b := by
  simp only [pow2_eq]
  exact zpow_le_zpow_iff_right₀ (by norm_num)

theorem pow2_zero : pow2 0 = 1 := by
  simp [pow2_eq]

theorem pow2_natCast (n : Nat) : pow2 (n : Int) = ((2 ^ n : Nat) : ℚ) := by
  simp [pow2_eq]

theorem pow2_sub (a b : Int) : pow2 (a - b) = pow2 a / pow2 b := by
  have h := pow2_add (a - b) b
  rw [sub_add_cancel] at h
  rw [h, mul_div_assoc, div_self (pow2_pos b).ne', mul_one]

/-! ### The leading bit -/

theorem log2Bound_spec (n : Nat) : ∀ (fuel j : Nat), n < 2 ^ 2 ^ (j + fuel) →
    n < 2 ^ 2 ^ log2Bound n fuel j := by
  intro fuel
  induction fuel with
  | zero => intro j h; simpa [log2Bound] using h
  | succ f ih =>
    intro j h
    rw [log2Bound]
    split
    · assumption
    · exact ih (j + 1) (by rwa [Nat.add_assoc, Nat.add_comm 1 f])

theorem log2Search_spec (n : Nat) : ∀ (b k : Nat), 2 ^ k ≤ n → n < 2 ^ (k + 2 ^ b) →
    2 ^ log2Search n b k ≤ n ∧ n < 2 ^ (log2Search n b k + 1) := by
  intro b
  induction b with
  | zero =>
    intro k h1 h2
    simpa [log2Search] using ⟨h1, h2⟩
  | succ b ih =>
    intro k h1 h2
    rw [log2Search]
    split
    · rename_i h
      refine ih _ h ?_
      rw [Nat.add_assoc, ← Nat.two_mul, ← Nat.pow_succ']
      exact h2
    · rename_i h
      exact ih _ h1 (Nat.lt_of_not_le h)

theorem log2_spec (n : Nat) (hn : n ≠ 0) : 2 ^ log2 n ≤ n ∧ n < 2 ^ (log2 n + 1) := by
  unfold log2
  refine log2Search_spec n _ 0 (by simpa using Nat.pos_of_ne_zero hn) ?_
  rw [Nat.zero_add]
  refine log2Bound_spec n n 0 ?_
  rw [Nat.zero_add]
  exact lt_of_lt_of_le (Nat.lt_two_pow n) (Nat.pow_le_pow_right (by norm_num) (Nat.lt_two_pow n).le)

end Dbl

namespace Dbl

/-! ### The binary exponent -/

theorem abs_eq_natAbs_div (q : ℚ) : |q| = (q.num.natAbs : ℚ) / (q.den : ℚ) := by
  have h := Rat.num_div_den q
  have hd : (0 : ℚ) < q.den := by exact_mod_cast q.den_pos
  conv_lhs => rw [← h]
  rw [abs_div, abs_of_pos hd]
  congr 1
  rw [← Int.cast_abs, Int.abs_eq_natAbs, Int.cast_natCast]

theorem expo_spec (q : ℚ) (hq : q ≠ 0) : pow2 (expo q) ≤ |q| ∧ |q| < pow2 (expo q + 1) := by
  have hn : q.num.natAbs ≠ 0 := by
    simpa using (Rat.num_ne_zero.mpr hq)
  have hd : q.den ≠ 0 := q.den_nz
  obtain ⟨n1, n2⟩ := log2_spec _ hn
  obtain ⟨d1, d2⟩ := log2_spec _ hd
  have hdpos : (0 : ℚ) < q.den := by exact_mod_cast q.den_pos
  have habs := abs_eq_natAbs_div q
  have N1 : pow2 (log2 q.num.natAbs) ≤ (q.num.natAbs : ℚ) := by
    rw [pow2_natCast]; exact_mod_cast n1
  have N2 : (q.num.natAbs : ℚ) < pow2 ((log2 q.num.natAbs : Int) + 1) := by
    have : ((log2 q.num.natAbs : Int) + 1) = ((log2 q.num.natAbs + 1 : Nat) : Int) := by simp
    rw [this, pow2_natCast]; exact_mod_cast n2
  have D1 : pow2 (log2 q.den) ≤ (q.den : ℚ) := by
    rw [pow2_natCast]; exact_mod_cast d1
  have D2 : (q.den : ℚ) < pow2 ((log2 q.den : Int) + 1) := by
    have : ((log2 q.den : Int) + 1) = ((log2 q.den + 1 : Nat) : Int) := by simp
    rw [this, pow2_natCast]; exact_mod_cast d2
  -- bounds on the quotient
  have up : |q| < pow2 ((log2 q.num.natAbs : Int) - (log2 q.den : Int) + 1) := by
    rw [habs, div_lt_iff₀ hdpos]
    have e : pow2 ((log2 q.num.natAbs : Int) - (log2 q.den : Int) + 1) * pow2 (log2 q.den) =
        pow2 ((log2 q.num.natAbs : Int) + 1) := by
      rw [← pow2_add]; congr 1; ring
    calc (q.num.natAbs : ℚ) < pow2 ((log2 q.num.natAbs : Int) + 1) := N2
      _ = pow2 ((log2 q.num.natAbs : Int) - (log2 q.den : Int) + 1) * pow2 (log2 q.den) := e.symm
      _ ≤ pow2 ((log2 q.num.natAbs : Int) - (log2 q.den : Int) + 1) * (q.den : ℚ) :=
          mul_le_mul_of_nonneg_left D1 (pow2_pos _).le
  have lo : pow2 ((log2 q.num.natAbs : Int) - (log2 q.den : Int) - 1) < |q| := by
    rw [habs, lt_div_iff₀ hdpos]
    have e : pow2 ((log2 q.num.natAbs : Int) - (log2 q.den : Int) - 1) *
        pow2 ((log2 q.den : Int) + 1) = pow2 (log2 q.num.natAbs) := by
      rw [← pow2_add]; congr 1; ring
    calc pow2 ((log2 q.num.natAbs : Int) - (log2 q.den : Int) - 1) * (q.den : ℚ)
        < pow2 ((log2 q.num.natAbs : Int) - (log2 q.den : Int) - 1) *
            pow2 ((log2 q.den : Int) + 1) := mul_lt_mul_of_pos_left D2 (pow2_pos _)
      _ = pow2 (log2 q.num.natAbs) := e
      _ ≤ (q.num.natAbs : ℚ) := N1
  unfold expo
  simp only []
  split
  · rename_i h
    exact ⟨h, up⟩
  · rename_i h
    refine ⟨lo.le, ?_⟩
    rw [sub_add_cancel]
    exact not_le.mp h

theorem expo_unique (q : ℚ) (e : Int) (h1 : pow2 e ≤ |q|) (h2 : |q| < pow2 (e + 1)) :
    expo q = e := by
  have hq : q ≠ 0 := by
    intro h
    rw [h, abs_zero] at h1
    exact absurd h1 (not_le.mpr (pow2_pos e))
  obtain ⟨a, b⟩ := expo_spec q hq
  have x1 : expo q < e + 1 := pow2_lt_iff.mp (lt_of_le_of_lt a h2)
  have x2 : e < expo q + 1 := pow2_lt_iff.mp (lt_of_le_of_lt h1 b)
  omega

theorem expo_lt_of_abs_lt (q : ℚ) (hq : q ≠ 0) (e : Int) (h : |q| < pow2 e) : expo q < e :=
  pow2_lt_iff.mp (lt_of_le_of_lt (expo_spec q hq).1 h)

theorem le_expo_of_le_abs (q : ℚ) (hq : q ≠ 0) (e : Int) (h : pow2 e ≤ |q|) : e ≤ expo q := by
  have := pow2_lt_iff.mp (lt_of_le_of_lt h (expo_spec q hq).2)
  omega

theorem expo_neg (q : ℚ) : expo (-q) = expo q := by
  unfold expo
  simp only [Rat.neg_num, Int.natAbs_neg, Rat.neg_den, abs_neg]

theorem expo_mono {q q' : ℚ} (h0 : 0 < q) (h : q ≤ q') : expo q ≤ expo q' := by
  have hq' : 0 < q' := lt_of_lt_of_le h0 h
  refine le_expo_of_le_abs q' hq'.ne' _ ?_
  rw [abs_of_pos hq']
  have := (expo_spec q h0.ne').1
  rw [abs_of_pos h0] at this
  exact le_trans this h

theorem ulp_pos (q : ℚ) : 0 < ulp q := pow2_pos _

theorem ulp_neg (q : ℚ) : ulp (-q) = ulp q := by
  unfold ulp
  rw [expo_neg]

end Dbl

namespace Dbl

/-! ### Rounding to the nearest integer -/

theorem rne_cases (x : ℚ) :
    (rne x = ⌊x⌋ ∧ x - ⌊x⌋ ≤ 1 / 2) ∨ (rne x = ⌊x⌋ + 1 ∧ 1 / 2 ≤ x - ⌊x⌋) := by
  unfold rne
  split
  · rename_i h; exact Or.inl ⟨rfl, h.le⟩
  · rename_i h
    split
    · rename_i h'; exact Or.inr ⟨rfl, h'.le⟩
    · rename_i h'
      have e : x - ⌊x⌋ = 1 / 2 := le_antisymm (not_lt.mp h') (not_lt.mp h)
      split
      · exact Or.inl ⟨rfl, e.le⟩
      · exact Or.inr ⟨rfl, e.ge⟩

theorem rne_intCast (n : Int) : rne (n : ℚ) = n := by
  unfold rne
  simp

theorem rne_mono {x y : ℚ} (h : x ≤ y) : rne x ≤ rne y := by
  have hf : ⌊x⌋ ≤ ⌊y⌋ := Int.floor_mono h
  rcases lt_or_eq_of_le hf with hlt | heq
  · rcases rne_cases x with ⟨a, -⟩ | ⟨a, -⟩ <;> rcases rne_cases y with ⟨b, -⟩ | ⟨b, -⟩ <;>
      omega
  · have hfr : x - ⌊x⌋ ≤ y - ⌊y⌋ := by rw [heq]; linarith
    unfold rne
    by_cases y1 : y - ⌊y⌋ < 1 / 2
    · have x1 : x - ⌊x⌋ < 1 / 2 := lt_of_le_of_lt hfr y1
      rw [if_pos x1, if_pos y1]
      exact hf
    · rw [if_neg y1]
      by_cases y2 : 1 / 2 < y - ⌊y⌋
      · rw [if_pos y2]
        split
        · omega
        · split
          · omega
          · split <;> omega
      · rw [if_neg y2]
        have ey : y - ⌊y⌋ = 1 / 2 := le_antisymm (not_lt.mp y2) (not_lt.mp y1)
        have x2 : ¬ (1 / 2 < x - ⌊x⌋) := not_lt.mpr (ey ▸ hfr)
        rw [if_neg x2]
        by_cases x1 : x - ⌊x⌋ < 1 / 2
        · rw [if_pos x1]
          split <;> omega
        · rw [if_neg x1, heq]

theorem rne_neg (x : ℚ) : rne (-x) = -rne x := by
  by_cases hx : (⌊x⌋ : ℚ) = x
  · rw [← hx, ← Int.cast_neg, rne_intCast, rne_intCast]
  · have hlt : (⌊x⌋ : ℚ) < x := lt_of_le_of_ne (Int.floor_le x) hx
    have hfl : ⌊-x⌋ = -⌊x⌋ - 1 := by
      rw [Int.floor_eq_iff]
      push_cast
      constructor
      · have := Int.lt_floor_add_one x
        linarith
      · linarith
    unfold rne
    rw [hfl]
    push_cast
    by_cases h1 : x - ⌊x⌋ < 1 / 2
    · have a1 : ¬ (-x - (-(⌊x⌋ : ℚ) - 1) < 1 / 2) := by linarith
      have a2 : 1 / 2 < -x - (-(⌊x⌋ : ℚ) - 1) := by linarith
      rw [if_pos h1, if_neg a1, if_pos a2]
      ring
    · by_cases h2 : 1 / 2 < x - ⌊x⌋
      · have a1 : -x - (-(⌊x⌋ : ℚ) - 1) < 1 / 2 := by linarith
        rw [if_neg h1, if_pos h2, if_pos a1]
        ring
      · have a1 : ¬ (-x - (-(⌊x⌋ : ℚ) - 1) < 1 / 2) := by linarith
        have a2 : ¬ (1 / 2 < -x - (-(⌊x⌋ : ℚ) - 1)) := by linarith
        rw [if_neg h1, if_neg h2, if_neg a1, if_neg a2]
        by_cases he : ⌊x⌋ % 2 = 0
        · have ho : ¬ ((-⌊x⌋ - 1) % 2 = 0) := by omega
          rw [if_pos he, if_neg ho]
          ring
        · have ho : (-⌊x⌋ - 1) % 2 = 0 := by omega
          rw [if_neg he, if_pos ho]
          ring

theorem rne_le_of_le_int {x : ℚ} {k : Int} (h : x ≤ k) : rne x ≤ k := by
  have := rne_mono h
  rwa [rne_intCast] at this

theorem le_rne_of_int_le {x : ℚ} {k : Int} (h : (k : ℚ) ≤ x) : k ≤ rne x := by
  have := rne_mono h
  rwa [rne_intCast] at this

end Dbl

namespace Dbl

/-! ### The rounding of binary64 -/

theorem rval_zero : rval 0 = 0 := by
  unfold rval
  rw [zero_div, ← Int.cast_zero, rne_intCast]
  simp

theorem rval_neg (q : ℚ) : rval (-q) = -rval q := by
  unfold rval
  rw [ulp_neg, neg_div, rne_neg]
  push_cast
  ring

theorem rval_nonneg {q : ℚ} (h : 0 ≤ q) : 0 ≤ rval q := by
  unfold rval
  have h1 : ((0 : Int) : ℚ) ≤ q / ulp q := by
    rw [Int.cast_zero]
    exact div_nonneg h (ulp_pos q).le
  have h2 := le_rne_of_int_le h1
  exact mul_nonneg (by exact_mod_cast h2) (ulp_pos q).le

theorem rval_nonpos {q : ℚ} (h : q ≤ 0) : rval q ≤ 0 := by
  have := rval_nonneg (neg_nonneg.mpr h)
  rw [rval_neg] at this
  linarith

theorem rval_mono_pos {q q' : ℚ} (h0 : 0 < q) (h : q ≤ q') : rval q ≤ rval q' := by
  have h0' : 0 < q' := lt_of_lt_of_le h0 h
  have he := expo_mono h0 h
  by_cases heq : Max.max (expo q) (-1022) = Max.max (expo q') (-1022)
  · have hu : ulp q' = ulp q := by unfold ulp; rw [heq]
    unfold rval
    rw [hu]
    refine mul_le_mul_of_nonneg_right ?_ (ulp_pos q).le
    exact_mod_cast rne_mono (div_le_div_of_nonneg_right h (ulp_pos q).le)
  · -- the exponent of `q'` is larger and not clamped
    have hlt : Max.max (expo q) (-1022) < Max.max (expo q') (-1022) :=
      lt_of_le_of_ne (max_le_max he (le_refl _)) heq
    have hE' : Max.max (expo q') (-1022) = expo q' := by
      refine max_eq_left ?_
      by_contra hc
      have : Max.max (expo q') (-1022) = -1022 := max_eq_right (by omega)
      rw [this] at hlt
      have := le_max_right (expo q) (-1022)
      omega
    set E := Max.max (expo q) (-1022) with hE
    have hEq : expo q ≤ E := le_max_left _ _
    -- upper bound for `rval q`
    have up : rval q ≤ pow2 (E + 1) := by
      unfold rval ulp
      rw [← hE]
      have hq : q < pow2 (E + 1) := by
        have := (expo_spec q h0.ne').2
        rw [abs_of_pos h0] at this
        exact lt_of_lt_of_le this (pow2_le (by omega))
      have hdiv : q / pow2 (E - 52) ≤ ((2 ^ 53 : Int) : ℚ) := by
        rw [div_le_iff₀ (pow2_pos _)]
        have e : ((2 ^ 53 : Int) : ℚ) * pow2 (E - 52) = pow2 (E + 1) := by
          have : ((2 ^ 53 : Int) : ℚ) = pow2 53 := by
            rw [pow2_eq]; norm_num
          rw [this, ← pow2_add]; congr 1; ring
        rw [e]
        exact hq.le
      have hr := rne_le_of_le_int hdiv
      have e : pow2 (E + 1) = ((2 ^ 53 : Int) : ℚ) * pow2 (E - 52) := by
        have : ((2 ^ 53 : Int) : ℚ) = pow2 53 := by
          rw [pow2_eq]; norm_num
        rw [this, ← pow2_add]; congr 1; ring
      rw [e]
      exact mul_le_mul_of_nonneg_right (by exact_mod_cast hr) (pow2_pos _).le
    -- lower bound for `rval q'`
    have lo : pow2 (expo q') ≤ rval q' := by
      unfold rval ulp
      rw [hE']
      have hq : pow2 (expo q') ≤ q' := by
        have := (expo_spec q' h0'.ne').1
        rwa [abs_of_pos h0'] at this
      have hdiv : ((2 ^ 52 : Int) : ℚ) ≤ q' / pow2 (expo q' - 52) := by
        rw [le_div_iff₀ (pow2_pos _)]
        have e : ((2 ^ 52 : Int) : ℚ) * pow2 (expo q' - 52) = pow2 (expo q') := by
          have : ((2 ^ 52 : Int) : ℚ) = pow2 52 := by
            rw [pow2_eq]; norm_num
          rw [this, ← pow2_add]; congr 1; ring
        rw [e]
        exact hq
      have hr := le_rne_of_int_le hdiv
      have e : pow2 (expo q') = ((2 ^ 52 : Int) : ℚ) * pow2 (expo q' - 52) := by
        have : ((2 ^ 52 : Int) : ℚ) = pow2 52 := by
          rw [pow2_eq]; norm_num
        rw [this, ← pow2_add]; congr 1; ring
      rw [e]
      exact mul_le_mul_of_nonneg_right (by exact_mod_cast hr) (pow2_pos _).le
    rw [hE'] at hlt
    exact le_trans up (le_trans (pow2_le (by omega)) lo)

theorem rval_mono {q q' : ℚ} (h : q ≤ q') : rval q ≤ rval q' := by
  rcases lt_trichotomy 0 q with hq | hq | hq
  · exact rval_mono_pos hq h
  · rw [← hq, rval_zero]
    exact rval_nonneg (hq ▸ h)
  · rcases le_or_lt 0 q' with hq' | hq'
    · exact le_trans (rval_nonpos hq.le) (rval_nonneg hq')
    · have := rval_mono_pos (neg_pos.mpr hq') (neg_le_neg h)
      rw [rval_neg, rval_neg] at this
      linarith

theorem round_zero : round 0 = fin 0 := by
  unfold round
  rw [rval_zero]
  have := pow2_pos 1024
  rw [if_neg (by linarith), if_neg (by linarith)]

theorem round_neg (q : ℚ) : round (-q) = (round q).neg := by
  unfold round
  rw [rval_neg]
  have hp := pow2_pos 1024
  by_cases h1 : pow2 1024 ≤ rval q
  · rw [if_pos h1, if_neg (by linarith), if_pos (by linarith)]
    rfl
  · rw [if_neg h1]
    by_cases h2 : rval q ≤ -pow2 1024
    · rw [if_pos h2, if_pos (by linarith)]
      rfl
    · rw [if_neg h2, if_neg (by linarith), if_neg (by linarith)]
      rfl

theorem round_mono {q q' : ℚ} (h : q ≤ q') : Dbl.le (round q) (round q') = true := by
  have hm := rval_mono h
  have hp := pow2_pos 1024
  unfold round
  by_cases a1 : pow2 1024 ≤ rval q
  · rw [if_pos a1, if_pos (le_trans a1 hm)]
    rfl
  · rw [if_neg a1]
    by_cases a2 : rval q ≤ -pow2 1024
    · rw [if_pos a2]
      split
      · rfl
      · split <;> rfl
    · rw [if_neg a2]
      by_cases b1 : pow2 1024 ≤ rval q'
      · rw [if_pos b1]
        rfl
      · rw [if_neg b1, if_neg (by linarith)]
        simp only [Dbl.le, decide_eq_true_eq]
        exact hm

end Dbl

namespace Dbl

/-! ### Doubles -/

theorem rval_of_intCast_div {q : ℚ} (n : Int) (h : q / ulp q = n) : rval q = q := by
  unfold rval
  rw [h, rne_intCast, ← h, div_mul_cancel₀ _ (ulp_pos q).ne']

theorem rval_exact (m k : Int) (hm : |m| < 2 ^ 53) (hk : -1074 ≤ k) :
    rval (m * pow2 k) = m * pow2 k := by
  by_cases h0 : (m : ℚ) * pow2 k = 0
  · rw [h0, rval_zero]
  · have hm0 : m ≠ 0 := by
      intro h; apply h0; rw [h]; simp
    have habs : |(m : ℚ) * pow2 k| < pow2 (k + 53) := by
      rw [abs_mul, abs_of_pos (pow2_pos k), pow2_add, mul_comm (pow2 k)]
      refine mul_lt_mul_of_pos_right ?_ (pow2_pos k)
      have : pow2 53 = ((2 ^ 53 : Int) : ℚ) := by rw [pow2_eq]; norm_num
      rw [this, ← Int.cast_abs]
      exact_mod_cast hm
    have he := expo_lt_of_abs_lt _ h0 _ habs
    have hE : Max.max (expo ((m : ℚ) * pow2 k)) (-1022) - 52 ≤ k := by
      have : Max.max (expo ((m : ℚ) * pow2 k)) (-1022) ≤ k + 52 := max_le (by omega) (by omega)
      omega
    obtain ⟨j, hj⟩ := Int.eq_ofNat_of_zero_le (by omega :
      0 ≤ k - (Max.max (expo ((m : ℚ) * pow2 k)) (-1022) - 52))
    refine rval_of_intCast_div (m * 2 ^ j) ?_
    unfold ulp
    rw [mul_div_assoc, ← pow2_sub, hj, pow2_natCast]
    push_cast
    ring

theorem round_exact (m k : Int) (hm : |m| < 2 ^ 53) (hk : -1074 ≤ k)
    (hr : |(m : ℚ) * pow2 k| < pow2 1024) : round (m * pow2 k) = fin (m * pow2 k) := by
  unfold round
  rw [rval_exact m k hm hk]
  obtain ⟨h1, h2⟩ := abs_lt.mp hr
  rw [if_neg (by linarith), if_neg (by linarith)]

theorem round_intCast (n : Int) (hn : |n| < 2 ^ 53) : round (n : ℚ) = fin n := by
  have := round_exact n 0 hn (by norm_num) (by
    rw [pow2_zero, mul_one, ← Int.cast_abs]
    have : pow2 1024 = ((2 ^ 1024 : Int) : ℚ) := by rw [pow2_eq]; norm_num
    rw [this]
    have h2 : |n| < 2 ^ 1024 := lt_trans hn (by norm_num)
    exact_mod_cast h2)
  rwa [pow2_zero, mul_one] at this

theorem round_pow2 (k : Int) (h1 : -1074 ≤ k) (h2 : k < 1024) : round (pow2 k) = fin (pow2 k) := by
  have := round_exact 1 k (by norm_num) h1 (by
    rw [Int.cast_one, one_mul, abs_of_pos (pow2_pos k)]
    exact pow2_lt_iff.mpr h2)
  rwa [Int.cast_one, one_mul] at this

/-- A finite result of `round` is a multiple of `2 ^ -1074`. -/
theorem rval_grid (q : ℚ) : ∃ j : Int, rval q = j * pow2 (-1074) := by
  unfold rval ulp
  obtain ⟨n, hn⟩ := Int.eq_ofNat_of_zero_le (by
    have := le_max_right (expo q) (-1022)
    omega : 0 ≤ Max.max (expo q) (-1022) - 52 - (-1074))
  refine ⟨rne (q / pow2 (Max.max (expo q) (-1022) - 52)) * 2 ^ n, ?_⟩
  have e : pow2 (Max.max (expo q) (-1022) - 52) = pow2 n * pow2 (-1074) := by
    rw [← pow2_add, ← hn]; congr 1; ring
  rw [e, pow2_natCast]
  push_cast
  ring

theorem round_fin_grid {q r : ℚ} (h : round q = fin r) : ∃ j : Int, r = j * pow2 (-1074) := by
  unfold round at h
  split at h
  · cases h
  · split at h
    · cases h
    · cases h
      exact rval_grid q

/-- The difference of two distinct doubles does not round to zero. -/
theorem rval_sub_pos {x y : ℚ} (hx : round x = fin x) (hy : round y = fin y) (h : y < x) :
    pow2 (-1074) ≤ rval (x - y) := by
  obtain ⟨i, hi⟩ := round_fin_grid hx
  obtain ⟨j, hj⟩ := round_fin_grid hy
  have hij : j < i := by
    rw [hi, hj] at h
    have := lt_of_mul_lt_mul_right h (pow2_pos _).le
    exact_mod_cast this
  have hge : pow2 (-1074) ≤ x - y := by
    rw [hi, hj, ← sub_mul]
    have : (1 : ℚ) ≤ (i : ℚ) - j := by
      have : (1 : Int) ≤ i - j := by omega
      exact_mod_cast this
    calc pow2 (-1074) = 1 * pow2 (-1074) := (one_mul _).symm
      _ ≤ ((i : ℚ) - j) * pow2 (-1074) := mul_le_mul_of_nonneg_right this (pow2_pos _).le
  have := rval_mono hge
  have e : rval (pow2 (-1074)) = pow2 (-1074) := by
    have := rval_exact 1 (-1074) (by norm_num) (by norm_num)
    rwa [Int.cast_one, one_mul] at this
  rwa [e] at this

end Dbl
/-! ### Signs and bounds of rounded values -/

namespace Dbl

theorem round_ne_nan (q : ℚ) : round q ≠ nan := by
  unfold round
  split
  · intro h; cases h
  · split <;> intro h <;> cases h

theorem round_of_le {q c : ℚ} (hc : round c = fin c) (h : q ≤ c) :
    round q = ninf ∨ ∃ a, round q = fin a ∧ a ≤ c := by
  have hm := round_mono h
  rw [hc] at hm
  cases hq : round q with
  | fin a =>
    rw [hq] at hm
    exact Or.inr ⟨a, rfl, by simpa using hm⟩
  | pinf => rw [hq] at hm; cases hm
  | ninf => exact Or.inl rfl
  | nan => exact absurd hq (round_ne_nan q)

theorem round_of_ge {q c : ℚ} (hc : round c = fin c) (h : c ≤ q) :
    round q = pinf ∨ ∃ a, round q = fin a ∧ c ≤ a := by
  have hm := round_mono h
  rw [hc] at hm
  cases hq : round q with
  | fin a =>
    rw [hq] at hm
    exact Or.inr ⟨a, rfl, by simpa using hm⟩
  | pinf => exact Or.inl rfl
  | ninf => rw [hq] at hm; cases hm
  | nan => exact absurd hq (round_ne_nan q)

theorem round_of_nonpos {q : ℚ} (h : q ≤ 0) : round q = ninf ∨ ∃ a, round q = fin a ∧ a ≤ 0 :=
  round_of_le round_zero h

theorem round_of_nonneg {q : ℚ} (h : 0 ≤ q) : round q = pinf ∨ ∃ a, round q = fin a ∧ 0 ≤ a :=
  round_of_ge round_zero h

theorem round_neg_fin {c : ℚ} (hc : round c = fin c) : round (-c) = fin (-c) := by
  rw [round_neg, hc]
  rfl

theorem round_of_abs_le {q c : ℚ} (hc : round c = fin c) (h : |q| ≤ c) :
    ∃ a, round q = fin a ∧ |a| ≤ c := by
  obtain ⟨h1, h2⟩ := abs_le.mp h
  rcases round_of_le hc h2 with e | ⟨a, e, ha⟩
  · rcases round_of_ge (round_neg_fin hc) h1 with e' | ⟨b, e', -⟩
    · rw [e] at e'; cases e'
    · rw [e] at e'; cases e'
  · rcases round_of_ge (round_neg_fin hc) h1 with e' | ⟨b, e', hb⟩
    · rw [e] at e'; cases e'
    · rw [e] at e'
      cases e'
      exact ⟨a, e, abs_le.mpr ⟨hb, ha⟩⟩

/-- The difference of two distinct doubles does not round to zero. -/
theorem round_sub_pos {x y : ℚ} (hx : round x = fin x) (hy : round y = fin y) (h : y < x) :
    round (x - y) = pinf ∨ ∃ a, round (x - y) = fin a ∧ 0 < a := by
  have hp := rval_sub_pos hx hy h
  have h0 := pow2_pos (-1074)
  have h1 := pow2_pos 1024
  unfold round
  by_cases a1 : pow2 1024 ≤ rval (x - y)
  · rw [if_pos a1]
    exact Or.inl rfl
  · rw [if_neg a1, if_neg (by linarith)]
    exact Or.inr ⟨_, rfl, by linarith⟩

theorem round_sub_neg {x y : ℚ} (hx : round x = fin x) (hy : round y = fin y) (h : x < y) :
    round (x - y) = ninf ∨ ∃ a, round (x - y) = fin a ∧ a < 0 := by
  have e : x - y = -(y - x) := by ring
  rw [e, round_neg]
  rcases round_sub_pos hy hx h with h1 | ⟨a, h1, ha⟩
  · rw [h1]
    exact Or.inl rfl
  · rw [h1]
    exact Or.inr ⟨-a, rfl, by linarith⟩

end Dbl

/-! ## Boxes over ℚ -/

theorem QBox.extendBox_toBox (b c : QBox) :
    b.toBox.extendBox c.toBox = (b.union c).toBox := by
  simp only [AlignedBox3d.extendBox, QBox.toBox, Q3.toV, Vector3d.ofQ, Vector3d.cwiseMin,
    Vector3d.cwiseMax, Dbl.min_fin, Dbl.max_fin, QBox.union]

theorem QBox.extend_toBox (b : QBox) (p : Q3) :
    b.toBox.extend p.toV = (b.addPoint p).toBox := by
  simp only [AlignedBox3d.extend, QBox.toBox, Q3.toV, Vector3d.ofQ, Vector3d.cwiseMin,
    Vector3d.cwiseMax, Dbl.min_fin, Dbl.max_fin, QBox.union, QBox.addPoint]

theorem QBox.empty_toBox : QBox.empty.toBox = AlignedBox3d.empty := rfl

theorem QBox.union_comm (b c : QBox) : b.union c = c.union b := by
  simp only [QBox.union, min_comm, max_comm]

theorem QBox.union_assoc (b c e : QBox) : (b.union c).union e = b.union (c.union e) := by
  simp only [QBox.union, min_assoc, max_assoc]

theorem QBox.union_self (b : QBox) : b.union b = b := by
  simp only [QBox.union, min_self, max_self]

theorem QBox.union_right_comm (b c e : QBox) : (b.union c).union e = (b.union e).union c := by
  rw [QBox.union_assoc, QBox.union_comm c e, ← QBox.union_assoc]

theorem getRow_map {α β : Type} (g : α → β) (l : List α) (i : Int) :
    getRow (l.map g) i = (getRow l i).map g := by
  unfold getRow
  split <;> simp

theorem triangleVertices_map (VQ : List Q3) (f : Vector3i) :
    triangleVertices (VQ.map Q3.toV) f =
      (triangleVerticesQ VQ f).map (fun t => (t.1.toV, t.2.1.toV, t.2.2.toV)) := by
  unfold triangleVertices triangleVerticesQ
  simp only [getRow_map]
  cases getRow VQ f.x <;> cases getRow VQ f.y <;> cases getRow VQ f.z <;> rfl

theorem bbox_from_triangle_toV (a b c : Q3) :
    bbox_from_triangle a.toV b.toV c.toV =
      (((QBox.empty.addPoint a).addPoint b).addPoint c).toBox := by
  simp only [bbox_from_triangle, ← QBox.empty_toBox, QBox.extend_toBox]

theorem triangleBox_of_valid (VQ : List Q3) (F : List Vector3i) (t : Int)
    (h : ValidTriangle VQ F t) :
    triangleBox (VQ.map Q3.toV) F t = some (triQ VQ F t).toBox := by
  obtain ⟨f, a, b, c, hf, hv⟩ := h
  simp only [triangleBox, triQ, hf, triangleVertices_map, hv, Option.map_some',
    bbox_from_triangle_toV]

theorem extendRange_of_valid (VQ : List Q3) (F : List Vector3i) (ts : List Int)
    (h : ∀ t ∈ ts, ValidTriangle VQ F t) (b : QBox) :
    extendRange (VQ.map Q3.toV) F ts b.toBox =
      some (ts.foldl (fun b t => b.union (triQ VQ F t)) b).toBox := by
  induction ts generalizing b with
  | nil => rfl
  | cons t ts ih =>
    have ht := triangleBox_of_valid VQ F t (h t (List.mem_cons_self _ _))
    simp only [extendRange, ht, QBox.extendBox_toBox, List.foldl_cons]
    exact ih (fun t' ht' => h t' (List.mem_cons_of_mem _ ht')) _

theorem boxQ_perm (VQ : List Q3) (F : List Vector3i) (ts ts' : List Int) (h : ts.Perm ts') :
    boxQ VQ F ts = boxQ VQ F ts' := by
  unfold boxQ
  exact h.foldl_eq' (fun x _ y _ z => QBox.union_right_comm _ _ _) _

/-! ## The builder -/

theorem sortRange_append (sort : (Int → Int → Bool) → List Int → List Int)
    (less : Int → Int → Bool) (pre rng post : List Int) :
    sortRange sort less pre.length (pre.length + rng.length) (pre ++ rng ++ post) =
      pre ++ sort less rng ++ post := by
  unfold sortRange
  have h1 : (pre ++ rng ++ post).take pre.length = pre := by
    rw [List.append_assoc, List.take_left']
    rfl
  have h2 : (pre ++ rng ++ post).drop pre.length = rng ++ post := by
    rw [List.append_assoc, List.drop_left']
    rfl
  have h3 : (pre ++ rng ++ post).drop (pre.length + rng.length) = post := by
    rw [List.drop_left']
    simp
  rw [h1, h2, h3, Nat.add_sub_cancel_left, List.take_left']
  rfl

theorem range_append (pre rng post : List Int) :
    ((pre ++ rng ++ post).drop pre.length).take (pre.length + rng.length - pre.length) = rng := by
  rw [List.append_assoc, List.drop_left' rfl, Nat.add_sub_cancel_left, List.take_left' rfl]

theorem getElem?_middle (pre post : List Int) (t : Int) :
    (pre ++ [t] ++ post)[pre.length]? = some t := by
  rw [List.append_assoc, List.getElem?_append_right (le_refl _)]
  simp

theorem Tree.length_encode (uninit : Nat → Int) (VQ : List Q3) (F : List Vector3i)
    (t : Tree) : ∀ (start : Nat) (parent : Int),
      (t.encode uninit VQ F start parent).length = t.size := by
  induction t with
  | leaf t => intro _ _; rfl
  | node l r ihl ihr =>
    intro start parent
    simp only [Tree.encode, List.length_append, ihl, ihr, List.length_singleton, Tree.size]

theorem build_recursive_spec (sort : (Int → Int → Bool) → List Int → List Int)
    (uninit : Nat → Int) (hsort : ∀ less l, (sort less l).Perm l)
    (VQ : List Q3) (F : List Vector3i) (cs : List Vector3d) :
    ∀ (budget : Nat) (pre rng post : List Int) (parent : Int) (nodes : List Node),
      rng ≠ [] → rng.length ≤ budget → (∀ t ∈ rng, ValidTriangle VQ F t) →
      ∃ tree : Tree, tree.leaves.Perm rng ∧ tree.MedianSplit ∧
        build_recursive sort uninit (VQ.map Q3.toV) F cs budget pre.length
            (pre.length + rng.length) parent nodes (pre ++ rng ++ post) =
          some (((nodes.length + tree.size : Nat) : Int) - 1,
            nodes ++ tree.encode uninit VQ F nodes.length parent,
            pre ++ tree.leaves ++ post) := by
  intro budget
  induction budget with
  | zero =>
    intro pre rng post parent nodes hne hlen
    exact absurd (List.length_eq_zero.mp (Nat.le_zero.mp hlen)) hne
  | succ b ih =>
    intro pre rng post parent nodes hne hlen hv
    have hpos : 0 < rng.length := List.length_pos.mpr hne
    rw [build_recursive]
    simp only [Nat.add_sub_cancel_left]
    rw [if_neg (by omega)]
    by_cases h1 : rng.length = 1
    · rw [if_pos h1]
      obtain ⟨t, rfl⟩ := List.length_eq_one.mp h1
      refine ⟨Tree.leaf t, List.Perm.refl _, trivial, ?_⟩
      rw [getElem?_middle]
      simp only [triangleBox_of_valid VQ F t (hv t (List.mem_singleton_self t))]
      simp only [Tree.size, Tree.encode, Tree.leaves, List.length_append, List.length_singleton]
    · rw [if_neg h1]
      rw [sortRange_append]
      set less := centroidLess cs (max_element3 ((colwiseMaxCoeff cs).sub (colwiseMinCoeff cs)))
      have hperm : (sort less rng).Perm rng := hsort less rng
      have hv1 : ∀ t ∈ sort less rng, ValidTriangle VQ F t :=
        fun t ht => hv t (hperm.mem_iff.mp ht)
      have hlen1 : (sort less rng).length = rng.length := hperm.length_eq
      have hr : ((pre ++ sort less rng ++ post).drop pre.length).take rng.length =
          sort less rng := by
        rw [List.append_assoc, List.drop_left' rfl, List.take_left' hlen1]
      rw [hr, ← QBox.empty_toBox, extendRange_of_valid VQ F _ hv1]
      simp only []
      set k := rng.length with hk
      set r1 := (sort less rng).take (k / 2) with hr1
      set r2 := (sort less rng).drop (k / 2) with hr2
      have hsplit : sort less rng = r1 ++ r2 := (List.take_append_drop _ _).symm
      have hl1 : r1.length = k / 2 := by
        rw [hr1, List.length_take, hlen1]; omega
      have hl2 : r2.length = k - k / 2 := by
        rw [hr2, List.length_drop, hlen1]
      have hmid : (pre.length + (pre.length + k)) / 2 = pre.length + r1.length := by omega
      have hlast : pre.length + k = (pre ++ r1).length + r2.length := by
        rw [List.length_append]; omega
      have hne1 : r1 ≠ [] := by
        intro h; rw [h] at hl1; simp at hl1; omega
      have hne2 : r2 ≠ [] := by
        intro h; rw [h] at hl2; simp at hl2; omega
      obtain ⟨tl, hpl, hml, hbl⟩ := ih pre r1 (r2 ++ post) ((nodes.length : Int) - 1) nodes hne1
        (by omega) (fun t ht => hv1 t (by rw [hsplit]; exact List.mem_append_left _ ht))
      have e1 : pre ++ sort less rng ++ post = pre ++ r1 ++ (r2 ++ post) := by
        rw [hsplit]; simp only [List.append_assoc]
      rw [hmid, e1, hbl]
      simp only []
      have hll : tl.leaves.length = r1.length := hpl.length_eq
      obtain ⟨tr, hpr, hmr, hbr⟩ := ih (pre ++ tl.leaves) r2 post
        (((nodes ++ tl.encode uninit VQ F nodes.length ((nodes.length : Int) - 1)).length : Int) - 1)
        (nodes ++ tl.encode uninit VQ F nodes.length ((nodes.length : Int) - 1)) hne2
        (by omega) (fun t ht => hv1 t (by rw [hsplit]; exact List.mem_append_right _ ht))
      have e2 : pre ++ tl.leaves ++ (r2 ++ post) = pre ++ tl.leaves ++ r2 ++ post := by
        simp only [List.append_assoc]
      have e3 : pre.length + r1.length = (pre ++ tl.leaves).length := by
        rw [List.length_append, hll]
      have e4 : pre.length + k = (pre ++ tl.leaves).length + r2.length := by
        rw [List.length_append, hll]; omega
      rw [e2, e3, e4, hbr]
      refine ⟨Tree.node tl tr, ?_, ⟨?_, hml, hmr⟩, ?_⟩
      · simp only [Tree.leaves]
        exact (hpl.append hpr).trans (by rw [← hsplit]; exact hperm)
      · rw [hll, hpr.length_eq, hl1, hl2]; omega
      · have hbox : List.foldl (fun b t => b.union (triQ VQ F t)) QBox.empty (sort less rng) =
            boxQ VQ F (tl.leaves ++ tr.leaves) := by
          refine boxQ_perm VQ F _ _ ?_
          rw [hsplit]
          exact (hpl.append hpr).symm
        simp only [Tree.size, Tree.encode, Tree.leaves, List.length_append,
          List.length_singleton, List.append_assoc, Tree.length_encode, hbox, Nat.add_assoc]

/-! ## The arena of a tree -/

theorem getElem?_decomp {α : Type} (pre post : List α) (x : α) :
    (pre ++ [x] ++ post)[pre.length]? = some x := by
  rw [List.append_assoc, List.getElem?_append_right (le_refl _)]
  simp

theorem Tree.size_pos (t : Tree) : 0 < t.size := by
  cases t <;> simp [Tree.size]

theorem Tree.encode_leaf (uninit : Nat → Int) (VQ : List Q3) (F : List Vector3i) (t : Int)
    (s : Nat) (par : Int) :
    (Tree.leaf t).encode uninit VQ F s par = [leafNode VQ F t par] := rfl

theorem Tree.encode_node (uninit : Nat → Int) (VQ : List Q3) (F : List Vector3i) (l r : Tree)
    (s : Nat) (par : Int) :
    (Tree.node l r).encode uninit VQ F s par =
      l.encode uninit VQ F s ((s : Int) - 1) ++
        r.encode uninit VQ F (s + l.size) (((s + l.size : Nat) : Int) - 1) ++
        [innerNode uninit VQ F l r s par] := rfl

theorem Embeds.leaf_get {uninit : Nat → Int} {VQ : List Q3} {F : List Vector3i}
    {A : List Node} {t : Int} {s : Nat} {par : Int}
    (h : Embeds uninit VQ F A (Tree.leaf t) s par) : A[s]? = some (leafNode VQ F t par) := by
  obtain ⟨pre, post, rfl, rfl⟩ := h
  rw [Tree.encode_leaf]
  exact getElem?_decomp _ _ _

theorem Embeds.left {uninit : Nat → Int} {VQ : List Q3} {F : List Vector3i}
    {A : List Node} {l r : Tree} {s : Nat} {par : Int}
    (h : Embeds uninit VQ F A (Tree.node l r) s par) :
    Embeds uninit VQ F A l s ((s : Int) - 1) := by
  obtain ⟨pre, post, rfl, rfl⟩ := h
  refine ⟨pre, r.encode uninit VQ F (pre.length + l.size) (((pre.length + l.size : Nat) : Int) - 1)
    ++ [innerNode uninit VQ F l r pre.length par] ++ post, ?_, rfl⟩
  rw [Tree.encode_node]
  simp only [List.append_assoc]

theorem Embeds.right {uninit : Nat → Int} {VQ : List Q3} {F : List Vector3i}
    {A : List Node} {l r : Tree} {s : Nat} {par : Int}
    (h : Embeds uninit VQ F A (Tree.node l r) s par) :
    Embeds uninit VQ F A r (s + l.size) (((s + l.size : Nat) : Int) - 1) := by
  obtain ⟨pre, post, rfl, rfl⟩ := h
  refine ⟨pre ++ l.encode uninit VQ F pre.length ((pre.length : Int) - 1),
    [innerNode uninit VQ F l r pre.length par] ++ post, ?_, ?_⟩
  · rw [Tree.encode_node]
    simp only [List.append_assoc]
  · rw [List.length_append, Tree.length_encode]

theorem Embeds.node_get {uninit : Nat → Int} {VQ : List Q3} {F : List Vector3i}
    {A : List Node} {l r : Tree} {s : Nat} {par : Int}
    (h : Embeds uninit VQ F A (Tree.node l r) s par) :
    A[s + l.size + r.size]? = some (innerNode uninit VQ F l r s par) := by
  obtain ⟨pre, post, rfl, rfl⟩ := h
  rw [Tree.encode_node]
  have e : pre.length + l.size + r.size =
      (pre ++ l.encode uninit VQ F pre.length ((pre.length : Int) - 1) ++
        r.encode uninit VQ F (pre.length + l.size)
          (((pre.length + l.size : Nat) : Int) - 1)).length := by
    simp only [List.length_append, Tree.length_encode]
  rw [e]
  have := getElem?_decomp (pre ++ l.encode uninit VQ F pre.length ((pre.length : Int) - 1) ++
        r.encode uninit VQ F (pre.length + l.size)
          (((pre.length + l.size : Nat) : Int) - 1)) post
    (innerNode uninit VQ F l r pre.length par)
  rw [← this]
  simp only [List.append_assoc]

theorem Embeds.length_le {uninit : Nat → Int} {VQ : List Q3} {F : List Vector3i}
    {A : List Node} {t : Tree} {s : Nat} {par : Int}
    (h : Embeds uninit VQ F A t s par) : s + t.size ≤ A.length := by
  obtain ⟨pre, post, rfl, rfl⟩ := h
  simp only [List.length_append, Tree.length_encode]
  omega

/-- Every node of an embedded tree satisfies `P` as soon as the leaf nodes and the internal
nodes that the builder makes do; `Q` is a property of the triangles of the leaves. -/
theorem Embeds.forall_nodes {uninit : Nat → Int} {VQ : List Q3} {F : List Vector3i}
    {A : List Node} (P : Nat → Node → Prop) (Q : Int → Prop)
    (hleaf : ∀ t s par, Q t → Embeds uninit VQ F A (Tree.leaf t) s par →
      P s (leafNode VQ F t par))
    (hnode : ∀ l r s par, (∀ x ∈ l.leaves ++ r.leaves, Q x) →
      Embeds uninit VQ F A (Tree.node l r) s par →
      P (s + l.size + r.size) (innerNode uninit VQ F l r s par)) :
    ∀ (t : Tree) (s : Nat) (par : Int), (∀ x ∈ t.leaves, Q x) → Embeds uninit VQ F A t s par →
      ∀ i n, s ≤ i → i < s + t.size → A[i]? = some n → P i n := by
  intro t
  induction t with
  | leaf t =>
    intro s par hq h i n h1 h2 hi
    have e : i = s := by simp only [Tree.size] at h2; omega
    subst e
    rw [h.leaf_get] at hi
    cases hi
    exact hleaf t i par (hq t (List.mem_singleton_self t)) h
  | node l r ihl ihr =>
    intro s par hq h i n h1 h2 hi
    simp only [Tree.size] at h2
    by_cases c1 : i < s + l.size
    · exact ihl s _ (fun x hx => hq x (List.mem_append_left _ hx)) h.left i n h1 c1 hi
    · by_cases c2 : i < s + l.size + r.size
      · exact ihr _ _ (fun x hx => hq x (List.mem_append_right _ hx)) h.right i n (by omega)
          c2 hi
      · have e : i = s + l.size + r.size := by omega
        subst e
        rw [h.node_get] at hi
        cases hi
        exact hnode l r s par hq h

theorem Embeds.root_get {uninit : Nat → Int} {VQ : List Q3} {F : List Vector3i}
    {A : List Node} {t : Tree} {s : Nat} {par : Int}
    (h : Embeds uninit VQ F A t s par) :
    ∃ n, A[s + t.size - 1]? = some n ∧ n.parent = par ∧
      (∀ tri, t = Tree.leaf tri → n = leafNode VQ F tri par) ∧
      (∀ l r, t = Tree.node l r → n = innerNode uninit VQ F l r s par) := by
  cases t with
  | leaf tri =>
    refine ⟨leafNode VQ F tri par, ?_, rfl, ?_, ?_⟩
    · simpa [Tree.size] using h.leaf_get
    · intro tri' e
      cases e
      rfl
    · intro l r e
      cases e
  | node l r =>
    refine ⟨innerNode uninit VQ F l r s par, ?_, rfl, ?_, ?_⟩
    · have e : s + (Tree.node l r).size - 1 = s + l.size + r.size := by
        simp only [Tree.size]; omega
      rw [e]
      exact h.node_get
    · intro tri' e
      cases e
    · intro l' r' e
      cases e
      rfl

/-! ## The constructor -/

theorem computeCentroids_of_valid (VQ : List Q3) (F : List Vector3i) (hv : ValidMesh VQ F) :
    ∃ cs, computeCentroids (VQ.map Q3.toV) F = some cs := by
  induction F with
  | nil => exact ⟨[], rfl⟩
  | cons f fs ih =>
    obtain ⟨cs, hcs⟩ := ih (fun g hg => hv g (List.mem_cons_of_mem _ hg))
    obtain ⟨a, b, c, habc⟩ := hv f (List.mem_cons_self _ _)
    simp only [computeCentroids, centroidRow, triangleVertices_map, habc, Option.map_some', hcs]
    exact ⟨_, rfl⟩

theorem mem_iota {n : Nat} {t : Int} (h : t ∈ iota n) : ∃ i : Nat, i < n ∧ t = (i : Int) := by
  simp only [iota, List.mem_map, List.mem_range] at h
  obtain ⟨i, hi, rfl⟩ := h
  exact ⟨i, hi, rfl⟩

theorem length_iota (n : Nat) : (iota n).length = n := by
  simp [iota]

theorem getRow_natCast {α : Type} (l : List α) (i : Nat) : getRow l (i : Int) = l[i]? := by
  simp [getRow]

theorem validTriangle_of_mem_iota (VQ : List Q3) (F : List Vector3i) (hv : ValidMesh VQ F)
    (t : Int) (h : t ∈ iota F.length) : ValidTriangle VQ F t := by
  obtain ⟨i, hi, rfl⟩ := mem_iota h
  obtain ⟨a, b, c, habc⟩ := hv F[i] (List.getElem_mem _)
  exact ⟨F[i], a, b, c, by rw [getRow_natCast, List.getElem?_eq_getElem hi], habc⟩

theorem AABBTree_spec (sort : (Int → Int → Bool) → List Int → List Int) (uninit : Nat → Int)
    (hsort : ∀ less l, (sort less l).Perm l) (VQ : List Q3) (F : List Vector3i)
    (hv : ValidMesh VQ F) (hne : F ≠ []) :
    ∃ tree : Tree, tree.leaves.Perm (iota F.length) ∧ tree.MedianSplit ∧
      AABBTree.AABBTree sort uninit (VQ.map Q3.toV) F =
        some ⟨tree.encode uninit VQ F 0 (-1), (tree.size : Int) - 1⟩ := by
  obtain ⟨cs, hcs⟩ := computeCentroids_of_valid VQ F hv
  have hne' : iota F.length ≠ [] := by
    intro h
    have := congrArg List.length h
    rw [length_iota] at this
    exact hne (List.length_eq_zero.mp this)
  obtain ⟨tree, hp, hm, hb⟩ := build_recursive_spec sort uninit hsort VQ F cs (F.length + 1) []
    (iota F.length) [] (-1) [] hne' (by rw [length_iota]; omega)
    (validTriangle_of_mem_iota VQ F hv)
  refine ⟨tree, hp, hm, ?_⟩
  simp only [List.length_nil, Nat.zero_add, List.nil_append, List.append_nil, length_iota] at hb
  simp only [AABBTree.AABBTree, hcs, hb]

theorem AABBTree_empty (sort : (Int → Int → Bool) → List Int → List Int) (uninit : Nat → Int)
    (V : List Vector3d) :
    AABBTree.AABBTree sort uninit V [] = some ⟨[], -1⟩ := rfl

theorem embeds_encode (uninit : Nat → Int) (VQ : List Q3) (F : List Vector3i) (t : Tree)
    (par : Int) : Embeds uninit VQ F (t.encode uninit VQ F 0 par) t 0 par :=
  ⟨[], [], by simp, rfl⟩

/-! ## Leaves and triangles -/

theorem isLeaf_leafNode (VQ : List Q3) (F : List Vector3i) (t par : Int) :
    (leafNode VQ F t par).isLeaf = true := rfl

theorem isLeaf_innerNode (uninit : Nat → Int) (VQ : List Q3) (F : List Vector3i) (l r : Tree)
    (s : Nat) (par : Int) : (innerNode uninit VQ F l r s par).isLeaf = false := by
  have := l.size_pos
  have := r.size_pos
  simp only [Node.isLeaf, innerNode, Bool.and_eq_false_imp, beq_iff_eq]
  intro h
  omega

theorem leaves_of_encode (uninit : Nat → Int) (VQ : List Q3) (F : List Vector3i) (t : Tree) :
    ∀ (s : Nat) (par : Int),
      ((t.encode uninit VQ F s par).filter Node.isLeaf).map Node.triangle = t.leaves := by
  induction t with
  | leaf t => intro s par; rfl
  | node l r ihl ihr =>
    intro s par
    rw [Tree.encode_node]
    simp only [List.filter_append, List.map_append, ihl, ihr, Tree.leaves]
    simp [List.filter, isLeaf_innerNode]

theorem nodup_iota (n : Nat) : (iota n).Nodup := by
  unfold iota
  exact (List.nodup_range n).map (fun a b h => by simpa using h)

/-- C9. For a mesh with `n >= 1` triangles whose vertex indices are valid, and any `sort` that
returns a permutation of its input: the `triangle` fields of the leaves (the nodes with
`left = right = -1`) of the tree built by `AABBTree(V, F)` are a permutation of `0 .. n-1`;
every triangle index is the triangle of exactly one leaf, and there are `n` leaves. -/
theorem every_triangle_in_exactly_one_leaf
    (sort : (Int → Int → Bool) → List Int → List Int) (uninit : Nat → Int)
    (hsort : ∀ less l, (sort less l).Perm l) (VQ : List Q3) (F : List Vector3i)
    (hv : ValidMesh VQ F) (hn : 1 ≤ F.length) :
    ∃ bvh, AABBTree.AABBTree sort uninit (VQ.map Q3.toV) F = some bvh ∧
      ((bvh.nodes.filter (fun n => n.left == -1 && n.right == -1)).map Node.triangle).Perm
        (iota F.length) ∧
      (∀ i : Nat, i < F.length →
        (bvh.nodes.filter (fun n => n.left == -1 && n.right == -1 &&
          n.triangle == (i : Int))).length = 1) ∧
      (bvh.nodes.filter (fun n => n.left == -1 && n.right == -1)).length = F.length := by
  have hne : F ≠ [] := by
    intro h; rw [h] at hn; simp at hn
  obtain ⟨tree, hp, -, hb⟩ := AABBTree_spec sort uninit hsort VQ F hv hne
  have hf : (fun n : Node => n.left == -1 && n.right == -1) = Node.isLeaf := by
    funext n
    simp only [Node.isLeaf, Bool.and_comm]
  have h1 := leaves_of_encode uninit VQ F tree 0 (-1)
  refine ⟨_, hb, ?_, ?_, ?_⟩
  · simp only [hf, h1]
    exact hp
  · intro i hi
    have hcount : (tree.leaves.filter (fun t => t == (i : Int))).length = 1 := by
      rw [← List.countP_eq_length_filter, ← List.count, hp.count_eq,
        List.count_eq_one_of_mem (nodup_iota _)]
      simp only [iota, List.mem_map, List.mem_range]
      exact ⟨i, hi, rfl⟩
    rw [← h1, List.filter_map, List.length_map, List.filter_filter] at hcount
    rw [← hcount]
    congr 1
    refine List.filter_congr (fun n _ => ?_)
    simp only [Node.isLeaf, Function.comp]
    cases (n.left == -1) <;> cases (n.right == -1) <;> cases (n.triangle == (i : Int)) <;> rfl
  · have := congrArg List.length h1
    rw [List.length_map, hp.length_eq, length_iota] at this
    simpa only [hf] using this

/-! ## Bounding boxes of the nodes -/

theorem triQ_clamped (VQ : List Q3) (F : List Vector3i) (t : Int) :
    QBox.empty.union (triQ VQ F t) = triQ VQ F t := by
  unfold triQ
  split
  · exact QBox.union_self _
  · split
    · exact QBox.union_self _
    · simp only [QBox.addPoint, ← QBox.union_assoc, QBox.union_self]

theorem foldl_union_clamped (VQ : List Q3) (F : List Vector3i) (ts : List Int) :
    ∀ b : QBox, b.union QBox.empty = b →
      ts.foldl (fun b t => b.union (triQ VQ F t)) b = b.union (boxQ VQ F ts) := by
  induction ts with
  | nil => intro b hb; exact hb.symm
  | cons t ts ih =>
    intro b hb
    have h1 : (b.union (triQ VQ F t)).union QBox.empty = b.union (triQ VQ F t) := by
      rw [QBox.union_right_comm, hb]
    have h2 : (QBox.empty.union (triQ VQ F t)).union QBox.empty =
        QBox.empty.union (triQ VQ F t) := by
      rw [QBox.union_right_comm, QBox.union_self]
    simp only [List.foldl_cons, boxQ]
    rw [ih _ h1, ih _ h2, triQ_clamped, ← QBox.union_assoc]

theorem boxQ_clamped (VQ : List Q3) (F : List Vector3i) (ts : List Int) :
    (boxQ VQ F ts).union QBox.empty = boxQ VQ F ts := by
  have := foldl_union_clamped VQ F ts QBox.empty (QBox.union_self _)
  unfold boxQ at this ⊢
  rw [this, QBox.union_right_comm, QBox.union_self]

theorem boxQ_append (VQ : List Q3) (F : List Vector3i) (l r : List Int) :
    boxQ VQ F (l ++ r) = (boxQ VQ F l).union (boxQ VQ F r) := by
  have := foldl_union_clamped VQ F r (boxQ VQ F l) (boxQ_clamped VQ F l)
  rw [← this]
  simp only [boxQ, List.foldl_append]

theorem boxQ_singleton (VQ : List Q3) (F : List Vector3i) (t : Int) :
    boxQ VQ F [t] = triQ VQ F t := by
  simp only [boxQ, List.foldl_cons, List.foldl_nil, triQ_clamped]

theorem Embeds.root_bbox {uninit : Nat → Int} {VQ : List Q3} {F : List Vector3i}
    {A : List Node} {t : Tree} {s : Nat} {par : Int}
    (h : Embeds uninit VQ F A t s par) :
    ∃ n, A[s + t.size - 1]? = some n ∧ n.bbox = (boxQ VQ F t.leaves).toBox := by
  obtain ⟨n, hn, -, hl, hi⟩ := h.root_get
  refine ⟨n, hn, ?_⟩
  cases t with
  | leaf tri =>
    rw [hl tri rfl]
    simp only [leafNode, Tree.leaves, boxQ_singleton]
  | node l r =>
    rw [hi l r rfl]
    simp only [innerNode, Tree.leaves]

theorem triQ_of_valid (VQ : List Q3) (F : List Vector3i) (t : Int) (f : Vector3i)
    (a b c : Q3) (hf : getRow F t = some f) (hv : triangleVerticesQ VQ f = some (a, b, c))
    (ha : InRange a) :
    triQ VQ F t =
      ⟨⟨min (min a.x b.x) c.x, min (min a.y b.y) c.y, min (min a.z b.z) c.z⟩,
       ⟨max (max a.x b.x) c.x, max (max a.y b.y) c.y, max (max a.z b.z) c.z⟩⟩ := by
  obtain ⟨⟨h1, h2⟩, ⟨h3, h4⟩, h5, h6⟩ := ha
  simp only [triQ, hf, hv, QBox.addPoint, QBox.union, QBox.empty, min_eq_right h2,
    min_eq_right h4, min_eq_right h6, max_eq_right h1, max_eq_right h3, max_eq_right h5]

theorem mem_of_getRow {α : Type} {l : List α} {i : Int} {a : α} (h : getRow l i = some a) :
    a ∈ l := by
  unfold getRow at h
  split at h
  · exact List.mem_iff_getElem?.mpr ⟨_, h⟩
  · cases h

/-- C10. In the tree built by `AABBTree(V, F)` over a mesh with valid vertex indices and
coordinates in the range of a `double`: the bbox of every leaf (`left = right = -1`) is the
component-wise min and max of the three vertices of its triangle, and the bbox of every other
node is the union (min of mins, max of maxes) of the bboxes of the two nodes that `left` and
`right` index. -/
theorem node_bbox_is_union (sort : (Int → Int → Bool) → List Int → List Int)
    (uninit : Nat → Int) (hsort : ∀ less l, (sort less l).Perm l) (VQ : List Q3)
    (F : List Vector3i) (hv : ValidMesh VQ F) (hr : ∀ v ∈ VQ, InRange v) :
    ∃ bvh, AABBTree.AABBTree sort uninit (VQ.map Q3.toV) F = some bvh ∧
      ∀ (i : Nat) (n : Node), bvh.nodes[i]? = some n →
        ((n.left = -1 ∧ n.right = -1) →
          ∃ f a b c, getRow F n.triangle = some f ∧ triangleVerticesQ VQ f = some (a, b, c) ∧
            n.bbox =
              ⟨Vector3d.ofQ (min (min a.x b.x) c.x) (min (min a.y b.y) c.y)
                (min (min a.z b.z) c.z),
               Vector3d.ofQ (max (max a.x b.x) c.x) (max (max a.y b.y) c.y)
                (max (max a.z b.z) c.z)⟩) ∧
        (¬ (n.left = -1 ∧ n.right = -1) →
          ∃ (nl nr : Node) (ql qr : QBox), getRow bvh.nodes n.left = some nl ∧
            getRow bvh.nodes n.right = some nr ∧ nl.bbox = ql.toBox ∧ nr.bbox = qr.toBox ∧
            n.bbox = (ql.union qr).toBox ∧ n.bbox = nl.bbox.extendBox nr.bbox) := by
  by_cases hne : F = []
  · subst hne
    refine ⟨_, AABBTree_empty sort uninit _, ?_⟩
    intro i n hi
    simp at hi
  obtain ⟨tree, hp, -, hb⟩ := AABBTree_spec sort uninit hsort VQ F hv hne
  refine ⟨_, hb, ?_⟩
  intro i n hi
  have hi' : i < (tree.encode uninit VQ F 0 (-1)).length := by
    by_contra hc
    rw [List.getElem?_eq_none (not_lt.mp hc)] at hi
    cases hi
  rw [Tree.length_encode] at hi'
  refine Embeds.forall_nodes (A := tree.encode uninit VQ F 0 (-1))
    (fun _ n => ((n.left = -1 ∧ n.right = -1) →
          ∃ f a b c, getRow F n.triangle = some f ∧ triangleVerticesQ VQ f = some (a, b, c) ∧
            n.bbox =
              ⟨Vector3d.ofQ (min (min a.x b.x) c.x) (min (min a.y b.y) c.y)
                (min (min a.z b.z) c.z),
               Vector3d.ofQ (max (max a.x b.x) c.x) (max (max a.y b.y) c.y)
                (max (max a.z b.z) c.z)⟩) ∧
        (¬ (n.left = -1 ∧ n.right = -1) →
          ∃ (nl nr : Node) (ql qr : QBox),
            getRow (tree.encode uninit VQ F 0 (-1)) n.left = some nl ∧
            getRow (tree.encode uninit VQ F 0 (-1)) n.right = some nr ∧
            nl.bbox = ql.toBox ∧ nr.bbox = qr.toBox ∧
            n.bbox = (ql.union qr).toBox ∧ n.bbox = nl.bbox.extendBox nr.bbox))
    (ValidTriangle VQ F) ?_ ?_ tree 0 (-1)
    (fun x hx => validTriangle_of_mem_iota VQ F hv x (hp.mem_iff.mp hx))
    (embeds_encode uninit VQ F tree (-1)) i n (Nat.zero_le _) (by omega) hi
  · intro t s par hq _
    refine ⟨fun _ => ?_, fun hc => absurd ⟨rfl, rfl⟩ hc⟩
    obtain ⟨f, a, b, c, hf, habc⟩ := hq
    have hamem : a ∈ VQ := by
      unfold triangleVerticesQ at habc
      split at habc
      · rename_i a' b' c' ha' _ _
        cases habc
        exact mem_of_getRow ha'
      · cases habc
    refine ⟨f, a, b, c, hf, habc, ?_⟩
    show (triQ VQ F t).toBox = _
    rw [triQ_of_valid VQ F t f a b c hf habc (hr a hamem)]
    rfl
  · intro l r s par _ h
    refine ⟨fun hc => ?_, fun _ => ?_⟩
    · have := l.size_pos
      have h1 : (innerNode uninit VQ F l r s par).left = -1 := hc.1
      simp only [innerNode] at h1
      omega
    · obtain ⟨nl, hnl, hbl⟩ := h.left.root_bbox
      obtain ⟨nr, hnr, hbr⟩ := h.right.root_bbox
      have := l.size_pos
      have := r.size_pos
      refine ⟨nl, nr, boxQ VQ F l.leaves, boxQ VQ F r.leaves, ?_, ?_, hbl, hbr, ?_, ?_⟩
      · have e : (innerNode uninit VQ F l r s par).left = ((s + l.size - 1 : Nat) : Int) := by
          simp only [innerNode]; omega
        rw [e, getRow_natCast]
        exact hnl
      · have e : (innerNode uninit VQ F l r s par).right =
            ((s + l.size + r.size - 1 : Nat) : Int) := by
          simp only [innerNode]; omega
        rw [e, getRow_natCast]
        exact hnr
      · show (boxQ VQ F (l.leaves ++ r.leaves)).toBox = _
        rw [boxQ_append]
      · show (boxQ VQ F (l.leaves ++ r.leaves)).toBox = _
        rw [hbl, hbr, QBox.extendBox_toBox, boxQ_append]

/-! ## Sizes and indices -/

theorem Tree.size_eq (t : Tree) : t.size = 2 * t.leaves.length - 1 := by
  induction t with
  | leaf t => rfl
  | node l r ihl ihr =>
    have := l.size_pos
    have := r.size_pos
    simp only [Tree.size, Tree.leaves, List.length_append]
    omega

theorem mem_iota_iff (n : Nat) (t : Int) : t ∈ iota n ↔ ∃ i : Nat, i < n ∧ t = (i : Int) := by
  constructor
  · exact mem_iota
  · rintro ⟨i, hi, rfl⟩
    simp only [iota, List.mem_map, List.mem_range]
    exact ⟨i, hi, rfl⟩

/-! ## Facts about the concrete inputs -/

theorem exSort_perm : ∀ (less : Int → Int → Bool) (l : List Int), (exSort less l).Perm l :=
  fun _ l => List.perm_insertionSort _ l

theorem exValid : ValidMesh exV exF := by
  intro f hf
  simp only [exF, List.mem_cons, List.mem_singleton, List.not_mem_nil, or_false] at hf
  rcases hf with rfl | rfl
  · exact ⟨⟨0, 0, 0⟩, ⟨1, 0, 0⟩, ⟨0, 1, 0⟩, by decide!⟩
  · exact ⟨⟨0, 0, 1⟩, ⟨1, 0, 1⟩, ⟨0, 1, 1⟩, by decide!⟩

theorem exInRange : ∀ v ∈ exV, InRange v := by
  intro v hv
  simp only [exV, List.mem_cons, List.mem_singleton, List.not_mem_nil, or_false] at hv
  rcases hv with rfl | rfl | rfl | rfl | rfl | rfl <;>
    simp only [InRange, DBL_MAX] <;> norm_num

theorem exFind : find_nearest_object exSqrt exScene 3 exO.toV exD.toV exP0 exP0 =
    .ok ⟨.fin 4, exHit.toV, exN.toV, true⟩ := by
  decide!

theorem exFindDown : find_nearest_object exSqrt exScene 3 exO.toV exDown.toV exP0 exP0 =
    .ok ⟨.fin 4, exHitDown.toV, exN.toV, true⟩ := by
  decide!

/-! ## The ray-triangle test, unfolded -/

theorem ray_triangle_intersection_eq (sqrt : ℚ → ℚ) (o d a b c p N : Vector3d) :
    ray_triangle_intersection sqrt o d a b c p N =
      if isInsideTriangle (uvtOf o d a b c) = true then
        ((uvtOf o d a b c).z, o.add (Vector3d.smul (uvtOf o d a b c).z d),
          ((b.sub a).cross (c.sub a)).normalized sqrt)
      else (.fin (-1), p, N) := rfl

/-! ## The slab test -/

theorem ray_box_intersection_slabD (o d lo hi : Q3) :
    ray_box_intersection o.toV d.toV ⟨lo.toV, hi.toV⟩ =
      (Dbl.le (Dbl.max3 (slabD o.x d.x lo.x hi.x).1 (slabD o.y d.y lo.y hi.y).1
          (slabD o.z d.z lo.z hi.z).1)
        (Dbl.min3 (slabD o.x d.x lo.x hi.x).2 (slabD o.y d.y lo.y hi.y).2
          (slabD o.z d.z lo.z hi.z).2) &&
      Dbl.ge (Dbl.min3 (slabD o.x d.x lo.x hi.x).2 (slabD o.y d.y lo.y hi.y).2
          (slabD o.z d.z lo.z hi.z).2) (.fin 0)) := rfl

/-! ### Signs of differences and products -/

theorem Dbl.sub_atMost_zero {x y : ℚ} (h : x ≤ y) : Dbl.AtMost 0 ((Dbl.fin x).sub (.fin y)) := by
  rw [Dbl.sub_fin]
  exact Dbl.round_of_nonpos (by linarith)

theorem Dbl.sub_atLeast_zero {x y : ℚ} (h : y ≤ x) :
    Dbl.AtLeast 0 ((Dbl.fin x).sub (.fin y)) := by
  rw [Dbl.sub_fin]
  exact Dbl.round_of_nonneg (by linarith)

theorem Dbl.sub_negative {x y : ℚ} (hx : IsDouble x) (hy : IsDouble y) (h : x < y) :
    Dbl.Negative ((Dbl.fin x).sub (.fin y)) := by
  rw [Dbl.sub_fin]
  exact Dbl.round_sub_neg hx hy h

theorem Dbl.sub_positive {x y : ℚ} (hx : IsDouble x) (hy : IsDouble y) (h : y < x) :
    Dbl.Positive ((Dbl.fin x).sub (.fin y)) := by
  rw [Dbl.sub_fin]
  exact Dbl.round_sub_pos hx hy h

theorem Dbl.mulInf_pos {a : ℚ} (h : 0 < a) : Dbl.mulInf a = .pinf := by
  simp [Dbl.mulInf, h]

theorem Dbl.mulInf_neg {a : ℚ} (h : a < 0) : Dbl.mulInf a = .ninf := by
  simp [Dbl.mulInf, h, not_lt.mpr h.le]

theorem Dbl.mulInf_zero : Dbl.mulInf 0 = .nan := by
  simp [Dbl.mulInf]

theorem Dbl.mul_pinf_of_positive {a : Dbl} (h : Dbl.Positive a) : a.mul .pinf = .pinf := by
  rcases h with rfl | ⟨a, rfl, ha⟩
  · rfl
  · exact Dbl.mulInf_pos ha

theorem Dbl.mul_pinf_of_negative {a : Dbl} (h : Dbl.Negative a) : a.mul .pinf = .ninf := by
  rcases h with rfl | ⟨a, rfl, ha⟩
  · rfl
  · exact Dbl.mulInf_neg ha

theorem Dbl.mul_atMost_of_pos {a : Dbl} {r : ℚ} (hr : 0 < r) (h : Dbl.AtMost 0 a) :
    Dbl.AtMost 0 (a.mul (.fin r)) := by
  rcases h with rfl | ⟨a, rfl, ha⟩
  · exact Or.inl (Dbl.mulInf_neg (by linarith))
  · rw [Dbl.mul_fin]
    exact Dbl.round_of_nonpos (mul_nonpos_of_nonpos_of_nonneg ha hr.le)

theorem Dbl.mul_atLeast_of_pos {a : Dbl} {r : ℚ} (hr : 0 < r) (h : Dbl.AtLeast 0 a) :
    Dbl.AtLeast 0 (a.mul (.fin r)) := by
  rcases h with rfl | ⟨a, rfl, ha⟩
  · exact Or.inl (Dbl.mulInf_pos hr)
  · rw [Dbl.mul_fin]
    exact Dbl.round_of_nonneg (mul_nonneg ha hr.le)

theorem Dbl.mul_atLeast_of_neg {a : Dbl} {r : ℚ} (hr : r < 0) (h : Dbl.AtMost 0 a) :
    Dbl.AtLeast 0 (a.mul (.fin r)) := by
  rcases h with rfl | ⟨a, rfl, ha⟩
  · exact Or.inl (Dbl.mulInf_pos (by linarith))
  · rw [Dbl.mul_fin]
    exact Dbl.round_of_nonneg (mul_nonneg_of_nonpos_of_nonpos ha hr.le)

theorem Dbl.mul_atMost_of_neg {a : Dbl} {r : ℚ} (hr : r < 0) (h : Dbl.AtLeast 0 a) :
    Dbl.AtMost 0 (a.mul (.fin r)) := by
  rcases h with rfl | ⟨a, rfl, ha⟩
  · exact Or.inl (Dbl.mulInf_neg hr)
  · rw [Dbl.mul_fin]
    exact Dbl.round_of_nonpos (mul_nonpos_of_nonneg_of_nonpos ha hr.le)

theorem swapIf_of_pos {r : ℚ} (hr : 0 < r) (p : Dbl × Dbl) :
    swapIf (Dbl.lt (.fin r) (.fin 0)) p = p := by
  simp [swapIf, not_lt.mpr hr.le]

theorem swapIf_of_neg {r : ℚ} (hr : r < 0) (p : Dbl × Dbl) :
    swapIf (Dbl.lt (.fin r) (.fin 0)) p = (p.2, p.1) := by
  simp [swapIf, hr]

theorem finiteInv_ne_zero {d : ℚ} (h : FiniteInv d) : d ≠ 0 := by
  rintro rfl
  obtain ⟨r, -, hr⟩ := h
  have e : (Dbl.fin 1).div (.fin 0) = .pinf := by decide!
  rw [e] at hr
  cases hr

/-- The sign of a finite non-zero reciprocal is the sign of the direction component. -/
theorem finiteInv_sign {d r : ℚ} (hr0 : r ≠ 0) (hr : (Dbl.fin 1).div (.fin d) = .fin r) :
    (0 < d ∧ 0 < r) ∨ (d < 0 ∧ r < 0) := by
  have hd : d ≠ 0 := finiteInv_ne_zero ⟨r, hr0, hr⟩
  rw [Dbl.div_fin _ _ hd] at hr
  rcases lt_or_gt_of_ne hd with h | h
  · right
    rcases Dbl.round_of_nonpos (one_div_neg.mpr h).le with e | ⟨a, e, ha⟩
    · rw [e] at hr; cases hr
    · rw [e] at hr
      cases hr
      exact ⟨h, lt_of_le_of_ne ha hr0⟩
  · left
    rcases Dbl.round_of_nonneg (one_div_pos.mpr h).le with e | ⟨a, e, ha⟩
    · rw [e] at hr; cases hr
    · rw [e] at hr
      cases hr
      exact ⟨h, lt_of_le_of_ne ha (Ne.symm hr0)⟩

/-! ### One slab -/

/-- With the origin inside the extent and a finite non-zero reciprocal, the entry parameter
is at most 0 and the exit parameter at least 0. -/
theorem slabD_origin_inside (o d lo hi : ℚ) (hf : FiniteInv d) (h1 : lo ≤ o) (h2 : o ≤ hi) :
    Dbl.AtMost 0 (slabD o d lo hi).1 ∧ Dbl.AtLeast 0 (slabD o d lo hi).2 := by
  obtain ⟨r, hr0, hr⟩ := hf
  unfold slabD
  rw [hr]
  rcases finiteInv_sign hr0 hr with ⟨-, hp⟩ | ⟨-, hn⟩
  · rw [swapIf_of_pos hp]
    exact ⟨Dbl.mul_atMost_of_pos hp (Dbl.sub_atMost_zero h1),
      Dbl.mul_atLeast_of_pos hp (Dbl.sub_atLeast_zero h2)⟩
  · rw [swapIf_of_neg hn]
    exact ⟨Dbl.mul_atMost_of_neg hn (Dbl.sub_atLeast_zero h2),
      Dbl.mul_atLeast_of_neg hn (Dbl.sub_atMost_zero h1)⟩

theorem slabD_of_zero (o lo hi : ℚ) :
    slabD o 0 lo hi = (((Dbl.fin lo).sub (.fin o)).mul .pinf,
      ((Dbl.fin hi).sub (.fin o)).mul .pinf) := by
  have e : (Dbl.fin 1).div (.fin 0) = .pinf := by decide!
  unfold slabD
  rw [e]
  rfl

/-- With a zero direction component and the origin strictly inside the extent, the slab is
`(-inf, +inf)`. -/
theorem slabD_open {o d lo hi : ℚ} (h : AxisOpen o d lo hi) :
    slabD o d lo hi = (.ninf, .pinf) := by
  obtain ⟨rfl, h1, h2, ho, hlo, hhi⟩ := h
  rw [slabD_of_zero, Dbl.mul_pinf_of_negative (Dbl.sub_negative hlo ho h1),
    Dbl.mul_pinf_of_positive (Dbl.sub_positive hhi ho h2)]

theorem slabD_zero_below {o lo : ℚ} (hi : ℚ) (ho : IsDouble o) (hlo : IsDouble lo)
    (h : o < lo) : (slabD o 0 lo hi).1 = .pinf := by
  rw [slabD_of_zero]
  exact Dbl.mul_pinf_of_positive (Dbl.sub_positive hlo ho h)

theorem slabD_zero_above {o hi : ℚ} (lo : ℚ) (ho : IsDouble o) (hhi : IsDouble hi)
    (h : hi < o) : (slabD o 0 lo hi).2 = .ninf := by
  rw [slabD_of_zero]
  exact Dbl.mul_pinf_of_negative (Dbl.sub_negative hhi ho h)

/-! ### The largest entry and the smallest exit -/

theorem Dbl.max_left_pinf (b : Dbl) : Dbl.max .pinf b = .pinf := by
  cases b <;> rfl

theorem Dbl.max_left_nan (b : Dbl) : Dbl.max .nan b = .nan := by
  cases b <;> rfl

theorem Dbl.max_right_pinf (a : Dbl) : Dbl.max a .pinf = .pinf ∨ Dbl.max a .pinf = .nan := by
  cases a <;> simp [Dbl.max, Dbl.lt]

theorem Dbl.max3_pinf (x y z : Dbl) (h : x = .pinf ∨ y = .pinf ∨ z = .pinf) :
    Dbl.max3 x y z = .pinf ∨ Dbl.max3 x y z = .nan := by
  have step : ∀ m c : Dbl, (m = .pinf ∨ m = .nan) → (Dbl.max m c = .pinf ∨ Dbl.max m c = .nan) := by
    intro m c hm
    rcases hm with rfl | rfl
    · exact Or.inl (Dbl.max_left_pinf c)
    · exact Or.inr (Dbl.max_left_nan c)
  unfold Dbl.max3
  rcases h with rfl | rfl | rfl
  · exact step _ _ (Or.inl (Dbl.max_left_pinf y))
  · exact step _ _ (Dbl.max_right_pinf x)
  · exact Dbl.max_right_pinf _

theorem Dbl.min_ne_pinf_left (a b : Dbl) (ha : a ≠ .pinf) : Dbl.min a b ≠ .pinf := by
  unfold Dbl.min
  split
  · rename_i h
    intro hb
    rw [hb] at h
    cases a <;> cases h
  · exact ha

theorem Dbl.min_ne_pinf_right (a : Dbl) (b : ℚ) : Dbl.min a (.fin b) ≠ .pinf := by
  unfold Dbl.min
  split
  · intro h; cases h
  · rename_i h
    intro ha
    rw [ha] at h
    exact h rfl

theorem Dbl.min3_ne_pinf (x y z : Dbl)
    (h : (∃ b, x = .fin b) ∨ (∃ b, y = .fin b) ∨ (∃ b, z = .fin b)) :
    Dbl.min3 x y z ≠ .pinf := by
  unfold Dbl.min3
  rcases h with ⟨b, rfl⟩ | ⟨b, rfl⟩ | ⟨b, rfl⟩
  · exact Dbl.min_ne_pinf_left _ _ (Dbl.min_ne_pinf_left _ _ (fun h => by cases h))
  · exact Dbl.min_ne_pinf_left _ _ (Dbl.min_ne_pinf_right _ _)
  · exact Dbl.min_ne_pinf_right _ _

theorem Dbl.min_left_ninf (b : Dbl) : Dbl.min .ninf b = .ninf := by
  cases b <;> rfl

theorem Dbl.min_left_nan (b : Dbl) : Dbl.min .nan b = .nan := by
  cases b <;> rfl

theorem Dbl.min_right_ninf (a : Dbl) : Dbl.min a .ninf = .ninf ∨ Dbl.min a .ninf = .nan := by
  cases a <;> simp [Dbl.min, Dbl.lt]

theorem Dbl.min3_ninf (x y z : Dbl) (h : x = .ninf ∨ y = .ninf ∨ z = .ninf) :
    Dbl.min3 x y z = .ninf ∨ Dbl.min3 x y z = .nan := by
  have step : ∀ m c : Dbl, (m = .ninf ∨ m = .nan) → (Dbl.min m c = .ninf ∨ Dbl.min m c = .nan) := by
    intro m c hm
    rcases hm with rfl | rfl
    · exact Or.inl (Dbl.min_left_ninf c)
    · exact Or.inr (Dbl.min_left_nan c)
  unfold Dbl.min3
  rcases h with rfl | rfl | rfl
  · exact step _ _ (Or.inl (Dbl.min_left_ninf y))
  · exact step _ _ (Dbl.min_right_ninf x)
  · exact Dbl.min_right_ninf _

theorem Dbl.le_false_of_entry_pinf (e x : Dbl) (he : e = .pinf ∨ e = .nan) (hx : x ≠ .pinf) :
    Dbl.le e x = false := by
  rcases he with rfl | rfl
  · cases x with
    | pinf => exact absurd rfl hx
    | _ => rfl
  · cases x <;> rfl

theorem Dbl.ge_false_of_exit_ninf (x : Dbl) (hx : x = .ninf ∨ x = .nan) :
    Dbl.ge x (.fin 0) = false := by
  rcases hx with rfl | rfl <;> rfl

theorem slab_test_false_of_entry_pinf (sx sy sz : Dbl × Dbl)
    (h1 : sx.1 = .pinf ∨ sy.1 = .pinf ∨ sz.1 = .pinf)
    (h2 : (∃ b, sx.2 = .fin b) ∨ (∃ b, sy.2 = .fin b) ∨ (∃ b, sz.2 = .fin b)) :
    (Dbl.le (Dbl.max3 sx.1 sy.1 sz.1) (Dbl.min3 sx.2 sy.2 sz.2) &&
      Dbl.ge (Dbl.min3 sx.2 sy.2 sz.2) (.fin 0)) = false := by
  rw [Dbl.le_false_of_entry_pinf _ _ (Dbl.max3_pinf _ _ _ h1) (Dbl.min3_ne_pinf _ _ _ h2)]
  rfl

theorem slab_test_false_of_exit_ninf (sx sy sz : Dbl × Dbl)
    (h : sx.2 = .ninf ∨ sy.2 = .ninf ∨ sz.2 = .ninf) :
    (Dbl.le (Dbl.max3 sx.1 sy.1 sz.1) (Dbl.min3 sx.2 sy.2 sz.2) &&
      Dbl.ge (Dbl.min3 sx.2 sy.2 sz.2) (.fin 0)) = false := by
  rw [Dbl.ge_false_of_exit_ninf _ (Dbl.min3_ninf _ _ _ h)]
  exact Bool.and_false _

theorem Dbl.AtMost.max {t : ℚ} {a b : Dbl} (ha : Dbl.AtMost t a) (hb : Dbl.AtMost t b) :
    Dbl.AtMost t (Dbl.max a b) := by
  rcases ha with rfl | ⟨a, rfl, ha⟩ <;> rcases hb with rfl | ⟨b, rfl, hb⟩
  · exact Or.inl rfl
  · exact Or.inr ⟨b, rfl, hb⟩
  · exact Or.inr ⟨a, rfl, ha⟩
  · exact Or.inr ⟨_, Dbl.max_fin a b, max_le ha hb⟩

theorem Dbl.AtLeast.min {t : ℚ} {a b : Dbl} (ha : Dbl.AtLeast t a) (hb : Dbl.AtLeast t b) :
    Dbl.AtLeast t (Dbl.min a b) := by
  rcases ha with rfl | ⟨a, rfl, ha⟩ <;> rcases hb with rfl | ⟨b, rfl, hb⟩
  · exact Or.inl rfl
  · exact Or.inr ⟨b, rfl, hb⟩
  · exact Or.inr ⟨a, rfl, ha⟩
  · exact Or.inr ⟨_, Dbl.min_fin a b, le_min ha hb⟩

theorem Dbl.le_of_atMost_atLeast {t : ℚ} {e x : Dbl} (he : Dbl.AtMost t e)
    (hx : Dbl.AtLeast t x) : Dbl.le e x = true := by
  rcases he with rfl | ⟨a, rfl, ha⟩ <;> rcases hx with rfl | ⟨b, rfl, hb⟩
  · rfl
  · rfl
  · rfl
  · simp only [Dbl.le_fin, decide_eq_true_eq]
    exact le_trans ha hb

theorem Dbl.ge_zero_of_atLeast {t : ℚ} {x : Dbl} (ht : 0 ≤ t) (hx : Dbl.AtLeast t x) :
    Dbl.ge x (.fin 0) = true := by
  rcases hx with rfl | ⟨b, rfl, hb⟩
  · rfl
  · simp only [Dbl.ge_fin, decide_eq_true_eq]
    exact le_trans ht hb


theorem Dbl.min_negative {a b : Dbl} (h : Dbl.Negative a ∨ Dbl.Negative b) :
    Dbl.ge (Dbl.min a b) (.fin 0) = false := by
  rcases h with h | h
  · rcases h with rfl | ⟨x, rfl, hx⟩
    · cases b <;> simp [Dbl.min, Dbl.lt, Dbl.ge, Dbl.le]
    · cases b with
      | fin y =>
        by_cases hyx : y < x
        · simp [Dbl.min, Dbl.lt, Dbl.ge, Dbl.le, hyx]
          linarith
        · simp [Dbl.min, Dbl.lt, Dbl.ge, Dbl.le, hyx]
          exact hx
      | pinf => simp [Dbl.min, Dbl.lt, Dbl.ge, Dbl.le]; exact hx
      | ninf => simp [Dbl.min, Dbl.lt, Dbl.ge, Dbl.le]
      | nan => simp [Dbl.min, Dbl.lt, Dbl.ge, Dbl.le]; exact hx
  · rcases h with rfl | ⟨y, rfl, hy⟩
    · cases a <;> simp [Dbl.min, Dbl.lt, Dbl.ge, Dbl.le]
    · cases a with
      | fin x =>
        by_cases hyx : y < x
        · simp [Dbl.min, Dbl.lt, Dbl.ge, Dbl.le, hyx]
          exact hy
        · simp [Dbl.min, Dbl.lt, Dbl.ge, Dbl.le, hyx]
          linarith
      | pinf => simp [Dbl.min, Dbl.lt, Dbl.ge, Dbl.le]; exact hy
      | ninf => simp [Dbl.min, Dbl.lt, Dbl.ge, Dbl.le]
      | nan => simp [Dbl.min, Dbl.lt, Dbl.ge, Dbl.le]

theorem Dbl.negative_of_min {a b : Dbl} (h : Dbl.Negative a ∨ Dbl.Negative b) :
    Dbl.Negative (Dbl.min a b) ∨ Dbl.min a b = .nan := by
  rcases h with h | h
  · rcases h with rfl | ⟨x, rfl, hx⟩
    · cases b <;> simp [Dbl.min, Dbl.lt, Dbl.Negative]
    · cases b with
      | fin y =>
        by_cases hyx : y < x
        · simp [Dbl.min, Dbl.lt, Dbl.Negative, hyx]
          linarith
        · simp [Dbl.min, Dbl.lt, Dbl.Negative, hyx]
          exact hx
      | pinf => simp [Dbl.min, Dbl.lt, Dbl.Negative]; exact hx
      | ninf => simp [Dbl.min, Dbl.lt, Dbl.Negative]
      | nan => simp [Dbl.min, Dbl.lt, Dbl.Negative]; exact hx
  · rcases h with rfl | ⟨y, rfl, hy⟩
    · cases a <;> simp [Dbl.min, Dbl.lt, Dbl.Negative]
    · cases a with
      | fin x =>
        by_cases hyx : y < x
        · simp [Dbl.min, Dbl.lt, Dbl.Negative, hyx]
          exact hy
        · simp [Dbl.min, Dbl.lt, Dbl.Negative, hyx]
          linarith
      | pinf => simp [Dbl.min, Dbl.lt, Dbl.Negative]; exact hy
      | ninf => simp [Dbl.min, Dbl.lt, Dbl.Negative]
      | nan => simp [Dbl.min, Dbl.lt, Dbl.Negative]

theorem Dbl.min_nan_left (b : Dbl) : Dbl.min .nan b = .nan := by
  cases b <;> rfl

/-- When one of the three exit parameters is negative, the smallest is not `>= 0`. -/
theorem Dbl.min3_negative {x y z : Dbl}
    (h : Dbl.Negative x ∨ Dbl.Negative y ∨ Dbl.Negative z) :
    Dbl.ge (Dbl.min3 x y z) (.fin 0) = false := by
  unfold Dbl.min3
  rcases h with h | h | h
  · rcases Dbl.negative_of_min (Or.inl h : Dbl.Negative x ∨ Dbl.Negative y) with h' | h'
    · exact Dbl.min_negative (Or.inl h')
    · rw [h', Dbl.min_nan_left]
      rfl
  · rcases Dbl.negative_of_min (Or.inr h : Dbl.Negative x ∨ Dbl.Negative y) with h' | h'
    · exact Dbl.min_negative (Or.inl h')
    · rw [h', Dbl.min_nan_left]
      rfl
  · exact Dbl.min_negative (Or.inr h)

theorem slab_test_false_of_negative_exit (sx sy sz : Dbl × Dbl)
    (h : Dbl.Negative sx.2 ∨ Dbl.Negative sy.2 ∨ Dbl.Negative sz.2) :
    (Dbl.le (Dbl.max3 sx.1 sy.1 sz.1) (Dbl.min3 sx.2 sy.2 sz.2) &&
      Dbl.ge (Dbl.min3 sx.2 sy.2 sz.2) (.fin 0)) = false := by
  rw [Dbl.min3_negative h]
  exact Bool.and_false _

theorem pow2_double (k : Int) (h1 : -1074 ≤ k) (h2 : k < 1024) : IsDouble (Dbl.pow2 k) :=
  Dbl.round_pow2 k h1 h2

/-- With the box behind the origin along the axis, the exit parameter is negative. -/
theorem slabD_behind {o d lo hi : ℚ} (h : BehindOnAxis o d lo hi) :
    Dbl.Negative (slabD o d lo hi).2 := by
  obtain ⟨hd1, hd2, hcase⟩ := h
  have hp := Dbl.pow2_pos (-500)
  have hd : d ≠ 0 := by
    intro h0
    rw [h0, abs_zero] at hd1
    linarith
  have e1000 : Dbl.pow2 (-500) * Dbl.pow2 (-500) = Dbl.pow2 (-1000) := by
    rw [← Dbl.pow2_add]
    rfl
  have einv : (1 : ℚ) / Dbl.pow2 500 = Dbl.pow2 (-500) := by
    rw [Dbl.pow2_eq, Dbl.pow2_eq, one_div, ← zpow_neg]
  have hneg1000 : Dbl.round (-Dbl.pow2 (-1000)) = .fin (-Dbl.pow2 (-1000)) :=
    Dbl.round_neg_fin (Dbl.round_pow2 _ (by norm_num) (by norm_num))
  have hneg500 : Dbl.round (-Dbl.pow2 (-500)) = .fin (-Dbl.pow2 (-500)) :=
    Dbl.round_neg_fin (Dbl.round_pow2 _ (by norm_num) (by norm_num))
  have h500 : Dbl.round (Dbl.pow2 (-500)) = .fin (Dbl.pow2 (-500)) :=
    Dbl.round_pow2 _ (by norm_num) (by norm_num)
  have hP500 : Dbl.round (Dbl.pow2 500) = .fin (Dbl.pow2 500) :=
    Dbl.round_pow2 _ (by norm_num) (by norm_num)
  have hP := Dbl.pow2_pos 500
  unfold slabD
  rw [Dbl.div_fin _ _ hd, Dbl.sub_fin, Dbl.sub_fin]
  rcases hcase with ⟨hpos, hgap⟩ | ⟨hneg, hgap⟩
  · -- d > 0: the reciprocal is in [2^-500, 2^500], the exit is (hi - o) * r
    rw [abs_of_pos hpos] at hd1 hd2
    have hinv1 : Dbl.pow2 (-500) ≤ 1 / d := by
      rw [← einv]
      exact one_div_le_one_div_of_le hpos hd2
    have hinv2 : |1 / d| ≤ Dbl.pow2 500 := by
      rw [abs_of_pos (one_div_pos.mpr hpos), div_le_iff₀ hpos]
      calc (1 : ℚ) = Dbl.pow2 500 * Dbl.pow2 (-500) := by
            rw [← Dbl.pow2_add]; rfl
        _ ≤ Dbl.pow2 500 * d := mul_le_mul_of_nonneg_left hd1 hP.le
    obtain ⟨r, hr, hr2⟩ := Dbl.round_of_abs_le hP500 hinv2
    have hr1 : Dbl.pow2 (-500) ≤ r := by
      rcases Dbl.round_of_ge h500 hinv1 with e | ⟨a, e, ha⟩
      · rw [hr] at e; cases e
      · rw [hr] at e; cases e; exact ha
    have hr0 : 0 < r := lt_of_lt_of_le hp hr1
    rw [hr, swapIf_of_pos hr0]
    show Dbl.Negative ((Dbl.round (hi - o)).mul (.fin r))
    rcases Dbl.round_of_le hneg500 (by linarith : hi - o ≤ -Dbl.pow2 (-500)) with e | ⟨a, e, ha⟩
    · rw [e]
      exact Or.inl (Dbl.mulInf_neg (by linarith))
    · rw [e, Dbl.mul_fin]
      have hprod : a * r ≤ -Dbl.pow2 (-1000) := by
        rw [← e1000]
        nlinarith
      rcases Dbl.round_of_le hneg1000 hprod with e' | ⟨b, e', hb⟩
      · exact Or.inl e'
      · exact Or.inr ⟨b, e', by linarith [Dbl.pow2_pos (-1000)]⟩
  · -- d < 0: the reciprocal is in [-2^500, -2^-500], after the swap the exit is (lo - o) * r
    rw [abs_of_neg hneg] at hd1 hd2
    have hinv1 : 1 / d ≤ -Dbl.pow2 (-500) := by
      have h1 : Dbl.pow2 (-500) ≤ 1 / (-d) := by
        rw [← einv]
        exact one_div_le_one_div_of_le (by linarith) hd2
      have h2 : 1 / (-d) = -(1 / d) := by
        rw [one_div, one_div, inv_neg]
      linarith
    have hinv2 : |1 / d| ≤ Dbl.pow2 500 := by
      rw [abs_of_neg (one_div_neg.mpr hneg)]
      have h2 : -(1 / d) = 1 / (-d) := by
        rw [one_div, one_div, inv_neg]
      rw [h2, div_le_iff₀ (by linarith : 0 < -d)]
      calc (1 : ℚ) = Dbl.pow2 500 * Dbl.pow2 (-500) := by
            rw [← Dbl.pow2_add]; rfl
        _ ≤ Dbl.pow2 500 * -d := mul_le_mul_of_nonneg_left hd1 hP.le
    obtain ⟨r, hr, hr2⟩ := Dbl.round_of_abs_le hP500 hinv2
    have hr1 : r ≤ -Dbl.pow2 (-500) := by
      rcases Dbl.round_of_le hneg500 hinv1 with e | ⟨a, e, ha⟩
      · rw [hr] at e; cases e
      · rw [hr] at e; cases e; exact ha
    have hr0 : r < 0 := by linarith
    rw [hr, swapIf_of_neg hr0]
    show Dbl.Negative ((Dbl.round (lo - o)).mul (.fin r))
    rcases Dbl.round_of_ge h500 hgap with e | ⟨a, e, ha⟩
    · rw [e]
      exact Or.inl (Dbl.mulInf_neg hr0)
    · rw [e, Dbl.mul_fin]
      have hprod : a * r ≤ -Dbl.pow2 (-1000) := by
        rw [← e1000]
        nlinarith
      rcases Dbl.round_of_le hneg1000 hprod with e' | ⟨b, e', hb⟩
      · exact Or.inl e'
      · exact Or.inr ⟨b, e', by linarith [Dbl.pow2_pos (-1000)]⟩

/-- With moderate magnitudes the exit parameter of an axis is finite. -/
theorem slabD_bounded {o d lo hi : ℚ} (h : AxisBounded o d lo hi) :
    ∃ b, (slabD o d lo hi).2 = .fin b := by
  obtain ⟨hd1, ho, hlo, hhi⟩ := h
  have hp := Dbl.pow2_pos (-500)
  have hP := Dbl.pow2_pos 500
  have hd : d ≠ 0 := by
    intro h0
    rw [h0, abs_zero] at hd1
    linarith
  have hP500 : Dbl.round (Dbl.pow2 500) = .fin (Dbl.pow2 500) :=
    Dbl.round_pow2 _ (by norm_num) (by norm_num)
  have hP501 : Dbl.round (Dbl.pow2 501) = .fin (Dbl.pow2 501) :=
    Dbl.round_pow2 _ (by norm_num) (by norm_num)
  have hP1001 : Dbl.round (Dbl.pow2 1001) = .fin (Dbl.pow2 1001) :=
    Dbl.round_pow2 _ (by norm_num) (by norm_num)
  have e501 : Dbl.pow2 500 + Dbl.pow2 500 = Dbl.pow2 501 := by
    have : Dbl.pow2 501 = Dbl.pow2 500 * Dbl.pow2 1 := by rw [← Dbl.pow2_add]; rfl
    rw [this]
    have : Dbl.pow2 1 = 2 := by decide!
    rw [this]
    ring
  have e1001 : Dbl.pow2 501 * Dbl.pow2 500 = Dbl.pow2 1001 := by
    rw [← Dbl.pow2_add]; rfl
  have hinv : |1 / d| ≤ Dbl.pow2 500 := by
    rw [abs_div, abs_one, div_le_iff₀ (lt_of_lt_of_le hp hd1)]
    calc (1 : ℚ) = Dbl.pow2 500 * Dbl.pow2 (-500) := by
          rw [← Dbl.pow2_add]; rfl
      _ ≤ Dbl.pow2 500 * |d| := mul_le_mul_of_nonneg_left hd1 hP.le
  obtain ⟨r, hr, hr2⟩ := Dbl.round_of_abs_le hP500 hinv
  have hsub : ∀ c : ℚ, |c| ≤ Dbl.pow2 500 →
      ∃ b, ((Dbl.fin c).sub (.fin o)).mul (.fin r) = .fin b := by
    intro c hc
    have h1 : |c - o| ≤ Dbl.pow2 501 := by
      rw [← e501]
      exact le_trans (abs_sub c o) (add_le_add hc ho)
    obtain ⟨a, ha, ha2⟩ := Dbl.round_of_abs_le hP501 h1
    rw [Dbl.sub_fin, ha, Dbl.mul_fin]
    have h2 : |a * r| ≤ Dbl.pow2 1001 := by
      rw [abs_mul, ← e1001]
      exact mul_le_mul ha2 hr2 (abs_nonneg r) (Dbl.pow2_pos 501).le
    obtain ⟨b, hb, -⟩ := Dbl.round_of_abs_le hP1001 h2
    exact ⟨b, hb⟩
  obtain ⟨b1, hb1⟩ := hsub lo hlo
  obtain ⟨b2, hb2⟩ := hsub hi hhi
  unfold slabD
  rw [Dbl.div_fin _ _ hd, hr, hb1, hb2]
  unfold swapIf
  split
  · exact ⟨b1, rfl⟩
  · exact ⟨b2, rfl⟩

theorem Dbl.sub_ne_nan (x y : ℚ) : (Dbl.fin x).sub (.fin y) ≠ .nan := by
  rw [Dbl.sub_fin]
  exact Dbl.round_ne_nan _

theorem Dbl.sub_le_sub {x y o : ℚ} (h : x ≤ y) :
    Dbl.le ((Dbl.fin x).sub (.fin o)) ((Dbl.fin y).sub (.fin o)) = true := by
  rw [Dbl.sub_fin, Dbl.sub_fin]
  exact Dbl.round_mono (by linarith)

theorem Dbl.mul_mono_of_pos {a b : Dbl} {r : ℚ} (hr : 0 < r) (h : Dbl.le a b = true) :
    Dbl.le (a.mul (.fin r)) (b.mul (.fin r)) = true := by
  have hn : -r < 0 := by linarith
  cases a with
  | fin x =>
    cases b with
    | fin y =>
      rw [Dbl.mul_fin, Dbl.mul_fin]
      have hxy : x ≤ y := by simpa using h
      exact Dbl.round_mono (mul_le_mul_of_nonneg_right hxy hr.le)
    | pinf =>
      show Dbl.le (Dbl.round (x * r)) (Dbl.mulInf r) = true
      rw [Dbl.mulInf_pos hr]
      cases hq : Dbl.round (x * r) with
      | nan => exact absurd hq (Dbl.round_ne_nan _)
      | _ => rfl
    | ninf => cases h
    | nan => cases h
  | pinf =>
    cases b with
    | pinf => show Dbl.le (Dbl.mulInf r) (Dbl.mulInf r) = true; rw [Dbl.mulInf_pos hr]; rfl
    | _ => cases h
  | ninf =>
    cases b with
    | fin y =>
      show Dbl.le (Dbl.mulInf (-r)) (Dbl.round (y * r)) = true
      rw [Dbl.mulInf_neg hn]
      cases hq : Dbl.round (y * r) with
      | nan => exact absurd hq (Dbl.round_ne_nan _)
      | _ => rfl
    | pinf =>
      show Dbl.le (Dbl.mulInf (-r)) (Dbl.mulInf r) = true
      rw [Dbl.mulInf_neg hn, Dbl.mulInf_pos hr]
      rfl
    | ninf => show Dbl.le (Dbl.mulInf (-r)) (Dbl.mulInf (-r)) = true; rw [Dbl.mulInf_neg hn]; rfl
    | nan => cases h
  | nan => cases b <;> cases h

theorem Dbl.mul_anti_of_neg {a b : Dbl} {r : ℚ} (hr : r < 0) (h : Dbl.le a b = true) :
    Dbl.le (b.mul (.fin r)) (a.mul (.fin r)) = true := by
  have hn : 0 < -r := by linarith
  cases a with
  | fin x =>
    cases b with
    | fin y =>
      rw [Dbl.mul_fin, Dbl.mul_fin]
      have hxy : x ≤ y := by simpa using h
      exact Dbl.round_mono (mul_le_mul_of_nonpos_right hxy hr.le)
    | pinf =>
      show Dbl.le (Dbl.mulInf r) (Dbl.round (x * r)) = true
      rw [Dbl.mulInf_neg hr]
      cases hq : Dbl.round (x * r) with
      | nan => exact absurd hq (Dbl.round_ne_nan _)
      | _ => rfl
    | ninf => cases h
    | nan => cases h
  | pinf =>
    cases b with
    | pinf => show Dbl.le (Dbl.mulInf r) (Dbl.mulInf r) = true; rw [Dbl.mulInf_neg hr]; rfl
    | _ => cases h
  | ninf =>
    cases b with
    | fin y =>
      show Dbl.le (Dbl.round (y * r)) (Dbl.mulInf (-r)) = true
      rw [Dbl.mulInf_pos hn]
      cases hq : Dbl.round (y * r) with
      | nan => exact absurd hq (Dbl.round_ne_nan _)
      | _ => rfl
    | pinf =>
      show Dbl.le (Dbl.mulInf r) (Dbl.mulInf (-r)) = true
      rw [Dbl.mulInf_neg hr, Dbl.mulInf_pos hn]
      rfl
    | ninf => show Dbl.le (Dbl.mulInf (-r)) (Dbl.mulInf (-r)) = true; rw [Dbl.mulInf_pos hn]; rfl
    | nan => cases h
  | nan => cases b <;> cases h

/-- Along an axis on which the ray moves towards or inside the extent, the entry parameter is
at most the exit parameter and the exit parameter is at least 0. -/
theorem slabD_reached {o d lo hi : ℚ} (h : AxisReached o d lo hi) :
    Dbl.le (slabD o d lo hi).1 (slabD o d lo hi).2 = true ∧
      Dbl.ge (slabD o d lo hi).2 (.fin 0) = true := by
  obtain ⟨hle, ⟨r, hr0, hr⟩, hcase⟩ := h
  unfold slabD
  rw [hr]
  rcases finiteInv_sign hr0 hr with ⟨hd, hp⟩ | ⟨hd, hn⟩
  · rcases hcase with ⟨-, ho⟩ | ⟨hd', -⟩
    · rw [swapIf_of_pos hp]
      exact ⟨Dbl.mul_mono_of_pos hp (Dbl.sub_le_sub hle),
        Dbl.ge_zero_of_atLeast (le_refl 0)
          (Dbl.mul_atLeast_of_pos hp (Dbl.sub_atLeast_zero ho))⟩
    · linarith
  · rcases hcase with ⟨hd', -⟩ | ⟨-, ho⟩
    · linarith
    · rw [swapIf_of_neg hn]
      exact ⟨Dbl.mul_anti_of_neg hn (Dbl.sub_le_sub hle),
        Dbl.ge_zero_of_atLeast (le_refl 0)
          (Dbl.mul_atLeast_of_neg hn (Dbl.sub_atMost_zero ho))⟩

theorem Dbl.max_ninf_left {e x : Dbl} (h : Dbl.le e x = true) : Dbl.max .ninf e = e := by
  cases e <;> cases x <;> first | rfl | cases h

theorem Dbl.max_ninf_right (e : Dbl) : Dbl.max e .ninf = e := by
  cases e <;> rfl

theorem Dbl.min_pinf_left {e x : Dbl} (h : Dbl.le e x = true) : Dbl.min .pinf x = x := by
  cases e <;> cases x <;> first | rfl | cases h

theorem Dbl.min_pinf_right (x : Dbl) : Dbl.min x .pinf = x := by
  cases x <;> rfl

/-- The slab test of a ray parallel to a coordinate axis: two slabs are `(-inf, +inf)` and
the third decides. -/
theorem slab_test_of_open (s : Dbl × Dbl) (h1 : Dbl.le s.1 s.2 = true)
    (h2 : Dbl.ge s.2 (.fin 0) = true) :
    (Dbl.le (Dbl.max3 s.1 .ninf .ninf) (Dbl.min3 s.2 .pinf .pinf) &&
        Dbl.ge (Dbl.min3 s.2 .pinf .pinf) (.fin 0)) = true ∧
    (Dbl.le (Dbl.max3 .ninf s.1 .ninf) (Dbl.min3 .pinf s.2 .pinf) &&
        Dbl.ge (Dbl.min3 .pinf s.2 .pinf) (.fin 0)) = true ∧
    (Dbl.le (Dbl.max3 .ninf .ninf s.1) (Dbl.min3 .pinf .pinf s.2) &&
        Dbl.ge (Dbl.min3 .pinf .pinf s.2) (.fin 0)) = true := by
  have a1 : Dbl.max3 s.1 .ninf .ninf = s.1 := by
    unfold Dbl.max3
    rw [Dbl.max_ninf_right, Dbl.max_ninf_right]
  have a2 : Dbl.max3 .ninf s.1 .ninf = s.1 := by
    unfold Dbl.max3
    rw [Dbl.max_ninf_left h1, Dbl.max_ninf_right]
  have a3 : Dbl.max3 .ninf .ninf s.1 = s.1 := by
    unfold Dbl.max3
    have : Dbl.max .ninf .ninf = .ninf := rfl
    rw [this, Dbl.max_ninf_left h1]
  have b1 : Dbl.min3 s.2 .pinf .pinf = s.2 := by
    unfold Dbl.min3
    rw [Dbl.min_pinf_right, Dbl.min_pinf_right]
  have b2 : Dbl.min3 .pinf s.2 .pinf = s.2 := by
    unfold Dbl.min3
    rw [Dbl.min_pinf_left h1, Dbl.min_pinf_right]
  have b3 : Dbl.min3 .pinf .pinf s.2 = s.2 := by
    unfold Dbl.min3
    have : Dbl.min .pinf .pinf = .pinf := rfl
    rw [this, Dbl.min_pinf_left h1]
  rw [a1, a2, a3, b1, b2, b3, h1, h2]
  exact ⟨rfl, rfl, rfl⟩

/-! ## The slab test and the geometric predicate -/

theorem slab_iff (o d lo hi t : ℚ) (hd : d ≠ 0) :
    (slabLo o d lo hi ≤ t ∧ t ≤ slabHi o d lo hi) ↔ (lo ≤ o + t * d ∧ o + t * d ≤ hi) := by
  rcases lt_or_gt_of_ne hd with h | h
  · have h1 : 1 / d < 0 := one_div_neg.mpr h
    simp only [slabLo, slabHi, h1, if_true, mul_one_div]
    rw [div_le_iff_of_neg h, le_div_iff_of_neg h]
    constructor <;> rintro ⟨h2, h3⟩ <;> constructor <;> linarith
  · have h1 : ¬ (1 / d < 0) := not_lt.mpr (one_div_pos.mpr h).le
    simp only [slabLo, slabHi, h1, if_false, mul_one_div]
    rw [div_le_iff₀ h, le_div_iff₀ h]
    constructor <;> rintro ⟨h2, h3⟩ <;> constructor <;> linarith

/-- Over the rationals, without rounding: a ray with non-zero direction components meets the
closed box at some `t >= 0` iff the largest entry parameter is at most the smallest exit
parameter and that is at least 0. -/
theorem meets_iff_slab (o d lo hi : Q3) (hx : d.x ≠ 0) (hy : d.y ≠ 0) (hz : d.z ≠ 0) :
    (∃ t : ℚ, 0 ≤ t ∧ (lo.x ≤ o.x + t * d.x ∧ o.x + t * d.x ≤ hi.x) ∧
        (lo.y ≤ o.y + t * d.y ∧ o.y + t * d.y ≤ hi.y) ∧
        (lo.z ≤ o.z + t * d.z ∧ o.z + t * d.z ≤ hi.z)) ↔
      (max (max (slabLo o.x d.x lo.x hi.x) (slabLo o.y d.y lo.y hi.y))
          (slabLo o.z d.z lo.z hi.z) ≤
        min (min (slabHi o.x d.x lo.x hi.x) (slabHi o.y d.y lo.y hi.y))
          (slabHi o.z d.z lo.z hi.z) ∧
        0 ≤ min (min (slabHi o.x d.x lo.x hi.x) (slabHi o.y d.y lo.y hi.y))
          (slabHi o.z d.z lo.z hi.z)) := by
  simp only [← slab_iff _ _ _ _ _ hx, ← slab_iff _ _ _ _ _ hy, ← slab_iff _ _ _ _ _ hz]
  generalize slabLo o.x d.x lo.x hi.x = ax
  generalize slabLo o.y d.y lo.y hi.y = ay
  generalize slabLo o.z d.z lo.z hi.z = az
  generalize slabHi o.x d.x lo.x hi.x = bx
  generalize slabHi o.y d.y lo.y hi.y = bY
  generalize slabHi o.z d.z lo.z hi.z = bz
  constructor
  · rintro ⟨t, ht, ⟨h1, h1'⟩, ⟨h2, h2'⟩, ⟨h3, h3'⟩⟩
    have e1 : max (max ax ay) az ≤ t := max_le (max_le h1 h2) h3
    have e2 : t ≤ min (min bx bY) bz := le_min (le_min h1' h2') h3'
    exact ⟨le_trans e1 e2, le_trans ht e2⟩
  · rintro ⟨h1, h2⟩
    have e1 : max (max ax ay) az ≤ max (max (max ax ay) az) 0 := le_max_left _ _
    have e2 : max (max (max ax ay) az) 0 ≤ min (min bx bY) bz := max_le h1 h2
    have a1 : ax ≤ max (max ax ay) az := le_trans (le_max_left _ _) (le_max_left _ _)
    have a2 : ay ≤ max (max ax ay) az := le_trans (le_max_right _ _) (le_max_left _ _)
    have a3 : az ≤ max (max ax ay) az := le_max_right _ _
    have b1 : min (min bx bY) bz ≤ bx := le_trans (min_le_left _ _) (min_le_left _ _)
    have b2 : min (min bx bY) bz ≤ bY := le_trans (min_le_left _ _) (min_le_right _ _)
    have b3 : min (min bx bY) bz ≤ bz := min_le_right _ _
    exact ⟨max (max (max ax ay) az) 0, le_max_right _ _, ⟨by linarith, by linarith⟩,
      ⟨by linarith, by linarith⟩, ⟨by linarith, by linarith⟩⟩

theorem ray_box_true_of_origin_inside (o d lo hi : Q3)
    (hf : FiniteInv d.x ∧ FiniteInv d.y ∧ FiniteInv d.z) (hin : QBox.Contains ⟨lo, hi⟩ o) :
    ray_box_intersection o.toV d.toV ⟨lo.toV, hi.toV⟩ = true := by
  rw [ray_box_intersection_slabD]
  obtain ⟨⟨x1, x2⟩, ⟨y1, y2⟩, z1, z2⟩ := hin
  obtain ⟨ax, bx⟩ := slabD_origin_inside o.x d.x lo.x hi.x hf.1 x1 x2
  obtain ⟨ay, bY⟩ := slabD_origin_inside o.y d.y lo.y hi.y hf.2.1 y1 y2
  obtain ⟨az, bz⟩ := slabD_origin_inside o.z d.z lo.z hi.z hf.2.2 z1 z2
  have he : Dbl.AtMost 0 (Dbl.max3 (slabD o.x d.x lo.x hi.x).1 (slabD o.y d.y lo.y hi.y).1
      (slabD o.z d.z lo.z hi.z).1) := (ax.max ay).max az
  have hx' : Dbl.AtLeast 0 (Dbl.min3 (slabD o.x d.x lo.x hi.x).2 (slabD o.y d.y lo.y hi.y).2
      (slabD o.z d.z lo.z hi.z).2) := (bx.min bY).min bz
  rw [Dbl.le_of_atMost_atLeast he hx', Dbl.ge_zero_of_atLeast (le_refl 0) hx']
  rfl

theorem ray_box_false_of_behind (o d lo hi : Q3)
    (h : BehindOnAxis o.x d.x lo.x hi.x ∨ BehindOnAxis o.y d.y lo.y hi.y ∨
      BehindOnAxis o.z d.z lo.z hi.z) :
    ray_box_intersection o.toV d.toV ⟨lo.toV, hi.toV⟩ = false := by
  rw [ray_box_intersection_slabD]
  refine slab_test_false_of_negative_exit _ _ _ ?_
  rcases h with h | h | h
  · exact Or.inl (slabD_behind h)
  · exact Or.inr (Or.inl (slabD_behind h))
  · exact Or.inr (Or.inr (slabD_behind h))

theorem exD_finiteInv : FiniteInv exD.x ∧ FiniteInv exD.y ∧ FiniteInv exD.z :=
  ⟨⟨Dbl.toQ ((Dbl.fin 1).div (.fin exD.x)), by decide!, by decide!⟩,
    ⟨Dbl.toQ ((Dbl.fin 1).div (.fin exD.y)), by decide!, by decide!⟩,
    ⟨-1, by decide!, by decide!⟩⟩

theorem graze_misses : ¬ ∃ t : ℚ, 0 ≤ t ∧
    ((0 : ℚ) ≤ grazeO.x + t * grazeD.x ∧ grazeO.x + t * grazeD.x ≤ 1) ∧
    ((0 : ℚ) ≤ grazeO.y + t * grazeD.y ∧ grazeO.y + t * grazeD.y ≤ 1) ∧
    ((0 : ℚ) ≤ grazeO.z + t * grazeD.z ∧ grazeO.z + t * grazeD.z ≤ 1) := by
  have h := meets_iff_slab grazeO grazeD ⟨0, 0, 0⟩ ⟨1, 1, 1⟩ (by decide!) (by decide!)
    (by decide!)
  intro hex
  exact absurd (h.mp hex) (by decide!)

theorem axisOpen_of_centre {o d lo hi t : ℚ} (h : ZeroAxis o d lo hi)
    (hc : o + t * d = (lo + hi) / 2) : AxisOpen o d lo hi := by
  obtain ⟨hd, hlt, h1, h2, h3⟩ := h
  rw [hd, mul_zero, add_zero] at hc
  exact ⟨hd, by linarith, by linarith, h1, h2, h3⟩

theorem axisReached_of_centre {o d lo hi t : ℚ} (hf : FiniteInv d) (hle : lo ≤ hi)
    (ht : 0 ≤ t) (hc : o + t * d = (lo + hi) / 2) : AxisReached o d lo hi := by
  refine ⟨hle, hf, ?_⟩
  rcases lt_or_gt_of_ne (finiteInv_ne_zero hf) with h | h
  · right
    have := mul_nonpos_of_nonneg_of_nonpos ht h.le
    exact ⟨h, by linarith⟩
  · left
    have := mul_nonneg ht h.le
    exact ⟨h, by linarith⟩

theorem ray_box_true_of_axis_parallel (o d lo hi : Q3)
    (h : (AxisReached o.x d.x lo.x hi.x ∧ AxisOpen o.y d.y lo.y hi.y ∧
        AxisOpen o.z d.z lo.z hi.z) ∨
      (AxisOpen o.x d.x lo.x hi.x ∧ AxisReached o.y d.y lo.y hi.y ∧
        AxisOpen o.z d.z lo.z hi.z) ∨
      (AxisOpen o.x d.x lo.x hi.x ∧ AxisOpen o.y d.y lo.y hi.y ∧
        AxisReached o.z d.z lo.z hi.z)) :
    ray_box_intersection o.toV d.toV ⟨lo.toV, hi.toV⟩ = true := by
  rw [ray_box_intersection_slabD]
  rcases h with ⟨hx, hy, hz⟩ | ⟨hx, hy, hz⟩ | ⟨hx, hy, hz⟩
  · rw [slabD_open hy, slabD_open hz]
    exact (slab_test_of_open _ (slabD_reached hx).1 (slabD_reached hx).2).1
  · rw [slabD_open hx, slabD_open hz]
    exact (slab_test_of_open _ (slabD_reached hy).1 (slabD_reached hy).2).2.1
  · rw [slabD_open hx, slabD_open hy]
    exact (slab_test_of_open _ (slabD_reached hz).1 (slabD_reached hz).2).2.2

theorem ray_box_false_of_above (o d lo hi : Q3)
    (h : AxisAbove o.x d.x hi.x ∨ AxisAbove o.y d.y hi.y ∨ AxisAbove o.z d.z hi.z) :
    ray_box_intersection o.toV d.toV ⟨lo.toV, hi.toV⟩ = false := by
  rw [ray_box_intersection_slabD]
  refine slab_test_false_of_exit_ninf _ _ _ ?_
  rcases h with ⟨h0, h1, h2, h3⟩ | ⟨h0, h1, h2, h3⟩ | ⟨h0, h1, h2, h3⟩
  · exact Or.inl (by rw [h0]; exact slabD_zero_above _ h2 h3 h1)
  · exact Or.inr (Or.inl (by rw [h0]; exact slabD_zero_above _ h2 h3 h1))
  · exact Or.inr (Or.inr (by rw [h0]; exact slabD_zero_above _ h2 h3 h1))

theorem ray_box_false_of_below (o d lo hi : Q3)
    (h : AxisBelow o.x d.x lo.x ∨ AxisBelow o.y d.y lo.y ∨ AxisBelow o.z d.z lo.z)
    (hb : AxisBounded o.x d.x lo.x hi.x ∨ AxisBounded o.y d.y lo.y hi.y ∨
      AxisBounded o.z d.z lo.z hi.z) :
    ray_box_intersection o.toV d.toV ⟨lo.toV, hi.toV⟩ = false := by
  rw [ray_box_intersection_slabD]
  refine slab_test_false_of_entry_pinf _ _ _ ?_ ?_
  · rcases h with ⟨h0, h1, h2, h3⟩ | ⟨h0, h1, h2, h3⟩ | ⟨h0, h1, h2, h3⟩
    · exact Or.inl (by rw [h0]; exact slabD_zero_below _ h2 h3 h1)
    · exact Or.inr (Or.inl (by rw [h0]; exact slabD_zero_below _ h2 h3 h1))
    · exact Or.inr (Or.inr (by rw [h0]; exact slabD_zero_below _ h2 h3 h1))
  · rcases hb with hb | hb | hb
    · exact Or.inl (slabD_bounded hb)
    · exact Or.inr (Or.inl (slabD_bounded hb))
    · exact Or.inr (Or.inr (slabD_bounded hb))

/-- With a subnormal direction the second half of the claim fails as well: the ray from
`(-1, 1/2, 1/2)` along `(0, 1e-310, 0)` is parallel to the `y` axis and its origin is outside
the extent of the unit cube along `x`, yet `ray_box_intersection` returns true, because
`1 / 1e-310` overflows to `+inf` and all three exit parameters are `+inf`. -/
theorem ray_box_intersection_subnormal_direction :
    subD.x = 0 ∧ subD.y ≠ 0 ∧ subD.z = 0 ∧ IsDouble subD.y ∧ besideO.x < 0 ∧
      ray_box_intersection besideO.toV subD.toV ⟨(Q3.mk 0 0 0).toV, (Q3.mk 1 1 1).toV⟩ =
        true := by
  decide!

/-- With one zero direction component and rounding the first half of the claim fails on a
box that is not flat along the axis of the zero component: the ray from `(-1.2, 0.5, 1.5)`
along `(1.9, 0, -0.9)` passes through the centre `(0.7, 0.5, 0.6)` of the box
`(0.7, 0, 0.6) - (0.7, 1, 0.6)` at `t = 1`, yet `ray_box_intersection` returns false: the
entry parameter is computed as 1 and the exit parameter as the double just below 1. -/
theorem ray_box_intersection_centre_rounding :
    (thinLo.x ≤ thinHi.x ∧ thinLo.y < thinHi.y ∧ thinLo.z ≤ thinHi.z) ∧
      thinD.x ≠ 0 ∧ thinD.y = 0 ∧ thinD.z ≠ 0 ∧
      thinO.x + 1 * thinD.x = (thinLo.x + thinHi.x) / 2 ∧
      thinO.y + 1 * thinD.y = (thinLo.y + thinHi.y) / 2 ∧
      thinO.z + 1 * thinD.z = (thinLo.z + thinHi.z) / 2 ∧
      ray_box_intersection thinO.toV thinD.toV ⟨thinLo.toV, thinHi.toV⟩ = false := by
  decide!

/-! ## Symmetries of the arithmetic -/

namespace Dbl

theorem mul_swap (a b : Dbl) : mul a b = mul b a := by
  cases a <;> cases b <;> first | rfl | skip
  rename_i x y
  show round (x * y) = round (y * x)
  rw [mul_comm]

theorem sub_swap (a b : Dbl) : sub b a = neg (sub a b) := by
  cases a <;> cases b <;> first | rfl | skip
  rename_i x y
  show round (y + -x) = neg (round (x + -y))
  rw [← round_neg]
  congr 1
  ring

theorem mulInf_neg_arg (a : ℚ) : mulInf (-a) = neg (mulInf a) := by
  unfold mulInf
  rcases lt_trichotomy 0 a with h | h | h
  · simp [h, not_lt.mpr h.le, neg]
  · simp [← h, neg]
  · simp [h, not_lt.mpr h.le, neg]

theorem mul_neg_both (a b : Dbl) : mul (neg a) (neg b) = mul a b := by
  cases a <;> cases b <;> first | rfl | skip
  · rename_i x y
    show round (-x * -y) = round (x * y)
    rw [neg_mul_neg]
  · rename_i x
    show mulInf (- -x) = mulInf x
    rw [neg_neg]
  · rename_i x
    show mulInf (- -x) = mulInf x
    rw [neg_neg]

theorem divZero_neg (a : ℚ) : divZero (-a) = neg (divZero a) := by
  unfold divZero
  rcases lt_trichotomy 0 a with h | h | h
  · simp [h, not_lt.mpr h.le, neg]
  · simp [← h, neg]
  · simp [h, not_lt.mpr h.le, neg]

theorem div_neg_left (a s : Dbl) : div (neg a) s = neg (div a s) := by
  cases a <;> cases s <;> first | rfl | skip
  · rename_i x y
    show (if y = 0 then divZero (-x) else round (-x / y)) =
      neg (if y = 0 then divZero x else round (x / y))
    split
    · exact divZero_neg x
    · rw [neg_div, round_neg]
  · rename_i y
    show (if 0 ≤ y then ninf else pinf) = neg (if 0 ≤ y then pinf else ninf)
    split <;> rfl
  · rename_i y
    show (if 0 ≤ y then pinf else ninf) = neg (if 0 ≤ y then ninf else pinf)
    split <;> rfl

end Dbl

theorem Vector3d.cross_swap (u v : Vector3d) : v.cross u = (u.cross v).neg := by
  simp only [Vector3d.cross, Vector3d.neg, Vector3d.mk.injEq]
  refine ⟨?_, ?_, ?_⟩
  · rw [Dbl.mul_swap v.y u.z, Dbl.mul_swap v.z u.y, Dbl.sub_swap]
  · rw [Dbl.mul_swap v.z u.x, Dbl.mul_swap v.x u.z, Dbl.sub_swap]
  · rw [Dbl.mul_swap v.x u.y, Dbl.mul_swap v.y u.x, Dbl.sub_swap]

theorem Vector3d.squaredNorm_neg (n : Vector3d) : n.neg.squaredNorm = n.squaredNorm := by
  simp only [Vector3d.squaredNorm, Vector3d.dot, Vector3d.neg, Dbl.mul_neg_both]

theorem Vector3d.normalized_neg (sqrt : ℚ → ℚ) (n : Vector3d) :
    n.neg.normalized sqrt = (n.normalized sqrt).neg := by
  simp only [Vector3d.normalized, Vector3d.squaredNorm_neg]
  split
  · simp only [Vector3d.divScalar, Vector3d.neg, Dbl.div_neg_left]
  · rfl

/-! ## The normal of a triangle -/

theorem ray_triangle_intersection_normal_of_hit (sqrt : ℚ → ℚ) (o d a b c p N : Vector3d)
    (h : Dbl.ge (ray_triangle_intersection sqrt o d a b c p N).1 (.fin 0) = true) :
    (ray_triangle_intersection sqrt o d a b c p N).2.2 =
      ((b.sub a).cross (c.sub a)).normalized sqrt := by
  rw [ray_triangle_intersection_eq] at h ⊢
  split
  · rfl
  · rename_i hc
    rw [if_neg hc] at h
    have hneg : Dbl.ge (.fin (-1)) (.fin 0) = false := by decide!
    rw [hneg] at h
    cases h

/-- When the squared length of the cross product underflows, the normal written is not
normalised at all: for the triangle `(0,0,0)`, `(2^-500,0,0)`, `(0,2^-500,0)` and the ray from
`(2^-502, 2^-502, 1)` along `(0, 0, -1)`, a hit at `t = 1`, the normal is `(0, 0, 2^-1000)`. -/
theorem ray_triangle_intersection_normal_underflow :
    IsDouble tinyB.x ∧ IsDouble tinyO.x ∧
    ray_triangle_intersection exSqrt tinyO.toV exDown.toV (Q3.mk 0 0 0).toV tinyB.toV
      tinyC.toV exP0 exP0 =
        (.fin 1, Vector3d.ofQ (Dbl.pow2 (-502)) (Dbl.pow2 (-502)) 0,
          Vector3d.ofQ 0 0 (Dbl.pow2 (-1000))) := by
  decide!

/-! ## The ray-triangle test decides on the computed solution -/

theorem isInsideTriangle_ofQ (u v t : ℚ) :
    isInsideTriangle (Vector3d.ofQ u v t) =
      (decide (0 ≤ u) && decide (0 ≤ v) && decide (0 ≤ t) &&
        Dbl.le (Dbl.round (u + v)) (.fin 1)) := by
  simp only [isInsideTriangle, Vector3d.ofQ, Dbl.ge_fin, Dbl.add_fin]

theorem round_one : Dbl.round 1 = .fin 1 := by decide!

theorem round_one_ulp : Dbl.round (1 + Dbl.pow2 (-52)) = .fin (1 + Dbl.pow2 (-52)) := by decide!

theorem le_one_of_sum_le {u v : ℚ} (h : u + v ≤ 1) :
    Dbl.le (Dbl.round (u + v)) (.fin 1) = true := by
  have := Dbl.round_mono h
  rwa [round_one] at this

theorem le_one_false_of_sum_ge {u v : ℚ} (h : 1 + Dbl.pow2 (-52) ≤ u + v) :
    Dbl.le (Dbl.round (u + v)) (.fin 1) = false := by
  have hp := Dbl.pow2_pos (-52)
  rcases Dbl.round_of_ge round_one_ulp h with e | ⟨a, e, ha⟩
  · rw [e]
    rfl
  · rw [e]
    simp only [Dbl.le_fin, decide_eq_false_iff_not, not_le]
    linarith

theorem Dbl.mulInf_not_finite (a : ℚ) : (Dbl.mulInf a).isFinite = false := by
  unfold Dbl.mulInf
  split
  · rfl
  · split <;> rfl

theorem Dbl.mul_pinf_not_finite (x : Dbl) : (x.mul .pinf).isFinite = false := by
  cases x with
  | fin a => exact Dbl.mulInf_not_finite a
  | _ => rfl

theorem Dbl.mul_not_finite (x y : Dbl) (h : x.isFinite = false) :
    (x.mul y).isFinite = false := by
  cases x with
  | fin a => cases h
  | pinf =>
    cases y with
    | fin b => exact Dbl.mulInf_not_finite b
    | _ => rfl
  | ninf =>
    cases y with
    | fin b => exact Dbl.mulInf_not_finite (-b)
    | _ => rfl
  | nan => cases y <;> rfl

theorem Dbl.add_not_finite (x y : Dbl) (hx : x.isFinite = false) :
    (x.add y).isFinite = false := by
  cases x <;> cases y <;> first | rfl | cases hx

theorem Vector3d.dot_not_finite (r w : Vector3d) (hx : r.x.isFinite = false) :
    (r.dot w).isFinite = false :=
  Dbl.add_not_finite _ _ (Dbl.add_not_finite _ _ (Dbl.mul_not_finite _ _ hx))

theorem isInsideTriangle_mk_not_finite (x y z : Dbl) (hx : x.isFinite = false)
    (hy : y.isFinite = false) : isInsideTriangle ⟨x, y, z⟩ = false := by
  cases x <;> cases y <;> cases z <;> first
    | rfl | (cases hx; done) | (cases hy; done)
    | simp [isInsideTriangle, Dbl.ge, Dbl.le, Dbl.add]

theorem isInsideTriangle_not_finite (uvt : Vector3d) (hx : uvt.x.isFinite = false)
    (hy : uvt.y.isFinite = false) : isInsideTriangle uvt = false :=
  isInsideTriangle_mk_not_finite uvt.x uvt.y uvt.z hx hy

/-- With a computed determinant that is exactly 0 the solution has no finite component. -/
theorem uvtOf_of_det_zero (o d a b c : Vector3d)
    (h : Matrix3d.det ⟨(b.sub a).neg, (c.sub a).neg, d⟩ = .fin 0) :
    (uvtOf o d a b c).x.isFinite = false ∧ (uvtOf o d a b c).y.isFinite = false ∧
      (uvtOf o d a b c).z.isFinite = false := by
  have hinv : (Dbl.fin 1).div (.fin 0) = .pinf := by decide!
  simp only [uvtOf, Matrix3d.inverseMulVec, Matrix3d.inverseRow, h, hinv]
  exact ⟨Vector3d.dot_not_finite _ _ (Dbl.mul_pinf_not_finite _),
    Vector3d.dot_not_finite _ _ (Dbl.mul_pinf_not_finite _),
    Vector3d.dot_not_finite _ _ (Dbl.mul_pinf_not_finite _)⟩

/-- C7.  `ray_triangle_intersection` has no test of the determinant: it inverts the matrix
and decides on the computed `(u, v, t)`.  For every ray and triangle whose determinant, as
Eigen computes it in double arithmetic, is exactly 0, the reciprocal is an infinity, no
component of the computed `(u, v, t)` is finite, the membership test is false, and the
function returns `-1` with `p` and `N` unwritten; this covers every singular system whose
determinant is computed without rounding error. -/
theorem ray_triangle_intersection_singular (sqrt : ℚ → ℚ) (o d a b c p N : Vector3d)
    (hdet : Matrix3d.det ⟨(b.sub a).neg, (c.sub a).neg, d⟩ = .fin 0) :
    (uvtOf o d a b c).x.isFinite = false ∧ (uvtOf o d a b c).y.isFinite = false ∧
      (uvtOf o d a b c).z.isFinite = false ∧
      isInsideTriangle (uvtOf o d a b c) = false ∧
      ray_triangle_intersection sqrt o d a b c p N = (.fin (-1), p, N) := by
  obtain ⟨hx, hy, hz⟩ := uvtOf_of_det_zero o d a b c hdet
  have hin := isInsideTriangle_not_finite _ hx hy
  refine ⟨hx, hy, hz, hin, ?_⟩
  rw [ray_triangle_intersection_eq, hin]
  rfl

/-- Witness of C7: the direction `exFlat = (1, 0, 0)` is parallel to the plane of the
triangle `(0,0,0)`, `(1,0,0)`, `(0,1,0)`; the system is singular and the determinant is
computed as 0. -/
theorem ray_triangle_intersection_singular_witness :
    detQ exFlat ⟨0, 0, 0⟩ ⟨1, 0, 0⟩ ⟨0, 1, 0⟩ = 0 ∧
    Matrix3d.det ⟨((Q3.mk 1 0 0).toV.sub (Q3.mk 0 0 0).toV).neg,
      ((Q3.mk 0 1 0).toV.sub (Q3.mk 0 0 0).toV).neg, exFlat.toV⟩ = .fin 0 ∧
    ray_triangle_intersection exSqrt exO.toV exFlat.toV (Q3.mk 0 0 0).toV (Q3.mk 1 0 0).toV
      (Q3.mk 0 1 0).toV exP0 exP0 = (.fin (-1), exP0, exP0) :=
  ⟨by decide!, by decide!,
    (ray_triangle_intersection_singular exSqrt exO.toV exFlat.toV (Q3.mk 0 0 0).toV
      (Q3.mk 1 0 0).toV (Q3.mk 0 1 0).toV exP0 exP0 (by decide!)).2.2.2.2⟩

/-- Counterexample to C7: the triangle `(0,0,0)`, `b`, `c` with integer coordinates, the
direction `d = b` parallel to its edge, and the origin `2 c` in its plane.  The system is
singular (its determinant is 0) and the line `2 c + t b` does not meet the triangle, since
every solution has `v = 2`.  The determinant is computed as `2^28`, not 0, and
`ray_triangle_intersection` returns the hit `t = 1` with `p = 2 c + b`, computed from the
inverse of the singular matrix. -/
theorem ray_triangle_intersection_singular_counterexample :
    detQ singB ⟨0, 0, 0⟩ singB singC = 0 ∧
    Matrix3d.det ⟨(singB.toV.sub (Q3.mk 0 0 0).toV).neg, (singC.toV.sub (Q3.mk 0 0 0).toV).neg,
      singB.toV⟩ = .fin 268435456 ∧
    uvtOf singO.toV singB.toV (Q3.mk 0 0 0).toV singB.toV singC.toV = Vector3d.ofQ 1 0 1 ∧
    (ray_triangle_intersection exSqrt singO.toV singB.toV (Q3.mk 0 0 0).toV singB.toV
      singC.toV exP0 exP0).1 = .fin 1 ∧
    (ray_triangle_intersection exSqrt singO.toV singB.toV (Q3.mk 0 0 0).toV singB.toV
      singC.toV exP0 exP0).2.1 =
        Vector3d.ofQ (singO.x + singB.x) (singO.y + singB.y) (singO.z + singB.z) := by
  refine ⟨by decide!, by decide!, by decide!, by decide!, by decide!⟩

/-! ## The empty mesh -/

/-- C6. For a mesh with zero triangles `AABBTree(V, F)` has no nodes and root `-1`; on it
`find_nearest_object` pushes the root `-1` and, in its first iteration, reads
`bvh.nodes[-1]`: it indexes the empty arena out of bounds instead of returning false. -/
theorem find_nearest_object_empty_reads_out_of_bounds
    (sort : (Int → Int → Bool) → List Int → List Int) (uninit : Nat → Int) (sqrt : ℚ → ℚ)
    (V : List Vector3d) (fuel : Nat) (o d p N : Vector3d) :
    AABBTree.AABBTree sort uninit V [] = some ⟨[], -1⟩ ∧
      find_nearest_object sqrt ⟨V, [], ⟨[], -1⟩⟩ (fuel + 1) o d p N = .error .outOfBounds := by
  exact ⟨rfl, rfl⟩

/-! ## Shading: the alpha channel and a light at the hit point -/

theorem lightsLoop_ok (sqrt : ℚ → ℚ) (d p N : Vector3d) (lps : List Vector3d) :
    ∀ (lcs : List Vector4d) (acc : Vector4d), lps.length ≤ lcs.length →
      ∃ C, lightsLoop sqrt d p N lps lcs acc = .ok C := by
  induction lps with
  | nil => intro lcs acc _; exact ⟨acc, rfl⟩
  | cons lp lps ih =>
    intro lcs acc h
    cases lcs with
    | nil => simp at h
    | cons lc lcs =>
      simp only [lightsLoop]
      exact ih lcs _ (by simpa using h)

theorem shadeHit_ok (sqrt : ℚ → ℚ) (lps : List Vector3d) (lcs : List Vector4d)
    (d p N : Vector3d) (h : lps.length ≤ lcs.length) :
    ∃ C, shadeHit sqrt lps lcs d p N = .ok C ∧ C.w = .fin 1 := by
  obtain ⟨L, hL⟩ := lightsLoop_ok sqrt d p N lps lcs (Vector4d.ofQ 0 0 0 0) h
  simp only [shadeHit, hL]
  exact ⟨_, rfl, rfl⟩

/-- C5. When `find_nearest_object` ends with state `st` and every light has a colour,
`shoot_ray` returns a colour `C`: exactly `(0, 0, 0, 0)` when no hit was reported, a colour
with alpha exactly 1 when a hit was reported; so the alpha of the result is 0 iff the ray hit
nothing. -/
theorem shoot_ray_alpha (sqrt : ℚ → ℚ) (scene : Scene) (lps : List Vector3d)
    (lcs : List Vector4d) (fuel : Nat) (o d p N : Vector3d) (hlen : lps.length ≤ lcs.length)
    (st : Nearest) (hfind : find_nearest_object sqrt scene fuel o d p N = .ok st) :
    ∃ C, shoot_ray sqrt scene lps lcs fuel o d p N = .ok C ∧
      (st.res = false → C = Vector4d.ofQ 0 0 0 0) ∧
      (st.res = true → C.w = .fin 1) ∧
      (C.w = .fin 0 ↔ st.res = false) := by
  simp only [shoot_ray, hfind]
  cases hres : st.res with
  | false =>
    exact ⟨Vector4d.ofQ 0 0 0 0, rfl, fun _ => rfl, fun h => (by cases h), fun _ => rfl,
      fun _ => rfl⟩
  | true =>
    obtain ⟨C, hC, hw⟩ := shadeHit_ok sqrt lps lcs d st.p st.N hlen
    refine ⟨C, hC, fun h => (by cases h), fun _ => hw, fun h => ?_, fun h => (by cases h)⟩
    rw [hw] at h
    simp only [Dbl.fin.injEq] at h
    norm_num at h

theorem Dbl.div_zero_special (x : Dbl) : (x.div (.fin 0)).isFinite = false := by
  cases x with
  | fin a =>
    simp only [Dbl.div, if_true, Dbl.divZero]
    split
    · rfl
    · split <;> rfl
  | pinf => simp [Dbl.div, Dbl.isFinite]
  | ninf => simp [Dbl.div, Dbl.isFinite]
  | nan => rfl

theorem Dbl.add_left_special (x y : Dbl) (hx : x.isFinite = false) :
    (x.add y).isFinite = false := by
  cases x with
  | fin a => cases hx
  | _ => cases y <;> rfl

theorem Dbl.add_right_special (x y : Dbl) (hy : y.isFinite = false) :
    (x.add y).isFinite = false := by
  cases y with
  | fin a => cases hy
  | _ => cases x <;> rfl

theorem lightTerm_at_hit (sqrt : ℚ → ℚ) (d N : Vector3d) (q : Q3) (lc : Vector4d) :
    (lightTerm sqrt d q.toV N q.toV lc).x.isFinite = false ∧
    (lightTerm sqrt d q.toV N q.toV lc).y.isFinite = false ∧
    (lightTerm sqrt d q.toV N q.toV lc).z.isFinite = false := by
  have hD : (q.toV.sub q.toV).squaredNorm = .fin 0 := by
    simp only [Q3.toV, Vector3d.ofQ, Vector3d.sub, Vector3d.squaredNorm, Vector3d.dot,
      Dbl.sub_fin, sub_self, Dbl.round_zero, Dbl.mul_fin, mul_zero, Dbl.add_fin, add_zero]
  simp only [lightTerm, hD, Vector4d.divScalar]
  exact ⟨Dbl.div_zero_special _, Dbl.div_zero_special _, Dbl.div_zero_special _⟩

theorem lightsLoop_light_at_hit (sqrt : ℚ → ℚ) (d N : Vector3d) (q : Q3)
    (lps : List Vector3d) :
    ∀ (lcs : List Vector4d) (acc : Vector4d), lps.length ≤ lcs.length →
      ((acc.x.isFinite = false ∧ acc.y.isFinite = false ∧ acc.z.isFinite = false) ∨
        q.toV ∈ lps) →
      ∃ C, lightsLoop sqrt d q.toV N lps lcs acc = .ok C ∧
        C.x.isFinite = false ∧ C.y.isFinite = false ∧ C.z.isFinite = false := by
  induction lps with
  | nil =>
    intro lcs acc _ h
    rcases h with h | h
    · exact ⟨acc, rfl, h⟩
    · cases h
  | cons lp lps ih =>
    intro lcs acc hlen h
    cases lcs with
    | nil => simp at hlen
    | cons lc lcs =>
      simp only [lightsLoop]
      refine ih lcs _ (by simpa using hlen) ?_
      rcases h with h | h
      · exact Or.inl ⟨Dbl.add_left_special _ _ h.1, Dbl.add_left_special _ _ h.2.1,
          Dbl.add_left_special _ _ h.2.2⟩
      · rcases List.mem_cons.mp h with h | h
        · rw [← h]
          obtain ⟨h1, h2, h3⟩ := lightTerm_at_hit sqrt d N q lc
          exact Or.inl ⟨Dbl.add_right_special _ _ h1, Dbl.add_right_special _ _ h2,
            Dbl.add_right_special _ _ h3⟩
        · exact Or.inr h

/-- C8 as amended.  When `find_nearest_object` reports a hit at a point `q` that is the
position of some light (and every light has a colour), `shoot_ray` divides by the zero squared
distance without a guard: the red, green and blue channels of the colour it returns are not
finite (an infinity or NaN), and alpha is 1. -/
theorem shoot_ray_light_at_hit_not_finite (sqrt : ℚ → ℚ) (scene : Scene)
    (lps : List Vector3d) (lcs : List Vector4d) (fuel : Nat) (o d p N : Vector3d)
    (hlen : lps.length ≤ lcs.length) (st : Nearest)
    (hfind : find_nearest_object sqrt scene fuel o d p N = .ok st) (hres : st.res = true)
    (q : Q3) (hp : st.p = q.toV) (hl : q.toV ∈ lps) :
    ∃ C, shoot_ray sqrt scene lps lcs fuel o d p N = .ok C ∧
      C.x.isFinite = false ∧ C.y.isFinite = false ∧ C.z.isFinite = false ∧ C.w = .fin 1 := by
  obtain ⟨L, hL, h1, h2, h3⟩ := lightsLoop_light_at_hit sqrt d st.N q lps lcs
    (Vector4d.ofQ 0 0 0 0) hlen (Or.inr hl)
  simp only [shoot_ray, hfind, hres, Bool.not_true, Bool.false_eq_true, if_false, shadeHit, hp, hL]
  exact ⟨_, rfl, Dbl.add_right_special _ _ h1, Dbl.add_right_special _ _ h2,
    Dbl.add_right_special _ _ h3, rfl⟩

/-! ## Shading: the formula -/

theorem Dbl.max_zero_comm {x : Dbl} (h : x ≠ .nan) :
    Dbl.max x (.fin 0) = Dbl.max (.fin 0) x := by
  cases x with
  | fin a => rw [Dbl.max_fin, Dbl.max_fin, max_comm]
  | pinf => rfl
  | ninf => rfl
  | nan => exact absurd rfl h

theorem lightTerm_eq_spec (sqrt : ℚ → ℚ) (d p N lp : Vector3d) (lc : Vector4d)
    (h : LightDefined sqrt d p N lp) :
    lightTerm sqrt d p N lp lc =
      ⟨spec_light_channel sqrt d p N obj_diffuse_color.x obj_specular_color.x lp lc.x,
        spec_light_channel sqrt d p N obj_diffuse_color.y obj_specular_color.y lp lc.y,
        spec_light_channel sqrt d p N obj_diffuse_color.z obj_specular_color.z lp lc.z,
        spec_light_channel sqrt d p N obj_diffuse_color.w obj_specular_color.w lp lc.w⟩ := by
  obtain ⟨h1, h2⟩ := h
  simp only [spec_L, spec_H] at h1 h2
  simp only [lightTerm, spec_light_channel, spec_L, spec_H, Vector4d.mulScalar, Vector4d.add,
    Vector4d.cwiseProduct, Vector4d.divScalar, Dbl.max_zero_comm h1, Dbl.max_zero_comm h2]

theorem lightsLoop_eq_spec (sqrt : ℚ → ℚ) (d p N : Vector3d)
    (lights : List (Vector3d × Vector4d)) :
    ∀ acc : Vector4d, (∀ l ∈ lights, LightDefined sqrt d p N l.1) →
      lightsLoop sqrt d p N (lights.map (fun l => l.1)) (lights.map (fun l => l.2)) acc =
        .ok ⟨(lights.map (fun l => (l.1, l.2.x))).foldl (fun a l => a.add
              (spec_light_channel sqrt d p N obj_diffuse_color.x obj_specular_color.x l.1 l.2))
              acc.x,
            (lights.map (fun l => (l.1, l.2.y))).foldl (fun a l => a.add
              (spec_light_channel sqrt d p N obj_diffuse_color.y obj_specular_color.y l.1 l.2))
              acc.y,
            (lights.map (fun l => (l.1, l.2.z))).foldl (fun a l => a.add
              (spec_light_channel sqrt d p N obj_diffuse_color.z obj_specular_color.z l.1 l.2))
              acc.z,
            (lights.map (fun l => (l.1, l.2.w))).foldl (fun a l => a.add
              (spec_light_channel sqrt d p N obj_diffuse_color.w obj_specular_color.w l.1 l.2))
              acc.w⟩ := by
  induction lights with
  | nil => intro acc _; rfl
  | cons l ls ih =>
    intro acc h
    simp only [List.map_cons, lightsLoop, List.foldl_cons,
      lightTerm_eq_spec sqrt d p N l.1 l.2 (h l (List.mem_cons_self _ _))]
    exact ih _ (fun x hx => h x (List.mem_cons_of_mem _ hx))

/-- C4.  For every hit (point `p`, normal `N` as `find_nearest_object` wrote them), ray
direction and list of lights for which the two inner products `L_i . N` and `N . H_i` are not
NaN: `shoot_ray` returns the colour whose red, green and blue channels are the formula
`ambient + sum_i (diffuse_i + specular_i) * light_color_i / |light_i - p|^2` evaluated in
double arithmetic, operation by operation in the order written (`spec_phong_channel`), with
`L_i`, `H_i` normalised as Eigen does; the alpha channel is exactly 1 and no channel is
clamped.  With an empty light list the result is the ambient term
`(0, 0.5 * 0.2, 0)` with alpha 1, where `0.2` is the double nearest to 1/5. -/
theorem shoot_ray_phong (sqrt : ℚ → ℚ) (scene : Scene) (fuel : Nat) (o d p0 N0 : Vector3d)
    (lights : List (Vector3d × Vector4d)) (st : Nearest)
    (hfind : find_nearest_object sqrt scene fuel o d p0 N0 = .ok st) (hres : st.res = true)
    (hdef : ∀ l ∈ lights, LightDefined sqrt d st.p st.N l.1) :
    shoot_ray sqrt scene (lights.map (fun l => l.1)) (lights.map (fun l => l.2)) fuel
        o d p0 N0 =
      .ok ⟨spec_phong_channel sqrt d st.p st.N obj_ambient_color.x ambient_light.x
            obj_diffuse_color.x obj_specular_color.x (lights.map (fun l => (l.1, l.2.x))),
          spec_phong_channel sqrt d st.p st.N obj_ambient_color.y ambient_light.y
            obj_diffuse_color.y obj_specular_color.y (lights.map (fun l => (l.1, l.2.y))),
          spec_phong_channel sqrt d st.p st.N obj_ambient_color.z ambient_light.z
            obj_diffuse_color.z obj_specular_color.z (lights.map (fun l => (l.1, l.2.z))),
          .fin 1⟩ ∧
      shoot_ray sqrt scene [] [] fuel o d p0 N0 =
        .ok ⟨.fin 0, .fin (dbl (1 / 2 * dbl (1 / 5))), .fin 0, .fin 1⟩ := by
  constructor
  · simp only [shoot_ray, hfind, hres, Bool.not_true, Bool.false_eq_true, if_false, shadeHit,
      lightsLoop_eq_spec sqrt d st.p st.N lights _ hdef]
    rfl
  · simp only [shoot_ray, hfind, hres, Bool.not_true, Bool.false_eq_true, if_false, shadeHit,
      lightsLoop]
    decide!

/-- Witness of C4: the hit of the ray from `exO` along `exD` in the scene `exScene`, lit by
one light of colour `(16, 16, 16, 0)` at `(0, 0, 2)`; the red channel is above 6: it is not
clamped to 1. -/
theorem shoot_ray_phong_witness :
    (find_nearest_object exSqrt exScene 3 exO.toV exD.toV exP0 exP0 =
        .ok ⟨.fin 4, exHit.toV, exN.toV, true⟩ ∧
      LightDefined exSqrt exD.toV exHit.toV exN.toV (Vector3d.ofQ 0 0 2)) ∧
    shoot_ray exSqrt exScene [Vector3d.ofQ 0 0 2] [Vector4d.ofQ 16 16 16 0] 3 exO.toV exD.toV
        exP0 exP0 =
      .ok ⟨.fin (241389509332597 / 35184372088832), .fin (3918527144663683 / 562949953421312),
        .fin (241389509332597 / 35184372088832), .fin 1⟩ ∧
    (6 : ℚ) < 241389509332597 / 35184372088832 ∧
    shoot_ray exSqrt exScene [] [] 3 exO.toV exD.toV exP0 exP0 =
      .ok ⟨.fin 0, .fin (dbl (1 / 2 * dbl (1 / 5))), .fin 0, .fin 1⟩ := by
  have hdef : LightDefined exSqrt exD.toV exHit.toV exN.toV (Vector3d.ofQ 0 0 2) :=
    ⟨by decide!, by decide!⟩
  have h := shoot_ray_phong exSqrt exScene 3 exO.toV exD.toV exP0 exP0
    [(Vector3d.ofQ 0 0 2, Vector4d.ofQ 16 16 16 0)] ⟨.fin 4, exHit.toV, exN.toV, true⟩ exFind rfl
    (fun l hl => by
      rw [List.mem_singleton] at hl
      subst hl
      exact hdef)
  exact ⟨⟨exFind, hdef⟩, h.1.trans (by decide!), by norm_num, h.2⟩

/-- Over the reals: with `n = |D|`, when `D . N <= 0` and `(d . N)^2 |D|^2 <= (D . N)^2`, the
unit vector `L = D / |D|` has `L . N <= 0` and `(L - d) . N <= 0`; so `max(0, L . N)` and
`max(0, N . H)` are 0 for `H = normalize(L - d)`. -/
theorem real_light_terms_vanish (DN dN DD n : ℝ) (hn : 0 < n) (hn2 : n * n = DD)
    (h1 : DN ≤ 0) (h3 : dN * dN * DD ≤ DN * DN) :
    DN / n ≤ 0 ∧ DN / n - dN ≤ 0 := by
  have a1 : DN / n ≤ 0 := div_nonpos_of_nonpos_of_nonneg h1 hn.le
  refine ⟨a1, ?_⟩
  rw [sub_nonpos, div_le_iff₀ hn]
  by_contra hc
  push_neg at hc
  have hpos : 0 ≤ -DN := by linarith
  have hlt : -DN < -(dN * n) := by linarith
  have hsq : (-DN) * (-DN) < (-(dN * n)) * (-(dN * n)) :=
    mul_lt_mul'' hlt hlt hpos hpos
  have e : (-(dN * n)) * (-(dN * n)) = dN * dN * DD := by
    rw [← hn2]
    ring
  have e2 : (-DN) * (-DN) = DN * DN := by ring
  rw [e, e2] at hsq
  linarith

/-- Counterexample to C4: the triangle `(-1,-1,0)`, `(1,-1,0)`, `(0,1,0)`, the ray from
`-2 d` along `d = (0.6107764945679015, 0, -0.7918030523326783)`, which hits it at
`p = (0, 0, 0)` with `N = (0, 0, 1)`, and one light of colour `(16, 16, 16, 0)` below the
triangle at `D = (0.6107764945679016, 0, -0.7918030523326784)`, not at `p`.  In real
arithmetic `L . N <= 0` and `N . H <= 0` (by the inequalities on `D` and `d` below), so the
diffuse and specular terms are 0 and the red channel of the formula is the ambient red, 0.
In double arithmetic `L` is computed as `d` with its last bit changed, `L - d` is
`(0, 0, 2^-53)`, `H` is `(0, 0, 1)`, the specular term is `0.2`, and `shoot_ray` returns the
red channel `3.2`. -/
theorem shoot_ray_phong_counterexample :
    find_nearest_object exSqrt glossScene 1 glossO.toV glossD.toV exP0 exP0 =
      .ok ⟨.fin 2, Vector3d.ofQ 0 0 0, Vector3d.ofQ 0 0 1, true⟩ ∧
    glossLight.toV ≠ Vector3d.ofQ 0 0 0 ∧
    (glossLight.x * 0 + glossLight.y * 0 + glossLight.z * 1 ≤ 0 ∧
      glossD.x * 0 + glossD.y * 0 + glossD.z * 1 ≤ 0 ∧
      glossD.z * glossD.z *
          (glossLight.x * glossLight.x + glossLight.y * glossLight.y +
            glossLight.z * glossLight.z) ≤
        glossLight.z * glossLight.z) ∧
    spec_L exSqrt (Vector3d.ofQ 0 0 0) glossLight.toV =
      Vector3d.ofQ glossD.x 0 (glossD.z + Dbl.pow2 (-53)) ∧
    spec_H exSqrt glossD.toV (Vector3d.ofQ 0 0 0) glossLight.toV = Vector3d.ofQ 0 0 1 ∧
    shoot_ray exSqrt glossScene [glossLight.toV] [Vector4d.ofQ 16 16 16 0] 1 glossO.toV
        glossD.toV exP0 exP0 =
      .ok ⟨.fin (7205759403792791 / 2251799813685248),
        .fin (1857734846290329 / 562949953421312),
        .fin (7205759403792791 / 2251799813685248), .fin 1⟩ ∧
    (3 : ℚ) < 7205759403792791 / 2251799813685248 := by
  refine ⟨by decide!, by decide!, by decide!, by decide!, by decide!, by decide!, by norm_num⟩

/-! ## Witnesses -/

/-- Witness of C5: the ray from `exO` along `exD` in the scene `exScene` with one light. -/
theorem shoot_ray_alpha_witness :
    (find_nearest_object exSqrt exScene 3 exO.toV exD.toV exP0 exP0 =
        .ok ⟨.fin 4, exHit.toV, exN.toV, true⟩) ∧
    (∃ C, shoot_ray exSqrt exScene [Vector3d.ofQ 0 0 10] [Vector4d.ofQ 16 16 16 0] 3 exO.toV exD.toV exP0 exP0 = .ok C ∧
      ((Nearest.mk (.fin 4) exHit.toV exN.toV true).res = false → C = Vector4d.ofQ 0 0 0 0) ∧
      ((Nearest.mk (.fin 4) exHit.toV exN.toV true).res = true → C.w = .fin 1) ∧
      (C.w = .fin 0 ↔ (Nearest.mk (.fin 4) exHit.toV exN.toV true).res = false)) :=
  ⟨exFind, shoot_ray_alpha exSqrt exScene [Vector3d.ofQ 0 0 10] [Vector4d.ofQ 16 16 16 0] 3
    exO.toV exD.toV exP0 exP0 (by decide) ⟨.fin 4, exHit.toV, exN.toV, true⟩ exFind⟩

/-- Witness of C8 as amended: a light at the point `exHit` that the ray from `exO` along `exD`
hits. -/
theorem shoot_ray_light_at_hit_not_finite_witness :
    (find_nearest_object exSqrt exScene 3 exO.toV exD.toV exP0 exP0 =
        .ok ⟨.fin 4, exHit.toV, exN.toV, true⟩ ∧ exHit.toV ∈ [exHit.toV]) ∧
    (∃ C, shoot_ray exSqrt exScene [exHit.toV] [Vector4d.ofQ 16 16 16 0] 3 exO.toV exD.toV exP0 exP0 = .ok C ∧
      C.x.isFinite = false ∧ C.y.isFinite = false ∧ C.z.isFinite = false ∧ C.w = .fin 1) :=
  ⟨⟨exFind, List.mem_singleton_self _⟩,
    shoot_ray_light_at_hit_not_finite exSqrt exScene [exHit.toV] [Vector4d.ofQ 16 16 16 0] 3
      exO.toV exD.toV exP0 exP0 (by decide) ⟨.fin 4, exHit.toV, exN.toV, true⟩ exFind rfl exHit
      rfl (List.mem_singleton_self _)⟩

/-- Counterexample to C8: with a light at the hit point of the ray from `exO` along
`(0, 0, -1)`, the division by the zero squared distance happens and the red, green and blue
channels of the colour are `+inf`. -/
theorem shoot_ray_light_at_hit_counterexample :
    shoot_ray exSqrt exScene [exHitDown.toV] [Vector4d.ofQ 16 16 16 0] 3 exO.toV exDown.toV
      exP0 exP0 = .ok ⟨.pinf, .pinf, .pinf, .fin 1⟩ := by
  decide!

/-- Witness of C9: the two-triangle mesh `exV`, `exF`. -/
theorem every_triangle_in_exactly_one_leaf_witness :
    (ValidMesh exV exF ∧ 1 ≤ exF.length) ∧
    (∃ bvh, AABBTree.AABBTree exSort exUninit (exV.map Q3.toV) exF = some bvh ∧
      ((bvh.nodes.filter (fun n => n.left == -1 && n.right == -1)).map Node.triangle).Perm
        (iota exF.length) ∧
      (∀ i : Nat, i < exF.length →
        (bvh.nodes.filter (fun n => n.left == -1 && n.right == -1 &&
          n.triangle == (i : Int))).length = 1) ∧
      (bvh.nodes.filter (fun n => n.left == -1 && n.right == -1)).length = exF.length) :=
  ⟨⟨exValid, by decide⟩,
    every_triangle_in_exactly_one_leaf exSort exUninit exSort_perm exV exF exValid (by decide)⟩

/-- Witness of C10: the two-triangle mesh `exV`, `exF`. -/
theorem node_bbox_is_union_witness :
    (ValidMesh exV exF ∧ ∀ v ∈ exV, InRange v) ∧
    (∃ bvh, AABBTree.AABBTree exSort exUninit (exV.map Q3.toV) exF = some bvh ∧
      ∀ (i : Nat) (n : Node), bvh.nodes[i]? = some n →
        ((n.left = -1 ∧ n.right = -1) →
          ∃ f a b c, getRow exF n.triangle = some f ∧ triangleVerticesQ exV f = some (a, b, c) ∧
            n.bbox =
              ⟨Vector3d.ofQ (min (min a.x b.x) c.x) (min (min a.y b.y) c.y)
                (min (min a.z b.z) c.z),
               Vector3d.ofQ (max (max a.x b.x) c.x) (max (max a.y b.y) c.y)
                (max (max a.z b.z) c.z)⟩) ∧
        (¬ (n.left = -1 ∧ n.right = -1) →
          ∃ (nl nr : Node) (ql qr : QBox), getRow bvh.nodes n.left = some nl ∧
            getRow bvh.nodes n.right = some nr ∧ nl.bbox = ql.toBox ∧ nr.bbox = qr.toBox ∧
            n.bbox = (ql.union qr).toBox ∧ n.bbox = nl.bbox.extendBox nr.bbox)) :=
  ⟨⟨exValid, exInRange⟩,
    node_bbox_is_union exSort exUninit exSort_perm exV exF exValid exInRange⟩

/-! ## The single-triangle scenario -/

theorem one_build (sort : (Int → Int → Bool) → List Int → List Int) (uninit : Nat → Int) :
    AABBTree.AABBTree sort uninit (oneV.map Q3.toV) oneF = some ⟨[oneLeaf], 0⟩ := by
  have hc : ∃ cs, computeCentroids (oneV.map Q3.toV) oneF = some cs :=
    computeCentroids_of_valid oneV oneF
      (fun f hf => by
        simp only [oneF, List.mem_singleton] at hf
        subst hf
        exact ⟨⟨0, 0, 0⟩, ⟨1, 0, 0⟩, ⟨0, 1, 0⟩, by decide!⟩)
  obtain ⟨cs, hcs⟩ := hc
  have hbox : triangleBox (oneV.map Q3.toV) oneF 0 = some oneLeaf.bbox := by decide!
  simp only [AABBTree.AABBTree, hcs]
  have hb : build_recursive sort uninit (oneV.map Q3.toV) oneF cs (oneF.length + 1) 0
      oneF.length (-1) [] (iota oneF.length) = some (0, [oneLeaf], [0]) := by
    show build_recursive sort uninit (oneV.map Q3.toV) oneF cs (1 + 1) 0 1 (-1) [] [0] = _
    rw [build_recursive]
    simp only [Nat.sub_zero, one_ne_zero, if_false, if_true, List.getElem?_cons_zero, hbox]
    rfl
  rw [hb]

theorem one_normal (sqrt : ℚ → ℚ) (hs : sqrt 1 = 1) :
    (((Q3.mk 1 0 0).toV.sub (Q3.mk 0 0 0).toV).cross
      ((Q3.mk 0 1 0).toV.sub (Q3.mk 0 0 0).toV)).normalized sqrt = Vector3d.ofQ 0 0 1 := by
  have hc : ((Q3.mk 1 0 0).toV.sub (Q3.mk 0 0 0).toV).cross
      ((Q3.mk 0 1 0).toV.sub (Q3.mk 0 0 0).toV) = Vector3d.ofQ 0 0 1 := by decide!
  have hn : (Vector3d.ofQ 0 0 1).squaredNorm = .fin 1 := by decide!
  have h1 : Dbl.round 1 = .fin 1 := by decide!
  have hd0 : Dbl.div (.fin 0) (.fin 1) = .fin 0 := by decide!
  have hd1 : Dbl.div (.fin 1) (.fin 1) = .fin 1 := by decide!
  have hlt : Dbl.lt (.fin 0) (.fin 1) = true := by decide!
  rw [hc]
  simp only [Vector3d.normalized, hn, hlt, if_true, Dbl.sqrt, hs, h1]
  simp only [Vector3d.divScalar, Vector3d.ofQ, hd0, hd1, zero_le_one, if_true, h1]

theorem one_triangle (sqrt : ℚ → ℚ) (hs : sqrt 1 = 1) (p N : Vector3d) :
    ray_triangle_intersection sqrt oneO.toV exDown.toV (Q3.mk 0 0 0).toV (Q3.mk 1 0 0).toV
        (Q3.mk 0 1 0).toV p N =
      (.fin 5, Vector3d.ofQ (dbl (1 / 5)) (dbl (1 / 5)) 0, Vector3d.ofQ 0 0 1) := by
  have huvt : uvtOf oneO.toV exDown.toV (Q3.mk 0 0 0).toV (Q3.mk 1 0 0).toV (Q3.mk 0 1 0).toV =
      Vector3d.ofQ (dbl (1 / 5)) (dbl (1 / 5)) 5 := by decide!
  have hin : isInsideTriangle (Vector3d.ofQ (dbl (1 / 5)) (dbl (1 / 5)) 5) = true := by decide!
  have hp : oneO.toV.add (Vector3d.smul (.fin 5) exDown.toV) =
      Vector3d.ofQ (dbl (1 / 5)) (dbl (1 / 5)) 0 := by decide!
  rw [ray_triangle_intersection_eq, huvt, if_pos hin, one_normal sqrt hs]
  simp only [Vector3d.ofQ] at hp ⊢
  rw [hp]

/-- C11. For the mesh of the single triangle `(0,0,0)`, `(1,0,0)`, `(0,1,0)` (and a `sqrt` with
`sqrt 1 = 1`) the tree is one leaf, which is the root, and `find_nearest_object` for the ray
from `(0.2, 0.2, 5)` along `(0, 0, -1)` returns true with `t = 5`, `p = (0.2, 0.2, 0)` and
`N = (0, 0, 1)`; `0.2` is the double nearest to 1/5, as the literal is in C++. -/
theorem single_triangle_scenario (sort : (Int → Int → Bool) → List Int → List Int)
    (uninit : Nat → Int) (sqrt : ℚ → ℚ) (hs : sqrt 1 = 1) (fuel : Nat) (p N : Vector3d) :
    AABBTree.AABBTree sort uninit (oneV.map Q3.toV) oneF = some ⟨[oneLeaf], 0⟩ ∧
      oneLeaf.left = -1 ∧ oneLeaf.right = -1 ∧ oneLeaf.triangle = 0 ∧
      find_nearest_object sqrt ⟨oneV.map Q3.toV, oneF, ⟨[oneLeaf], 0⟩⟩ (fuel + 1) oneO.toV
          exDown.toV p N =
        .ok { closest_t := .fin 5, p := Vector3d.ofQ (dbl (1 / 5)) (dbl (1 / 5)) 0,
              N := Vector3d.ofQ 0 0 1, res := true } := by
  refine ⟨one_build sort uninit, rfl, rfl, rfl, ?_⟩
  have hbox : ray_box_intersection oneO.toV exDown.toV oneLeaf.bbox = true := by decide!
  have htri := one_triangle sqrt hs p N
  have hf : getRow oneF 0 = some ⟨0, 1, 2⟩ := by decide!
  have hv : triangleVertices (oneV.map Q3.toV) ⟨0, 1, 2⟩ =
      some ((Q3.mk 0 0 0).toV, (Q3.mk 1 0 0).toV, (Q3.mk 0 1 0).toV) := by decide!
  have hlt : Dbl.lt (.fin 5) (.fin DBL_MAX) = true := by decide!
  have hge : Dbl.ge (.fin 5) (.fin 0) = true := by decide!
  have hget : getRow [oneLeaf] 0 = some oneLeaf := by decide!
  unfold find_nearest_object
  simp only []
  rw [find_nearest_loop]
  simp only [hget, hbox, if_true]
  have hl : (oneLeaf.right == -1 && oneLeaf.left == -1) = true := rfl
  rw [if_pos hl]
  have ht : oneLeaf.triangle = 0 := rfl
  simp only [ht, visitLeaf, hf, hv, htri, hge, hlt, Bool.and_self, if_true]
  cases fuel <;> rfl

/-- Witness of C11: the correctly rounded square root is exact at 1. -/
theorem single_triangle_scenario_witness :
    exSqrt 1 = 1 ∧
      find_nearest_object exSqrt ⟨oneV.map Q3.toV, oneF, ⟨[oneLeaf], 0⟩⟩ 1 oneO.toV
          exDown.toV exP0 exP0 =
        .ok { closest_t := .fin 5, p := Vector3d.ofQ (dbl (1 / 5)) (dbl (1 / 5)) 0,
              N := Vector3d.ofQ 0 0 1, res := true } :=
  ⟨by decide!, (single_triangle_scenario exSort exUninit exSqrt (by decide!) 0 exP0 exP0).2.2.2.2⟩

/-! ## The shape of the nodes -/

theorem built_node_shape (sort : (Int → Int → Bool) → List Int → List Int)
    (uninit : Nat → Int) (hsort : ∀ less l, (sort less l).Perm l) (VQ : List Q3)
    (F : List Vector3i) (hv : ValidMesh VQ F) (hne : F ≠ []) :
    ∃ bvh, AABBTree.AABBTree sort uninit (VQ.map Q3.toV) F = some bvh ∧
      bvh.nodes.length = 2 * F.length - 1 ∧ bvh.root = ((2 * F.length - 2 : Nat) : Int) ∧
      ∀ i n, bvh.nodes[i]? = some n → NodeShape uninit F i n := by
  obtain ⟨tree, hp, -, hb⟩ := AABBTree_spec sort uninit hsort VQ F hv hne
  have hlen : tree.leaves.length = F.length := by rw [hp.length_eq, length_iota]
  have hF : 0 < F.length := List.length_pos.mpr hne
  refine ⟨_, hb, ?_, ?_, ?_⟩
  · show (tree.encode uninit VQ F 0 (-1)).length = _
    rw [Tree.length_encode, Tree.size_eq, hlen]
  · show ((tree.size : Int) - 1) = _
    rw [Tree.size_eq, hlen]
    omega
  · intro i n hi
    have hlt : i < tree.size := by
      have := (List.getElem?_eq_some_iff.mp hi).1
      rwa [Tree.length_encode] at this
    refine Embeds.forall_nodes (A := tree.encode uninit VQ F 0 (-1))
      (fun i n => NodeShape uninit F i n) (fun t => t ∈ iota F.length) ?_ ?_ tree 0 (-1)
      (fun x hx => hp.mem_iff.mp hx) (embeds_encode uninit VQ F tree (-1)) i n (Nat.zero_le _)
      (by omega) hi
    · intro t s par ht _
      obtain ⟨k, hk, rfl⟩ := mem_iota ht
      exact Or.inl ⟨rfl, rfl, k, hk, rfl⟩
    · intro l r s par _ _
      have := l.size_pos
      have := r.size_pos
      refine Or.inr ⟨s + l.size - 1, s + l.size + r.size - 1, ?_, ?_, by omega, by omega, rfl⟩
      · show ((s + l.size : Nat) : Int) - 1 = _
        omega
      · show ((s + l.size + r.size : Nat) : Int) - 1 = _
        omega

/-- C14. The member `triangle` of an internal node is never assigned: for the two-triangle
mesh `exV`, `exF`, in a run where the memory of a fresh `Node` holds 7, the constructor
returns three nodes, the node at index 2 is internal (`left = 0`, `right = 1`) and its
`triangle` is 7, a valid-looking index and not the `-1` that the comment on the member
promises; the two leaves are as the claim says. -/
theorem internal_node_triangle_unassigned :
    ∃ bvh, AABBTree.AABBTree exSort junkUninit (exV.map Q3.toV) exF = some bvh ∧
      bvh.nodes.length = 3 ∧ bvh.root = 2 ∧
      bvh.nodes.map (fun n => (n.left, n.right, n.triangle)) =
        [(-1, -1, 0), (-1, -1, 1), (0, 1, 7)] := by
  decide!

/-- C15. The member `parent` of a child is `nodes.size() - 1` at the time of the recursive
call, not the index of the node that is pushed after both calls return: for the
two-triangle mesh `exV`, `exF` the root is node 2 with `left = 0`, `right = 1` and
`parent = -1`, while node 0 has `parent = -1` and node 1 has `parent = 0`, where the
comment on the member and the claim say 2 for both. -/
theorem child_parent_is_not_parent_index :
    ∃ bvh, AABBTree.AABBTree exSort exUninit (exV.map Q3.toV) exF = some bvh ∧
      bvh.root = 2 ∧
      bvh.nodes.map (fun n => (n.left, n.right, n.parent)) =
        [(-1, -1, -1), (-1, -1, 0), (0, 1, -1)] := by
  decide!

/-! ## The sort axis and the median split -/

/-- One call of `build_recursive` on a range of two or more triangles: the range is sorted
with the comparator on the axis `longest_dim centroids` and cut at `floor(k/2)`; the left
subtree holds the triangles before the cut and the right subtree those after it. -/
theorem build_recursive_split (sort : (Int → Int → Bool) → List Int → List Int)
    (uninit : Nat → Int) (hsort : ∀ less l, (sort less l).Perm l)
    (VQ : List Q3) (F : List Vector3i) (cs : List Vector3d)
    (budget : Nat) (pre rng post : List Int) (parent : Int) (nodes : List Node)
    (h2 : 2 ≤ rng.length) (hlen : rng.length ≤ budget)
    (hv : ∀ t ∈ rng, ValidTriangle VQ F t) :
    ∃ tl tr : Tree,
      tl.leaves.Perm ((sort (centroidLess cs (longest_dim cs)) rng).take (rng.length / 2)) ∧
      tr.leaves.Perm ((sort (centroidLess cs (longest_dim cs)) rng).drop (rng.length / 2)) ∧
      build_recursive sort uninit (VQ.map Q3.toV) F cs budget pre.length
          (pre.length + rng.length) parent nodes (pre ++ rng ++ post) =
        some (((nodes.length + (Tree.node tl tr).size : Nat) : Int) - 1,
          nodes ++ (Tree.node tl tr).encode uninit VQ F nodes.length parent,
          pre ++ (Tree.node tl tr).leaves ++ post) := by
  obtain ⟨b, rfl⟩ : ∃ b, budget = b + 1 := ⟨budget - 1, by omega⟩
  have ih := build_recursive_spec sort uninit hsort VQ F cs b
  rw [build_recursive]
  simp only [Nat.add_sub_cancel_left]
  rw [if_neg (by omega), if_neg (by omega)]
  rw [sortRange_append]
  show ∃ tl tr : Tree,
    tl.leaves.Perm ((sort (centroidLess cs (max_element3
      ((colwiseMaxCoeff cs).sub (colwiseMinCoeff cs)))) rng).take (rng.length / 2)) ∧
    tr.leaves.Perm ((sort (centroidLess cs (max_element3
      ((colwiseMaxCoeff cs).sub (colwiseMinCoeff cs)))) rng).drop (rng.length / 2)) ∧ _
  set less := centroidLess cs (max_element3 ((colwiseMaxCoeff cs).sub (colwiseMinCoeff cs)))
  have hperm : (sort less rng).Perm rng := hsort less rng
  have hv1 : ∀ t ∈ sort less rng, ValidTriangle VQ F t :=
    fun t ht => hv t (hperm.mem_iff.mp ht)
  have hlen1 : (sort less rng).length = rng.length := hperm.length_eq
  have hr : ((pre ++ sort less rng ++ post).drop pre.length).take rng.length =
      sort less rng := by
    rw [List.append_assoc, List.drop_left' rfl, List.take_left' hlen1]
  rw [hr, ← QBox.empty_toBox, extendRange_of_valid VQ F _ hv1]
  simp only []
  set k := rng.length with hk
  set r1 := (sort less rng).take (k / 2) with hr1
  set r2 := (sort less rng).drop (k / 2) with hr2
  have hsplit : sort less rng = r1 ++ r2 := (List.take_append_drop _ _).symm
  have hl1 : r1.length = k / 2 := by
    rw [hr1, List.length_take, hlen1]; omega
  have hl2 : r2.length = k - k / 2 := by
    rw [hr2, List.length_drop, hlen1]
  have hmid : (pre.length + (pre.length + k)) / 2 = pre.length + r1.length := by omega
  have hne1 : r1 ≠ [] := by
    intro h; rw [h] at hl1; simp at hl1; omega
  have hne2 : r2 ≠ [] := by
    intro h; rw [h] at hl2; simp at hl2; omega
  obtain ⟨tl, hpl, -, hbl⟩ := ih pre r1 (r2 ++ post) ((nodes.length : Int) - 1) nodes hne1
    (by omega) (fun t ht => hv1 t (by rw [hsplit]; exact List.mem_append_left _ ht))
  have e1 : pre ++ sort less rng ++ post = pre ++ r1 ++ (r2 ++ post) := by
    rw [hsplit]; simp only [List.append_assoc]
  rw [hmid, e1, hbl]
  simp only []
  have hll : tl.leaves.length = r1.length := hpl.length_eq
  obtain ⟨tr, hpr, -, hbr⟩ := ih (pre ++ tl.leaves) r2 post
    (((nodes ++ tl.encode uninit VQ F nodes.length ((nodes.length : Int) - 1)).length : Int) - 1)
    (nodes ++ tl.encode uninit VQ F nodes.length ((nodes.length : Int) - 1)) hne2
    (by omega) (fun t ht => hv1 t (by rw [hsplit]; exact List.mem_append_right _ ht))
  have e2 : pre ++ tl.leaves ++ (r2 ++ post) = pre ++ tl.leaves ++ r2 ++ post := by
    simp only [List.append_assoc]
  have e3 : pre.length + r1.length = (pre ++ tl.leaves).length := by
    rw [List.length_append, hll]
  have e4 : pre.length + k = (pre ++ tl.leaves).length + r2.length := by
    rw [List.length_append, hll]; omega
  rw [e2, e3, e4, hbr]
  refine ⟨tl, tr, hpl, hpr, ?_⟩
  have hbox : List.foldl (fun b t => b.union (triQ VQ F t)) QBox.empty (sort less rng) =
      boxQ VQ F (tl.leaves ++ tr.leaves) := by
    refine boxQ_perm VQ F _ _ ?_
    rw [hsplit]
    exact (hpl.append hpr).symm
  simp only [Tree.size, Tree.encode, Tree.leaves, List.length_append,
    List.length_singleton, List.append_assoc, Tree.length_encode, hbox, Nat.add_assoc]

theorem max_element3_ofQ (x y z : ℚ) :
    max_element3 (Vector3d.ofQ x y z) =
      if x < y then (if y < z then 2 else 1) else (if x < z then 2 else 0) := by
  simp only [max_element3, Vector3d.ofQ, Dbl.lt_fin, decide_eq_true_eq]
  by_cases h1 : x < y
  · simp only [if_pos h1, Vector3d.coeff, Dbl.lt_fin, decide_eq_true_eq]
  · simp only [if_neg h1, Vector3d.coeff, Dbl.lt_fin, decide_eq_true_eq]

theorem max_element3_first_max (x y z : ℚ) :
    max_element3 (Vector3d.ofQ x y z) < 3 ∧
    (∀ j, j < 3 → Dbl.le ((Vector3d.ofQ x y z).coeff j)
      ((Vector3d.ofQ x y z).coeff (max_element3 (Vector3d.ofQ x y z))) = true) ∧
    (∀ j, j < max_element3 (Vector3d.ofQ x y z) → Dbl.lt ((Vector3d.ofQ x y z).coeff j)
      ((Vector3d.ofQ x y z).coeff (max_element3 (Vector3d.ofQ x y z))) = true) := by
  rw [max_element3_ofQ]
  by_cases h1 : x < y <;> by_cases h2 : y < z <;> by_cases h3 : x < z <;>
    simp only [h1, h2, h3, if_true, if_false] <;>
    refine ⟨by omega, ?_, ?_⟩ <;> intro j hj <;> interval_cases j <;>
    simp only [Vector3d.coeff, Vector3d.ofQ, Dbl.le_fin, Dbl.lt_fin, decide_eq_true_eq] <;>
    linarith

theorem mem_take_drop_pairwise {α : Type} {R : α → α → Prop} (l : List α) (n : Nat)
    (h : l.Pairwise R) : ∀ x ∈ l.take n, ∀ y ∈ l.drop n, R x y := by
  have h' : (l.take n ++ l.drop n).Pairwise R := by
    rw [List.take_append_drop]
    exact h
  exact (List.pairwise_append.mp h').2.2

/-- C16.  For every call of `build_recursive` on a range of `k >= 2` valid triangles, with a
`sort` that returns a permutation: the range is sorted with the comparator on the axis
`longest_dim centroids` and the call returns an internal node whose left subtree holds the
first `floor(k/2)` triangles of the sorted range and whose right subtree holds the others;
when the sorted range is in order for the comparator, no triangle of the right subtree has a
smaller centroid coordinate on that axis than a triangle of the left subtree.  The axis
`longest_dim centroids` is computed from every row of `centroids`, whatever the range, on the
extent `max - min` as computed in double arithmetic from the computed centroids: when that
extent is finite the axis is one of largest computed extent, and every axis of lower index
has a strictly smaller computed extent (ties go to the lowest index). -/
theorem build_recursive_sort_axis (sort : (Int → Int → Bool) → List Int → List Int)
    (uninit : Nat → Int) (hsort : ∀ less l, (sort less l).Perm l)
    (VQ : List Q3) (F : List Vector3i) (cs : List Vector3d)
    (budget : Nat) (pre rng post : List Int) (parent : Int) (nodes : List Node)
    (h2 : 2 ≤ rng.length) (hlen : rng.length ≤ budget)
    (hv : ∀ t ∈ rng, ValidTriangle VQ F t) :
    (∃ tl tr : Tree,
      tl.leaves.Perm ((sort (centroidLess cs (longest_dim cs)) rng).take (rng.length / 2)) ∧
      tr.leaves.Perm ((sort (centroidLess cs (longest_dim cs)) rng).drop (rng.length / 2)) ∧
      build_recursive sort uninit (VQ.map Q3.toV) F cs budget pre.length
          (pre.length + rng.length) parent nodes (pre ++ rng ++ post) =
        some (((nodes.length + (Tree.node tl tr).size : Nat) : Int) - 1,
          nodes ++ (Tree.node tl tr).encode uninit VQ F nodes.length parent,
          pre ++ (Tree.node tl tr).leaves ++ post) ∧
      ((sort (centroidLess cs (longest_dim cs)) rng).Pairwise
          (fun t1 t2 => centroidLess cs (longest_dim cs) t2 t1 = false) →
        ∀ t1 ∈ tl.leaves, ∀ t2 ∈ tr.leaves,
          centroidLess cs (longest_dim cs) t2 t1 = false)) ∧
    (∀ x y z : ℚ, (colwiseMaxCoeff cs).sub (colwiseMinCoeff cs) = Vector3d.ofQ x y z →
      longest_dim cs < 3 ∧
      (∀ j, j < 3 → Dbl.le ((Vector3d.ofQ x y z).coeff j)
        ((Vector3d.ofQ x y z).coeff (longest_dim cs)) = true) ∧
      (∀ j, j < longest_dim cs → Dbl.lt ((Vector3d.ofQ x y z).coeff j)
        ((Vector3d.ofQ x y z).coeff (longest_dim cs)) = true)) := by
  obtain ⟨tl, tr, hl, hr, hb⟩ := build_recursive_split sort uninit hsort VQ F cs budget pre
    rng post parent nodes h2 hlen hv
  refine ⟨⟨tl, tr, hl, hr, hb, fun hs t1 h1 t2 h2' => ?_⟩, ?_⟩
  · exact mem_take_drop_pairwise _ _ hs t1 (hl.mem_iff.mp h1) t2 (hr.mem_iff.mp h2')
  · intro x y z h
    unfold longest_dim
    rw [h]
    exact max_element3_first_max x y z

theorem triValid : ∀ t ∈ [(1 : Int), 2], ValidTriangle triV triF t := by
  intro t ht
  simp only [List.mem_cons, List.mem_singleton, List.not_mem_nil, or_false] at ht
  rcases ht with rfl | rfl
  · exact ⟨⟨3, 4, 5⟩, ⟨30, 15, 0⟩, ⟨33, 15, 0⟩, ⟨30, 18, 0⟩, by decide!, by decide!⟩
  · exact ⟨⟨6, 7, 8⟩, ⟨33, 0, 0⟩, ⟨36, 0, 0⟩, ⟨33, 3, 0⟩, by decide!, by decide!⟩

/-- Witness of C16: the call on the range `[1, 3)` of the three-triangle mesh `triV`, `triF`,
after the leaf of triangle 0 was appended; the insertion sort leaves the range in order for
the comparator. -/
theorem build_recursive_sort_axis_witness :
    (∀ less l, (exSort less l).Perm l) ∧ 2 ≤ [(1 : Int), 2].length ∧
    [(1 : Int), 2].length ≤ 3 ∧ (∀ t ∈ [(1 : Int), 2], ValidTriangle triV triF t) ∧
    (exSort (centroidLess triCentroids (longest_dim triCentroids)) [1, 2]).Pairwise
      (fun t1 t2 => centroidLess triCentroids (longest_dim triCentroids) t2 t1 = false) ∧
    (∃ tl tr : Tree,
      tl.leaves.Perm ((exSort (centroidLess triCentroids (longest_dim triCentroids))
        [1, 2]).take ([(1 : Int), 2].length / 2)) ∧
      tr.leaves.Perm ((exSort (centroidLess triCentroids (longest_dim triCentroids))
        [1, 2]).drop ([(1 : Int), 2].length / 2)) ∧
      build_recursive exSort exUninit (triV.map Q3.toV) triF triCentroids 3 [(0 : Int)].length
          ([(0 : Int)].length + [(1 : Int), 2].length) 0 [leafNode triV triF 0 (-1)]
          ([0] ++ [1, 2] ++ []) =
        some ((([leafNode triV triF 0 (-1)].length + (Tree.node tl tr).size : Nat) : Int) - 1,
          [leafNode triV triF 0 (-1)] ++
            (Tree.node tl tr).encode exUninit triV triF [leafNode triV triF 0 (-1)].length 0,
          [0] ++ (Tree.node tl tr).leaves ++ []) ∧
      ((exSort (centroidLess triCentroids (longest_dim triCentroids)) [1, 2]).Pairwise
          (fun t1 t2 => centroidLess triCentroids (longest_dim triCentroids) t2 t1 = false) →
        ∀ t1 ∈ tl.leaves, ∀ t2 ∈ tr.leaves,
          centroidLess triCentroids (longest_dim triCentroids) t2 t1 = false)) :=
  ⟨exSort_perm, by decide, by decide, triValid, by decide!,
    (build_recursive_sort_axis exSort exUninit exSort_perm triV triF triCentroids 3 [0] [1, 2]
      [] 0 [leafNode triV triF 0 (-1)] (by decide) (by decide) triValid).1⟩

/-- Counterexample to C16: in the mesh `triV`, `triF` the centroids are `(1, 1, 0)`,
`(31, 16, 0)` and `(34, 1, 0)`, computed without rounding error.  The call on the range
`[1, 3)` (triangles 1 and 2) sorts on axis 0, the longest axis of all three centroids,
although the box of the centroids of the range is longest along axis 1; the range stays in
the order 1, 2, where a sort on axis 1 gives 2, 1, and the tree has its leaves in the order
0, 1, 2. -/
theorem build_recursive_sort_axis_counterexample :
    computeCentroids (triV.map Q3.toV) triF = some triCentroids ∧
    longest_dim triCentroids = 0 ∧
    spec_range_longest_axis triCentroids [1, 2] = 1 ∧
    (build_recursive exSort exUninit (triV.map Q3.toV) triF triCentroids 3 1 3 0
      [leafNode triV triF 0 (-1)] [0, 1, 2]).map (fun r => r.2.2) = some [0, 1, 2] ∧
    sortRange exSort (centroidLess triCentroids (spec_range_longest_axis triCentroids [1, 2]))
      1 3 [0, 1, 2] = [0, 2, 1] ∧
    (AABBTree.AABBTree exSort exUninit (triV.map Q3.toV) triF).map
      (fun bvh => (bvh.nodes.filter Node.isLeaf).map Node.triangle) = some [0, 1, 2] := by
  decide!

/-- The extent is the computed one: for the two centroids `(2^-60, 1, 0)` and `(1, 0, 0)` the
extents are `1 - 2^-60` along `x` and `1` along `y`, so the longest axis is 1; the difference
`1 - 2^-60` is rounded to 1, the computed extents tie, and `longest_dim` is 0. -/
theorem longest_dim_rounded_tie :
    IsDouble (Dbl.pow2 (-60)) ∧ (1 : ℚ) - Dbl.pow2 (-60) < 1 - 0 ∧
    (colwiseMaxCoeff [Vector3d.ofQ (Dbl.pow2 (-60)) 1 0, Vector3d.ofQ 1 0 0]).sub
      (colwiseMinCoeff [Vector3d.ofQ (Dbl.pow2 (-60)) 1 0, Vector3d.ofQ 1 0 0]) =
        Vector3d.ofQ 1 1 0 ∧
    longest_dim [Vector3d.ofQ (Dbl.pow2 (-60)) 1 0, Vector3d.ofQ 1 0 0] = 0 := by
  decide!

/-! ## The depth of the tree -/

theorem Embeds.subtreeDepth_eq {uninit : Nat → Int} {VQ : List Q3} {F : List Vector3i}
    {A : List Node} (t : Tree) :
    ∀ (s : Nat) (par : Int) (fuel : Nat), Embeds uninit VQ F A t s par → t.size ≤ fuel →
      subtreeDepth A fuel (((s + t.size : Nat) : Int) - 1) = some t.depth := by
  induction t with
  | leaf tri =>
    intro s par fuel h hf
    obtain ⟨f, rfl⟩ : ∃ f, fuel = f + 1 := ⟨fuel - 1, by simp only [Tree.size] at hf; omega⟩
    have e : ((s + (Tree.leaf tri).size : Nat) : Int) - 1 = ((s : Nat) : Int) := by
      simp only [Tree.size]; omega
    rw [e, subtreeDepth, getRow_natCast, h.leaf_get]
    simp only [isLeaf_leafNode, if_true, Tree.depth]
  | node l r ihl ihr =>
    intro s par fuel h hf
    have hl := l.size_pos
    have hr := r.size_pos
    simp only [Tree.size] at hf
    obtain ⟨f, rfl⟩ : ∃ f, fuel = f + 1 := ⟨fuel - 1, by omega⟩
    have e : ((s + (Tree.node l r).size : Nat) : Int) - 1 = ((s + l.size + r.size : Nat) : Int) := by
      simp only [Tree.size]; omega
    rw [e, subtreeDepth, getRow_natCast, h.node_get]
    simp only [isLeaf_innerNode, Bool.false_eq_true, if_false]
    have h1 := ihl s _ f h.left (by omega)
    have h2 := ihr (s + l.size) _ f h.right (by omega)
    have e2 : (innerNode uninit VQ F l r s par).left = ((s + l.size : Nat) : Int) - 1 := rfl
    have e3 : (innerNode uninit VQ F l r s par).right =
        ((s + l.size + r.size : Nat) : Int) - 1 := rfl
    rw [e2, e3, h1, h2]
    simp only [Tree.depth]

theorem Tree.depth_le_clog (t : Tree) (h : t.MedianSplit) :
    t.depth ≤ Nat.clog 2 t.leaves.length := by
  induction t with
  | leaf tri => simp [Tree.depth]
  | node l r ihl ihr =>
    obtain ⟨hk, hml, hmr⟩ := h
    have h1 := ihl hml
    have h2 := ihr hmr
    have hlp : 0 < l.leaves.length := by
      have := l.size_eq; have := l.size_pos; omega
    have hrp : 0 < r.leaves.length := by
      have := r.size_eq; have := r.size_pos; omega
    simp only [Tree.depth, Tree.leaves, List.length_append]
    rw [Nat.clog_of_two_le (by norm_num) (by omega)]
    have m1 : Nat.clog 2 l.leaves.length ≤
        Nat.clog 2 ((l.leaves.length + r.leaves.length + 2 - 1) / 2) :=
      Nat.clog_mono_right 2 (by omega)
    have m2 : Nat.clog 2 r.leaves.length ≤
        Nat.clog 2 ((l.leaves.length + r.leaves.length + 2 - 1) / 2) :=
      Nat.clog_mono_right 2 (by omega)
    omega

/-- C17. For every call of `build_recursive` on a range of `k >= 2` valid triangles the node
returned has a left subtree with `floor(k/2)` leaves and a right subtree with `ceil(k/2)`
leaves, both non-empty; and in the tree built over `n >= 1` triangles the deepest leaf is at
most `ceil(log2 n)` levels below the root, whatever the positions of the triangles. -/
theorem median_split_depth (sort : (Int → Int → Bool) → List Int → List Int)
    (uninit : Nat → Int) (hsort : ∀ less l, (sort less l).Perm l) (VQ : List Q3)
    (F : List Vector3i) (hv : ValidMesh VQ F) (hne : F ≠ []) :
    (∀ (cs : List Vector3d) (budget : Nat) (pre rng post : List Int) (parent : Int)
        (nodes : List Node),
      2 ≤ rng.length → rng.length ≤ budget → (∀ t ∈ rng, ValidTriangle VQ F t) →
      ∃ tl tr : Tree,
        tl.leaves.length = rng.length / 2 ∧ tr.leaves.length = (rng.length + 1) / 2 ∧
        0 < tl.leaves.length ∧ 0 < tr.leaves.length ∧
        ((tl.encode uninit VQ F nodes.length ((nodes.length : Int) - 1)).filter
          Node.isLeaf).length = rng.length / 2 ∧
        ((tr.encode uninit VQ F (nodes.length + tl.size)
          (((nodes.length + tl.size : Nat) : Int) - 1)).filter
          Node.isLeaf).length = (rng.length + 1) / 2 ∧
        build_recursive sort uninit (VQ.map Q3.toV) F cs budget pre.length
            (pre.length + rng.length) parent nodes (pre ++ rng ++ post) =
          some (((nodes.length + (Tree.node tl tr).size : Nat) : Int) - 1,
            nodes ++ (tl.encode uninit VQ F nodes.length ((nodes.length : Int) - 1) ++
              tr.encode uninit VQ F (nodes.length + tl.size)
                (((nodes.length + tl.size : Nat) : Int) - 1) ++
              [innerNode uninit VQ F tl tr nodes.length parent]),
            pre ++ (tl.leaves ++ tr.leaves) ++ post)) ∧
    (∃ bvh d, AABBTree.AABBTree sort uninit (VQ.map Q3.toV) F = some bvh ∧
      subtreeDepth bvh.nodes bvh.nodes.length bvh.root = some d ∧
      d ≤ Nat.clog 2 F.length) := by
  constructor
  · intro cs budget pre rng post parent nodes h2 hlen hvr
    obtain ⟨tl, tr, hpl, hpr, hb⟩ := build_recursive_split sort uninit hsort VQ F cs budget pre
      rng post parent nodes h2 hlen hvr
    have hl : (sort (centroidLess cs (longest_dim cs)) rng).length = rng.length :=
      (hsort _ _).length_eq
    have h1 : tl.leaves.length = rng.length / 2 := by
      rw [hpl.length_eq, List.length_take, hl]; omega
    have h2' : tr.leaves.length = (rng.length + 1) / 2 := by
      rw [hpr.length_eq, List.length_drop, hl]; omega
    refine ⟨tl, tr, h1, h2', by omega, by omega, ?_, ?_, hb⟩
    · rw [← h1, ← leaves_of_encode uninit VQ F tl nodes.length ((nodes.length : Int) - 1),
        List.length_map]
    · rw [← h2', ← leaves_of_encode uninit VQ F tr (nodes.length + tl.size)
        (((nodes.length + tl.size : Nat) : Int) - 1), List.length_map]
  · obtain ⟨tree, hp, hm, hb⟩ := AABBTree_spec sort uninit hsort VQ F hv hne
    refine ⟨_, tree.depth, hb, ?_, ?_⟩
    · have := Embeds.subtreeDepth_eq tree 0 (-1) (tree.encode uninit VQ F 0 (-1)).length
        (embeds_encode uninit VQ F tree (-1)) (by rw [Tree.length_encode])
      simpa using this
    · have := tree.depth_le_clog hm
      rwa [hp.length_eq, length_iota] at this

/-- Witness of C17: the two-triangle mesh `exV`, `exF`; the root is one level above both
leaves. -/
theorem median_split_depth_witness :
    (∀ less l, (exSort less l).Perm l) ∧ ValidMesh exV exF ∧ exF ≠ [] ∧
    (∃ bvh d, AABBTree.AABBTree exSort exUninit (exV.map Q3.toV) exF = some bvh ∧
      subtreeDepth bvh.nodes bvh.nodes.length bvh.root = some d ∧
      d ≤ Nat.clog 2 exF.length) :=
  ⟨exSort_perm, exValid, by decide,
    (median_split_depth exSort exUninit exSort_perm exV exF exValid (by decide)).2⟩

/-! ## The layout of the arena -/

theorem childPointers_append (A B : List Node) :
    childPointers (A ++ B) = childPointers A ++ childPointers B := by
  induction A with
  | nil => rfl
  | cons n ns ih =>
    show childPointers (n :: (ns ++ B)) = childPointers (n :: ns) ++ childPointers B
    rw [childPointers, childPointers, ih]
    by_cases h : n.isLeaf = true
    · rw [if_pos h, if_pos h]
    · rw [if_neg h, if_neg h]; rfl

theorem childPointers_encode (uninit : Nat → Int) (VQ : List Q3) (F : List Vector3i)
    (t : Tree) : ∀ (s : Nat) (par : Int),
      (childPointers (t.encode uninit VQ F s par)).Perm
        ((List.range' s (t.size - 1)).map (fun n : Nat => (n : Int))) := by
  induction t with
  | leaf tri =>
    intro s par
    rw [Tree.encode_leaf]
    simp [childPointers, isLeaf_leafNode, Tree.size]
  | node l r ihl ihr =>
    intro s par
    have hl := l.size_pos
    have hr := r.size_pos
    rw [Tree.encode_node, childPointers_append, childPointers_append]
    have e0 : childPointers [innerNode uninit VQ F l r s par] =
        [((s + (l.size - 1) : Nat) : Int), ((s + (l.size - 1 + 1) + (r.size - 1) : Nat) : Int)] := by
      simp only [childPointers, isLeaf_innerNode, Bool.false_eq_true, if_false]
      have a1 : (innerNode uninit VQ F l r s par).left = ((s + (l.size - 1) : Nat) : Int) := by
        show ((s + l.size : Nat) : Int) - 1 = _
        omega
      have a2 : (innerNode uninit VQ F l r s par).right =
          ((s + (l.size - 1 + 1) + (r.size - 1) : Nat) : Int) := by
        show ((s + l.size + r.size : Nat) : Int) - 1 = _
        omega
      rw [a1, a2]
    have e1 : (Tree.node l r).size - 1 = ((r.size - 1) + 1) + ((l.size - 1) + 1) := by
      simp only [Tree.size]; omega
    rw [e0, e1, ← List.range'_append_1, List.range'_concat, List.range'_concat]
    simp only [List.map_append, List.map_cons, List.map_nil, Nat.one_mul]
    have p1 := ihl s ((s : Int) - 1)
    have p2 := ihr (s + l.size) (((s + l.size : Nat) : Int) - 1)
    have e2 : s + (l.size - 1 + 1) = s + l.size := by omega
    rw [e2]
    refine ((p1.append p2).append (List.Perm.refl _)).trans ?_
    simp only [List.append_assoc, List.singleton_append, List.cons_append, List.nil_append]
    refine List.Perm.append_left _ ?_
    exact List.perm_middle

/-- C19. For every mesh with `n >= 1` valid triangles the arena of the built tree has
`2n - 1` nodes, `n` of them leaves and `n - 1` internal; the root is the last entry,
`2n - 2`; every internal node at index `i` has children `left < i` and `right = i - 1`,
both valid indices; and the child indices held by the internal nodes are the indices
`0 .. 2n - 3` each exactly once, so every node but the root is the child of exactly one
node. -/
theorem arena_layout (sort : (Int → Int → Bool) → List Int → List Int)
    (uninit : Nat → Int) (hsort : ∀ less l, (sort less l).Perm l) (VQ : List Q3)
    (F : List Vector3i) (hv : ValidMesh VQ F) (hne : F ≠ []) :
    ∃ bvh, AABBTree.AABBTree sort uninit (VQ.map Q3.toV) F = some bvh ∧
      bvh.nodes.length = 2 * F.length - 1 ∧
      (bvh.nodes.filter Node.isLeaf).length = F.length ∧
      (bvh.nodes.filter (fun n => !n.isLeaf)).length = F.length - 1 ∧
      bvh.root = ((2 * F.length - 2 : Nat) : Int) ∧
      (∀ i n, bvh.nodes[i]? = some n → n.isLeaf = false →
        ∃ l r : Nat, n.left = (l : Int) ∧ n.right = (r : Int) ∧ l < i ∧ r < i ∧ r + 1 = i) ∧
      (childPointers bvh.nodes).Perm
        ((List.range (2 * F.length - 2)).map (fun n : Nat => (n : Int))) ∧
      (∀ j : Nat, j < 2 * F.length - 2 → (childPointers bvh.nodes).count (j : Int) = 1) := by
  obtain ⟨tree, hp, -, hb⟩ := AABBTree_spec sort uninit hsort VQ F hv hne
  obtain ⟨bvh, hb', hlen, hroot, hshape⟩ := built_node_shape sort uninit hsort VQ F hv hne
  have hF : 0 < F.length := List.length_pos.mpr hne
  have hbe : bvh = ⟨tree.encode uninit VQ F 0 (-1), (tree.size : Int) - 1⟩ :=
    Option.some.inj (hb'.symm.trans hb)
  have hll : tree.leaves.length = F.length := by rw [hp.length_eq, length_iota]
  have hleaf : (bvh.nodes.filter Node.isLeaf).length = F.length := by
    rw [hbe, ← hll, ← leaves_of_encode uninit VQ F tree 0 (-1), List.length_map]
  have hperm : (childPointers bvh.nodes).Perm
      ((List.range (2 * F.length - 2)).map (fun n : Nat => (n : Int))) := by
    have := childPointers_encode uninit VQ F tree 0 (-1)
    rw [Tree.size_eq, hll, ← List.range_eq_range'] at this
    rw [hbe]
    have e : 2 * F.length - 1 - 1 = 2 * F.length - 2 := by omega
    rw [e] at this
    exact this
  refine ⟨bvh, hb', hlen, hleaf, ?_, hroot, ?_, hperm, ?_⟩
  · have := List.length_eq_length_filter_add (l := bvh.nodes) Node.isLeaf
    omega
  · intro i n hi hnl
    rcases hshape i n hi with ⟨h1, h2, -⟩ | ⟨l, r, h1, h2, h3, h4, -⟩
    · simp [Node.isLeaf, h1, h2] at hnl
    · exact ⟨l, r, h1, h2, by omega, by omega, h4⟩
  · intro j hj
    rw [hperm.count_eq]
    refine List.count_eq_one_of_mem ?_ ?_
    · exact (List.nodup_range _).map Nat.cast_injective
    · exact List.mem_map.mpr ⟨j, List.mem_range.mpr hj, rfl⟩

/-- Witness of C19: the two-triangle mesh `exV`, `exF`, with three nodes. -/
theorem arena_layout_witness :
    (∀ less l, (exSort less l).Perm l) ∧ ValidMesh exV exF ∧ exF ≠ [] ∧
    ∃ bvh, AABBTree.AABBTree exSort exUninit (exV.map Q3.toV) exF = some bvh ∧
      bvh.nodes.length = 2 * exF.length - 1 ∧
      (bvh.nodes.filter Node.isLeaf).length = exF.length ∧
      (bvh.nodes.filter (fun n => !n.isLeaf)).length = exF.length - 1 ∧
      bvh.root = ((2 * exF.length - 2 : Nat) : Int) ∧
      (∀ i n, bvh.nodes[i]? = some n → n.isLeaf = false →
        ∃ l r : Nat, n.left = (l : Int) ∧ n.right = (r : Int) ∧ l < i ∧ r < i ∧ r + 1 = i) ∧
      (childPointers bvh.nodes).Perm
        ((List.range (2 * exF.length - 2)).map (fun n : Nat => (n : Int))) ∧
      (∀ j : Nat, j < 2 * exF.length - 2 → (childPointers bvh.nodes).count (j : Int) = 1) :=
  ⟨exSort_perm, exValid, by decide,
    arena_layout exSort exUninit exSort_perm exV exF exValid (by decide)⟩

/-! ## The logged traversal -/

theorem dropLog_traced (sqrt : ℚ → ℚ) (scene : Scene) (o d : Vector3d) :
    ∀ (fuel : Nat) (stack : List Int) (st : Nearest) (popped tested : List Int),
      dropLog (find_nearest_traced sqrt scene o d fuel stack st popped tested) =
        find_nearest_loop sqrt scene o d fuel stack st := by
  intro fuel
  induction fuel with
  | zero =>
    intro stack st popped tested
    cases stack <;> rfl
  | succ f ih =>
    intro stack st popped tested
    cases stack with
    | nil => rfl
    | cons c stack =>
      rw [find_nearest_traced, find_nearest_loop]
      cases getRow scene.bvh.nodes c with
      | none => rfl
      | some node =>
        simp only []
        by_cases hb : ray_box_intersection o d node.bbox = true
        · rw [if_pos hb, if_pos hb]
          by_cases hl : (node.right == -1 && node.left == -1) = true
          · rw [if_pos hl, if_pos hl]
            cases visitLeaf sqrt scene o d node.triangle st with
            | none => rfl
            | some st1 => exact ih _ _ _ _
          · rw [if_neg hl, if_neg hl]
            exact ih _ _ _ _
        · rw [if_neg hb, if_neg hb]
          exact ih _ _ _ _

theorem visitLeaf_of_valid (sqrt : ℚ → ℚ) (VQ : List Q3) (F : List Vector3i) (bvh : AABBTree)
    (o d : Vector3d) (t : Int) (ht : ValidTriangle VQ F t) (st : Nearest) :
    visitLeaf sqrt ⟨VQ.map Q3.toV, F, bvh⟩ o d t st =
      some (visit sqrt ⟨VQ.map Q3.toV, F, bvh⟩ o d st t) := by
  obtain ⟨f, a, b, c, hf, hv⟩ := ht
  have hv' : triangleVertices (VQ.map Q3.toV) f = some (a.toV, b.toV, c.toV) := by
    rw [triangleVertices_map, hv]
    rfl
  simp only [visit, visitLeaf, hf, hv']
  split <;> rfl

theorem traced_subtree (sqrt : ℚ → ℚ) (uninit : Nat → Int) (VQ : List Q3)
    (F : List Vector3i) (o d : Vector3d) (A : List Node) (root : Int) :
    ∀ (tree : Tree) (s : Nat) (par : Int), Embeds uninit VQ F A tree s par →
      (∀ t ∈ tree.leaves, ValidTriangle VQ F t) →
      ∀ (stack : List Int) (st : Nearest) (popped tested : List Int) (fuel : Nat),
        find_nearest_traced sqrt ⟨VQ.map Q3.toV, F, ⟨A, root⟩⟩ o d
            (fuel + (Tree.popped o d VQ F tree s).length)
            (((s + tree.size - 1 : Nat) : Int) :: stack) st popped tested =
          find_nearest_traced sqrt ⟨VQ.map Q3.toV, F, ⟨A, root⟩⟩ o d fuel stack
            ((Tree.tested o d VQ F tree).foldl (visit sqrt ⟨VQ.map Q3.toV, F, ⟨A, root⟩⟩ o d) st)
            (popped ++ Tree.popped o d VQ F tree s)
            (tested ++ Tree.tested o d VQ F tree) := by
  intro tree
  induction tree with
  | leaf t =>
    intro s par h hv stack st popped tested fuel
    have hidx : s + (Tree.leaf t).size - 1 = s := by simp only [Tree.size]; omega
    have hget : getRow A (((s + (Tree.leaf t).size - 1 : Nat) : Int)) =
        some (leafNode VQ F t par) := by
      rw [getRow_natCast, hidx]
      exact h.leaf_get
    have hval := hv t (List.mem_singleton_self t)
    have hp : Tree.popped o d VQ F (Tree.leaf t) s = [(s : Int)] := rfl
    rw [hp, hidx]
    rw [hidx] at hget
    show find_nearest_traced sqrt _ o d (fuel + 1) _ st popped tested = _
    rw [find_nearest_traced]
    simp only [hget]
    by_cases hb : ray_box_intersection o d (leafNode VQ F t par).bbox = true
    · rw [if_pos hb]
      have hl : ((leafNode VQ F t par).right == -1 && (leafNode VQ F t par).left == -1) =
          true := rfl
      rw [if_pos hl]
      have : (leafNode VQ F t par).triangle = t := rfl
      rw [this, visitLeaf_of_valid sqrt VQ F ⟨A, root⟩ o d t hval st]
      have ht : Tree.tested o d VQ F (Tree.leaf t) = [t] := by
        show (if ray_box_intersection o d (leafNode VQ F t par).bbox = true then [t] else [])
          = [t]
        rw [if_pos hb]
      rw [ht]
      rfl
    · rw [if_neg hb]
      have ht : Tree.tested o d VQ F (Tree.leaf t) = [] := by
        show (if ray_box_intersection o d (leafNode VQ F t par).bbox = true then [t] else [])
          = []
        rw [if_neg hb]
      rw [ht]
      simp only [List.foldl_nil, List.append_nil]
  | node l r ihl ihr =>
    intro s par h hv stack st popped tested fuel
    have hlp := l.size_pos
    have hrp := r.size_pos
    have hidx : s + (Tree.node l r).size - 1 = s + l.size + r.size := by
      simp only [Tree.size]; omega
    have hget : getRow A (((s + (Tree.node l r).size - 1 : Nat) : Int)) =
        some (innerNode uninit VQ F l r s par) := by
      rw [getRow_natCast, hidx]
      exact h.node_get
    have hbox : (innerNode uninit VQ F l r s par).bbox = Tree.box VQ F (Tree.node l r) := rfl
    by_cases hb : ray_box_intersection o d (Tree.box VQ F (Tree.node l r)) = true
    · have hp : Tree.popped o d VQ F (Tree.node l r) s =
          ((s + l.size + r.size : Nat) : Int) ::
            (Tree.popped o d VQ F l s ++ Tree.popped o d VQ F r (s + l.size)) := by
        rw [Tree.popped, if_pos hb]
      have ht : Tree.tested o d VQ F (Tree.node l r) =
          Tree.tested o d VQ F l ++ Tree.tested o d VQ F r := by
        rw [Tree.tested, if_pos hb]
      rw [hp, ht]
      have e : fuel + (((s + l.size + r.size : Nat) : Int) ::
          (Tree.popped o d VQ F l s ++ Tree.popped o d VQ F r (s + l.size))).length =
          (fuel + (Tree.popped o d VQ F r (s + l.size)).length +
            (Tree.popped o d VQ F l s).length) + 1 := by
        simp only [List.length_cons, List.length_append]; omega
      rw [e, find_nearest_traced]
      simp only [hget]
      rw [hbox, if_pos hb]
      have hnl : ((innerNode uninit VQ F l r s par).right == -1 &&
          (innerNode uninit VQ F l r s par).left == -1) = false :=
        isLeaf_innerNode uninit VQ F l r s par
      rw [hnl]
      simp only [Bool.false_eq_true, if_false]
      have el : (innerNode uninit VQ F l r s par).left = ((s + l.size - 1 : Nat) : Int) := by
        simp only [innerNode]; omega
      have er : (innerNode uninit VQ F l r s par).right =
          ((s + l.size + r.size - 1 : Nat) : Int) := by
        simp only [innerNode]; omega
      rw [el, ihl s _ h.left (fun t ht => hv t (List.mem_append_left _ ht)), er,
        ihr _ _ h.right (fun t ht => hv t (List.mem_append_right _ ht))]
      simp only [List.foldl_append, List.append_assoc, List.singleton_append, List.cons_append,
        List.nil_append,
        hidx]
    · have hp : Tree.popped o d VQ F (Tree.node l r) s = [((s + l.size + r.size : Nat) : Int)] := by
        rw [Tree.popped, if_neg hb]
      have ht : Tree.tested o d VQ F (Tree.node l r) = [] := by
        rw [Tree.tested, if_neg hb]
      rw [hp, ht]
      show find_nearest_traced sqrt _ o d (fuel + 1) _ st popped tested = _
      rw [find_nearest_traced]
      simp only [hget]
      rw [hbox, if_neg hb]
      simp only [List.foldl_nil, List.append_nil, hidx]

theorem Tree.popped_bounds (o d : Vector3d) (VQ : List Q3) (F : List Vector3i) (t : Tree) :
    ∀ (s : Nat), ∀ x ∈ Tree.popped o d VQ F t s,
      ∃ k : Nat, x = (k : Int) ∧ s ≤ k ∧ k < s + t.size := by
  induction t with
  | leaf tri =>
    intro s x hx
    simp only [Tree.popped, List.mem_singleton] at hx
    exact ⟨s, hx, le_refl _, by simp only [Tree.size]; omega⟩
  | node l r ihl ihr =>
    intro s x hx
    simp only [Tree.popped, List.mem_cons] at hx
    rcases hx with rfl | hx
    · exact ⟨_, rfl, by omega, by simp only [Tree.size]; omega⟩
    · split at hx
      · rcases List.mem_append.mp hx with h | h
        · obtain ⟨k, rfl, h1, h2⟩ := ihl s x h
          exact ⟨k, rfl, h1, by simp only [Tree.size]; omega⟩
        · obtain ⟨k, rfl, h1, h2⟩ := ihr (s + l.size) x h
          exact ⟨k, rfl, by omega, by simp only [Tree.size]; omega⟩
      · cases hx

theorem Tree.popped_nodup (o d : Vector3d) (VQ : List Q3) (F : List Vector3i) (t : Tree) :
    ∀ (s : Nat), (Tree.popped o d VQ F t s).Nodup := by
  induction t with
  | leaf tri =>
    intro s
    simp only [Tree.popped, List.nodup_singleton]
  | node l r ihl ihr =>
    intro s
    simp only [Tree.popped]
    refine List.nodup_cons.mpr ⟨?_, ?_⟩
    · intro hx
      split at hx
      · rcases List.mem_append.mp hx with h | h
        · obtain ⟨k, hk, h1, h2⟩ := Tree.popped_bounds o d VQ F l s _ h
          omega
        · obtain ⟨k, hk, h1, h2⟩ := Tree.popped_bounds o d VQ F r (s + l.size) _ h
          omega
      · cases hx
    · split
      · refine List.Nodup.append (ihl s) (ihr (s + l.size)) ?_
        intro x h1 h2
        obtain ⟨k, hk, a1, a2⟩ := Tree.popped_bounds o d VQ F l s _ h1
        obtain ⟨k', hk', b1, b2⟩ := Tree.popped_bounds o d VQ F r (s + l.size) _ h2
        omega
      · exact List.nodup_nil

theorem Tree.popped_length_le (o d : Vector3d) (VQ : List Q3) (F : List Vector3i) (t : Tree) :
    ∀ (s : Nat), (Tree.popped o d VQ F t s).length ≤ t.size := by
  induction t with
  | leaf tri =>
    intro s
    simp only [Tree.popped, List.length_singleton, Tree.size, le_refl]
  | node l r ihl ihr =>
    intro s
    simp only [Tree.popped, List.length_cons, Tree.size]
    split
    · have := ihl s
      have := ihr (s + l.size)
      rw [List.length_append]
      omega
    · simp only [List.length_nil]
      omega

theorem Tree.tested_subset (o d : Vector3d) (VQ : List Q3) (F : List Vector3i) (t : Tree) :
    ∀ x ∈ Tree.tested o d VQ F t, x ∈ t.leaves := by
  induction t with
  | leaf tri =>
    intro x hx
    simp only [Tree.tested] at hx
    split at hx
    · simpa [Tree.leaves] using hx
    · cases hx
  | node l r ihl ihr =>
    intro x hx
    simp only [Tree.tested] at hx
    split at hx
    · rcases List.mem_append.mp hx with h | h
      · exact List.mem_append_left _ (ihl x h)
      · exact List.mem_append_right _ (ihr x h)
    · cases hx

theorem Tree.tested_reached (uninit : Nat → Int) (VQ : List Q3) (F : List Vector3i)
    (o d : Vector3d) (A : List Node) (root : Int) (t : Tree) :
    ∀ (s : Nat) (par : Int), Embeds uninit VQ F A t s par →
      Reached A root o d ((s + t.size - 1 : Nat) : Int) →
      ∀ tri ∈ Tree.tested o d VQ F t, ∃ i n, Reached A root o d i ∧ getRow A i = some n ∧
        n.isLeaf = true ∧ n.triangle = tri ∧ ray_box_intersection o d n.bbox = true := by
  induction t with
  | leaf tri =>
    intro s par h hr x hx
    have hidx : s + (Tree.leaf tri).size - 1 = s := by simp only [Tree.size]; omega
    rw [hidx] at hr
    simp only [Tree.tested] at hx
    split at hx
    · rename_i hb
      have hx' : x = tri := by simpa using hx
      subst hx'
      refine ⟨(s : Int), leafNode VQ F x par, hr, ?_, rfl, rfl, hb⟩
      rw [getRow_natCast]
      exact h.leaf_get
    · cases hx
  | node l r ihl ihr =>
    intro s par h hr x hx
    have hlp := l.size_pos
    have hrp := r.size_pos
    have hidx : s + (Tree.node l r).size - 1 = s + l.size + r.size := by
      simp only [Tree.size]; omega
    rw [hidx] at hr
    have hget : getRow A ((s + l.size + r.size : Nat) : Int) =
        some (innerNode uninit VQ F l r s par) := by
      rw [getRow_natCast]
      exact h.node_get
    simp only [Tree.tested] at hx
    split at hx
    · rename_i hb
      have el : (innerNode uninit VQ F l r s par).left = ((s + l.size - 1 : Nat) : Int) := by
        simp only [innerNode]; omega
      have er : (innerNode uninit VQ F l r s par).right =
          (((s + l.size) + r.size - 1 : Nat) : Int) := by
        simp only [innerNode]; omega
      rcases List.mem_append.mp hx with hm | hm
      · refine ihl s _ h.left ?_ x hm
        rw [← el]
        exact Reached.left _ _ hr hget hb (isLeaf_innerNode uninit VQ F l r s par)
      · refine ihr (s + l.size) _ h.right ?_ x hm
        rw [← er]
        exact Reached.right _ _ hr hget hb (isLeaf_innerNode uninit VQ F l r s par)
    · cases hx

theorem traversal_run (sort : (Int → Int → Bool) → List Int → List Int)
    (uninit : Nat → Int) (sqrt : ℚ → ℚ) (hsort : ∀ less l, (sort less l).Perm l)
    (VQ : List Q3) (F : List Vector3i) (hv : ValidMesh VQ F) (hne : F ≠ [])
    (o d : Vector3d) (st0 : Nearest) :
    ∃ tree : Tree, tree.leaves.Perm (iota F.length) ∧
      AABBTree.AABBTree sort uninit (VQ.map Q3.toV) F =
        some ⟨tree.encode uninit VQ F 0 (-1), (tree.size : Int) - 1⟩ ∧
      ∀ fuel, (Tree.popped o d VQ F tree 0).length ≤ fuel →
        find_nearest_traced sqrt
            ⟨VQ.map Q3.toV, F, ⟨tree.encode uninit VQ F 0 (-1), (tree.size : Int) - 1⟩⟩ o d fuel
            [(tree.size : Int) - 1] st0 [] [] =
          .ok ((Tree.tested o d VQ F tree).foldl
              (visit sqrt
                ⟨VQ.map Q3.toV, F, ⟨tree.encode uninit VQ F 0 (-1), (tree.size : Int) - 1⟩⟩ o d)
              st0,
            Tree.popped o d VQ F tree 0, Tree.tested o d VQ F tree) := by
  obtain ⟨tree, hp, -, hb⟩ := AABBTree_spec sort uninit hsort VQ F hv hne
  have hval : ∀ t ∈ tree.leaves, ValidTriangle VQ F t :=
    fun x hx => validTriangle_of_mem_iota VQ F hv x (hp.mem_iff.mp hx)
  refine ⟨tree, hp, hb, fun fuel hf => ?_⟩
  have hrun := traced_subtree sqrt uninit VQ F o d (tree.encode uninit VQ F 0 (-1))
    ((tree.size : Int) - 1) tree 0 (-1) (embeds_encode uninit VQ F tree (-1)) hval [] st0 [] []
    (fuel - (Tree.popped o d VQ F tree 0).length)
  have e1 : fuel - (Tree.popped o d VQ F tree 0).length + (Tree.popped o d VQ F tree 0).length
      = fuel := by omega
  have e2 : ((0 + tree.size - 1 : Nat) : Int) = (tree.size : Int) - 1 := by
    have := tree.size_pos
    omega
  rw [e1, e2] at hrun
  rw [hrun, find_nearest_traced]
  simp only [List.nil_append]

/-- C18. For every mesh with `n >= 1` valid triangles and every ray: the run of
`find_nearest_object` on the built tree, logged by `find_nearest_traced`, hands a triangle to
`ray_triangle_intersection` only when it is the triangle of a leaf that passed the ray-box
test and was reached from the root through nodes that all passed it; so when the ray-box
test is false on the bbox of every leaf no triangle is tested, `find_nearest_object` returns
false with its initial state and `shoot_ray` returns `(0, 0, 0, 0)`. -/
theorem box_miss_skips_triangle_tests (sort : (Int → Int → Bool) → List Int → List Int)
    (uninit : Nat → Int) (sqrt : ℚ → ℚ) (hsort : ∀ less l, (sort less l).Perm l)
    (VQ : List Q3) (F : List Vector3i) (hv : ValidMesh VQ F) (hne : F ≠ [])
    (o d p0 N0 : Vector3d) (lps : List Vector3d) (lcs : List Vector4d) :
    ∃ bvh st popped tested, AABBTree.AABBTree sort uninit (VQ.map Q3.toV) F = some bvh ∧
      (∀ fuel, 2 * F.length - 1 ≤ fuel →
        find_nearest_traced sqrt ⟨VQ.map Q3.toV, F, bvh⟩ o d fuel [bvh.root]
          { closest_t := .fin DBL_MAX, p := p0, N := N0, res := false } [] [] =
            .ok (st, popped, tested) ∧
        find_nearest_object sqrt ⟨VQ.map Q3.toV, F, bvh⟩ fuel o d p0 N0 = .ok st) ∧
      (∀ tri ∈ tested, ∃ i n, Reached bvh.nodes bvh.root o d i ∧
        getRow bvh.nodes i = some n ∧ n.isLeaf = true ∧ n.triangle = tri ∧
        ray_box_intersection o d n.bbox = true) ∧
      ((∀ n ∈ bvh.nodes, n.isLeaf = true → ray_box_intersection o d n.bbox = false) →
        tested = [] ∧
        ∀ fuel, 2 * F.length - 1 ≤ fuel →
          find_nearest_object sqrt ⟨VQ.map Q3.toV, F, bvh⟩ fuel o d p0 N0 =
            .ok { closest_t := .fin DBL_MAX, p := p0, N := N0, res := false } ∧
          shoot_ray sqrt ⟨VQ.map Q3.toV, F, bvh⟩ lps lcs fuel o d p0 N0 =
            .ok (Vector4d.ofQ 0 0 0 0)) := by
  obtain ⟨tree, hp, hb, hrun⟩ := traversal_run sort uninit sqrt hsort VQ F hv hne o d
    { closest_t := .fin DBL_MAX, p := p0, N := N0, res := false }
  have hsize : tree.size = 2 * F.length - 1 := by
    rw [Tree.size_eq, hp.length_eq, length_iota]
  have hlen := Tree.popped_length_le o d VQ F tree 0
  have hreach := Tree.tested_reached uninit VQ F o d (tree.encode uninit VQ F 0 (-1))
    ((tree.size : Int) - 1) tree 0 (-1) (embeds_encode uninit VQ F tree (-1))
    (by
      have e : ((0 + tree.size - 1 : Nat) : Int) = (tree.size : Int) - 1 := by
        have := tree.size_pos
        omega
      rw [e]
      exact Reached.root)
  have hfind : ∀ fuel, 2 * F.length - 1 ≤ fuel →
      find_nearest_object sqrt
        ⟨VQ.map Q3.toV, F, ⟨tree.encode uninit VQ F 0 (-1), (tree.size : Int) - 1⟩⟩ fuel o d
        p0 N0 = .ok ((Tree.tested o d VQ F tree).foldl
          (visit sqrt
            ⟨VQ.map Q3.toV, F, ⟨tree.encode uninit VQ F 0 (-1), (tree.size : Int) - 1⟩⟩ o d)
          { closest_t := .fin DBL_MAX, p := p0, N := N0, res := false }) := by
    intro fuel hf
    unfold find_nearest_object
    rw [← dropLog_traced sqrt _ o d fuel _ _ [] [], hrun fuel (by omega)]
    rfl
  refine ⟨_, _, _, _, hb, fun fuel hf => ⟨hrun fuel (by omega), hfind fuel hf⟩, hreach, ?_⟩
  intro hmiss
  have hnil : Tree.tested o d VQ F tree = [] := by
    cases hT : Tree.tested o d VQ F tree with
    | nil => rfl
    | cons x xs =>
      obtain ⟨i, n, -, hget, hleaf, -, hbox⟩ := hreach x (by rw [hT]; exact List.mem_cons_self _ _)
      rw [hmiss n (mem_of_getRow hget) hleaf] at hbox
      cases hbox
  refine ⟨hnil, fun fuel hf => ?_⟩
  have h1 := hfind fuel hf
  rw [hnil] at h1
  refine ⟨h1, ?_⟩
  unfold shoot_ray
  rw [h1]
  rfl

/-- Witness of C18: the two-triangle mesh `exV`, `exF` and the ray from `(5, 5, 5)` along
`(0, 0, -1)`, which misses the boxes of both leaves. -/
theorem box_miss_skips_triangle_tests_witness :
    (∀ less l, (exSort less l).Perm l) ∧ ValidMesh exV exF ∧ exF ≠ [] ∧
    AABBTree.AABBTree exSort exUninit (exV.map Q3.toV) exF = some exBvh ∧
    (∀ n ∈ exBvh.nodes, n.isLeaf = true →
      ray_box_intersection missO.toV exDown.toV n.bbox = false) ∧
    shoot_ray exSqrt exScene [] [] 3 missO.toV exDown.toV exP0 exP0 =
      .ok (Vector4d.ofQ 0 0 0 0) := by
  have hbuild : AABBTree.AABBTree exSort exUninit (exV.map Q3.toV) exF = some exBvh := by
    decide!
  have hmiss : ∀ n ∈ exBvh.nodes, n.isLeaf = true →
      ray_box_intersection missO.toV exDown.toV n.bbox = false := by
    decide!
  refine ⟨exSort_perm, exValid, by decide, hbuild, hmiss, ?_⟩
  obtain ⟨bvh, st, popped, tested, hb, -, -, himp⟩ :=
    box_miss_skips_triangle_tests exSort exUninit exSqrt exSort_perm exV exF exValid
      (by decide) missO.toV exDown.toV exP0 exP0 [] []
  have e : bvh = exBvh := Option.some.inj (hb.symm.trans hbuild)
  subst e
  exact ((himp hmiss).2 3 (by decide)).2

/-- C20. For every mesh with `n >= 1` valid triangles and every ray, also one with infinite
or NaN components: the loop of `find_nearest_object` on the built tree takes no index off
the stack twice, makes at most `2n - 1` iterations, and returns a result (no out-of-bounds
read) as soon as it is allowed as many iterations as it pops; every index popped is an
index of `bvh.nodes` and every triangle tested has a row in `facets` that names three rows
of `vertices`. -/
theorem traversal_terminates_in_bounds (sort : (Int → Int → Bool) → List Int → List Int)
    (uninit : Nat → Int) (sqrt : ℚ → ℚ) (hsort : ∀ less l, (sort less l).Perm l)
    (VQ : List Q3) (F : List Vector3i) (hv : ValidMesh VQ F) (hne : F ≠ [])
    (o d p0 N0 : Vector3d) :
    ∃ bvh st popped tested, AABBTree.AABBTree sort uninit (VQ.map Q3.toV) F = some bvh ∧
      popped.Nodup ∧ popped.length ≤ 2 * F.length - 1 ∧
      (∀ i ∈ popped, ∃ k : Nat, i = (k : Int) ∧ k < bvh.nodes.length) ∧
      (∀ tri ∈ tested, ValidTriangle VQ F tri) ∧
      ∀ fuel, popped.length ≤ fuel →
        find_nearest_traced sqrt ⟨VQ.map Q3.toV, F, bvh⟩ o d fuel [bvh.root]
          { closest_t := .fin DBL_MAX, p := p0, N := N0, res := false } [] [] =
            .ok (st, popped, tested) ∧
        find_nearest_object sqrt ⟨VQ.map Q3.toV, F, bvh⟩ fuel o d p0 N0 = .ok st := by
  obtain ⟨tree, hp, hb, hrun⟩ := traversal_run sort uninit sqrt hsort VQ F hv hne o d
    { closest_t := .fin DBL_MAX, p := p0, N := N0, res := false }
  have hsize : tree.size = 2 * F.length - 1 := by
    rw [Tree.size_eq, hp.length_eq, length_iota]
  refine ⟨_, _, _, _, hb, Tree.popped_nodup o d VQ F tree 0, ?_, ?_, ?_, fun fuel hf =>
    ⟨hrun fuel hf, ?_⟩⟩
  · rw [← hsize]
    exact Tree.popped_length_le o d VQ F tree 0
  · intro i hi
    obtain ⟨k, hk, -, h2⟩ := Tree.popped_bounds o d VQ F tree 0 i hi
    refine ⟨k, hk, ?_⟩
    show k < (tree.encode uninit VQ F 0 (-1)).length
    rw [Tree.length_encode]
    omega
  · intro tri ht
    exact validTriangle_of_mem_iota VQ F hv tri
      (hp.mem_iff.mp (Tree.tested_subset o d VQ F tree tri ht))
  · unfold find_nearest_object
    rw [← dropLog_traced sqrt _ o d fuel _ _ [] [], hrun fuel hf]
    rfl

/-- Witness of C20: the two-triangle mesh `exV`, `exF` and a ray whose direction has an
infinite and a NaN component. -/
theorem traversal_terminates_in_bounds_witness :
    (∀ less l, (exSort less l).Perm l) ∧ ValidMesh exV exF ∧ exF ≠ [] ∧
    ∃ bvh st popped tested,
      AABBTree.AABBTree exSort exUninit (exV.map Q3.toV) exF = some bvh ∧
      popped.Nodup ∧ popped.length ≤ 2 * exF.length - 1 ∧
      (∀ i ∈ popped, ∃ k : Nat, i = (k : Int) ∧ k < bvh.nodes.length) ∧
      (∀ tri ∈ tested, ValidTriangle exV exF tri) ∧
      ∀ fuel, popped.length ≤ fuel →
        find_nearest_traced exSqrt ⟨exV.map Q3.toV, exF, bvh⟩ exO.toV ⟨.pinf, .nan, .fin 0⟩ fuel
          [bvh.root] { closest_t := .fin DBL_MAX, p := exP0, N := exP0, res := false } [] [] =
            .ok (st, popped, tested) ∧
        find_nearest_object exSqrt ⟨exV.map Q3.toV, exF, bvh⟩ fuel exO.toV
          ⟨.pinf, .nan, .fin 0⟩ exP0 exP0 = .ok st :=
  ⟨exSort_perm, exValid, by decide,
    traversal_terminates_in_bounds exSort exUninit exSqrt exSort_perm exV exF exValid
      (by decide) exO.toV ⟨.pinf, .nan, .fin 0⟩ exP0 exP0⟩

/-! ## The leaf branch -/

/-- The outcome of the triangle test on a valid triangle, for every ray: a flag `hit`, a
parameter `τ` (at least 0 on a hit), and the point and normal of the hit; on a miss the result
is `-1` and the `p`, `N` passed in. -/
theorem triangle_outcome (sqrt : ℚ → ℚ) (VQ : List Q3) (F : List Vector3i) (o d : Vector3d)
    (t : Int) (ht : ValidTriangle VQ F t) :
    ∃ (hit : Bool) (τ : Dbl) (P Nn : Vector3d), (hit = true → Dbl.ge τ (.fin 0) = true) ∧
      (∀ p N, triangleTest sqrt (VQ.map Q3.toV) F o d t p N =
        some (if hit = true then (τ, P, Nn) else (.fin (-1), p, N))) ∧
      (∀ (bvh : AABBTree) (st : Nearest),
        visit sqrt ⟨VQ.map Q3.toV, F, bvh⟩ o d st t =
          if hit = true ∧ Dbl.lt τ st.closest_t = true then
            { closest_t := τ, p := P, N := Nn, res := true } else st) := by
  obtain ⟨f, a, b, c, hf, hv⟩ := ht
  have hv' : triangleVertices (VQ.map Q3.toV) f = some (a.toV, b.toV, c.toV) := by
    rw [triangleVertices_map, hv]
    rfl
  have hneg : Dbl.ge (.fin (-1)) (.fin 0) = false := by decide!
  refine ⟨isInsideTriangle (uvtOf o d a.toV b.toV c.toV), (uvtOf o d a.toV b.toV c.toV).z,
    o.add (Vector3d.smul (uvtOf o d a.toV b.toV c.toV).z d),
    ((b.toV.sub a.toV).cross (c.toV.sub a.toV)).normalized sqrt, ?_, ?_, ?_⟩
  · intro h
    simp only [isInsideTriangle, Bool.and_eq_true] at h
    exact h.1.2
  · intro p N
    simp only [triangleTest, hf, hv', ray_triangle_intersection_eq]
  · intro bvh st
    simp only [visit, visitLeaf, hf, hv', ray_triangle_intersection_eq]
    by_cases hin : isInsideTriangle (uvtOf o d a.toV b.toV c.toV) = true
    · have hge : Dbl.ge (uvtOf o d a.toV b.toV c.toV).z (.fin 0) = true := by
        simp only [isInsideTriangle, Bool.and_eq_true] at hin
        exact hin.1.2
      simp only [hin, if_true, hge, Bool.true_and, true_and]
      split <;> rfl
    · simp only [hin, if_false, hneg, Bool.false_and, false_and, Bool.false_eq_true]
      rfl

/-! ## The scan finds the nearest hit among the triangles it tests -/

theorem scanInv_step (sqrt : ℚ → ℚ) (VQ : List Q3) (F : List Vector3i) (o d : Vector3d)
    (bvh : AABBTree) (p0 N0 : Vector3d) (st : Nearest) (L : List Int) (t : Int)
    (ht : ValidTriangle VQ F t) (h : ScanInv sqrt (VQ.map Q3.toV) F o d p0 N0 st L) :
    ScanInv sqrt (VQ.map Q3.toV) F o d p0 N0
      (visit sqrt ⟨VQ.map Q3.toV, F, bvh⟩ o d st t) (L ++ [t]) := by
  obtain ⟨hit, τ, P, Nn, hge0, h1, h2⟩ := triangle_outcome sqrt VQ F o d t ht
  obtain ⟨c, hc, hcM, hfalse, htrue, hall⟩ := h
  rw [h2 bvh st, hc]
  by_cases hu : hit = true ∧ Dbl.lt τ (.fin c) = true
  · rw [if_pos hu]
    have hτ0 := hge0 hu.1
    obtain ⟨q, rfl⟩ : ∃ q, τ = .fin q := by
      cases τ with
      | fin q => exact ⟨q, rfl⟩
      | pinf => exact absurd hu.2 (by simp [Dbl.lt])
      | ninf => exact absurd hτ0 (by decide)
      | nan => exact absurd hτ0 (by decide)
    have hq0 : 0 ≤ q := by simpa using hτ0
    have hqc : q < c := by simpa using hu.2
    refine ⟨q, rfl, by linarith, fun hf => (by cases hf), fun _ => ?_, ?_⟩
    · refine ⟨t, List.mem_append_right _ (List.mem_singleton_self t), ?_, hq0, by linarith⟩
      rw [h1, if_pos hu.1]
    · intro t' ht' r hr hge
      rcases List.mem_append.mp ht' with hm | hm
      · obtain ⟨a1, -⟩ := hall t' hm r hr hge
        refine ⟨?_, fun _ => rfl⟩
        cases hr1 : r.1 with
        | fin q' =>
          rw [hr1] at a1
          simp only [Dbl.le_fin, decide_eq_true_eq] at a1 ⊢
          linarith
        | pinf => rfl
        | ninf => rw [hr1] at a1; cases a1
        | nan => rw [hr1] at a1; cases a1
      · rw [List.mem_singleton.mp hm, h1, if_pos hu.1] at hr
        cases hr
        exact ⟨by simp only [Dbl.le_fin, le_refl, decide_True], fun _ => rfl⟩
  · rw [if_neg hu]
    refine ⟨c, hc, hcM, hfalse, fun hr => ?_, ?_⟩
    · obtain ⟨t', ht', rest⟩ := htrue hr
      exact ⟨t', List.mem_append_left _ ht', rest⟩
    · intro t' ht' r hr hge
      rcases List.mem_append.mp ht' with hm | hm
      · exact hall t' hm r hr hge
      · rw [List.mem_singleton.mp hm, h1] at hr
        by_cases hh : hit = true
        · rw [if_pos hh] at hr
          cases hr
          have hnlt : ¬ Dbl.lt τ (.fin c) = true := fun hlt => hu ⟨hh, hlt⟩
          have hτ0 := hge0 hh
          cases τ with
          | fin q =>
            have hcq : c ≤ q := by
              have : ¬ q < c := by simpa using hnlt
              exact not_lt.mp this
            refine ⟨by simp only [Dbl.le_fin, decide_eq_true_eq]; exact hcq, fun hlt => ?_⟩
            have hqM : q < DBL_MAX := by simpa using hlt
            cases hres : st.res with
            | true => rfl
            | false =>
              obtain ⟨-, -, e⟩ := hfalse hres
              rw [e] at hcq
              linarith
          | pinf => exact ⟨rfl, fun hlt => (by cases hlt)⟩
          | ninf => cases hτ0
          | nan => cases hτ0
        · rw [if_neg hh] at hr
          cases hr
          have hneg : Dbl.ge (.fin (-1)) (.fin 0) = false := by decide!
          rw [hneg] at hge
          cases hge

theorem scanInv_foldl (sqrt : ℚ → ℚ) (VQ : List Q3) (F : List Vector3i) (o d : Vector3d)
    (bvh : AABBTree) (p0 N0 : Vector3d) (ts : List Int) :
    ∀ (st : Nearest) (L : List Int), (∀ t ∈ ts, ValidTriangle VQ F t) →
      ScanInv sqrt (VQ.map Q3.toV) F o d p0 N0 st L →
      ScanInv sqrt (VQ.map Q3.toV) F o d p0 N0
        (ts.foldl (visit sqrt ⟨VQ.map Q3.toV, F, bvh⟩ o d) st) (L ++ ts) := by
  induction ts with
  | nil => intro st L _ h; simpa using h
  | cons t ts ih =>
    intro st L hv h
    have := ih _ (L ++ [t]) (fun x hx' => hv x (List.mem_cons_of_mem _ hx'))
      (scanInv_step sqrt VQ F o d bvh p0 N0 st L t (hv t (List.mem_cons_self _ _)) h)
    simpa using this

theorem scanInv_init (sqrt : ℚ → ℚ) (V : List Vector3d) (F : List Vector3i)
    (o d p0 N0 : Vector3d) :
    ScanInv sqrt V F o d p0 N0 { closest_t := .fin DBL_MAX, p := p0, N := N0, res := false } [] :=
  ⟨DBL_MAX, rfl, le_refl _, fun _ => ⟨rfl, rfl, rfl⟩, fun h => (by cases h),
    fun t ht => (by cases ht)⟩

/-! ## The nearest hit among the tested triangles -/

theorem nearValid : ValidMesh nearV nearF := by
  intro f hf
  simp only [nearF, List.mem_cons, List.mem_singleton, List.not_mem_nil, or_false] at hf
  rcases hf with rfl | rfl
  · exact ⟨⟨0, 0, 0⟩, ⟨1, 0, 0⟩, ⟨0, 1, 0⟩, by decide!⟩
  · exact ⟨⟨-5, -5, 1⟩, ⟨5, -5, 1⟩, ⟨0, 5, 1⟩, by decide!⟩

theorem detQ_eq_det (d a b c : Q3) : detQ d a b c = (systemMatrix d a b c).det := by
  simp only [systemMatrix, Matrix.det_fin_three, detQ]
  simp
  ring

theorem nearNonSingular : NonSingular nearV nearF nearD := by
  intro f hf a b c h
  simp only [nearF, List.mem_cons, List.mem_singleton, List.not_mem_nil, or_false] at hf
  rw [← detQ_eq_det]
  rcases hf with rfl | rfl
  · have e : triangleVerticesQ nearV ⟨0, 1, 2⟩ = some (⟨0, 0, 0⟩, ⟨1, 0, 0⟩, ⟨0, 1, 0⟩) := by
      decide!
    rw [e] at h
    cases h
    decide!
  · have e : triangleVerticesQ nearV ⟨3, 4, 5⟩ = some (⟨-5, -5, 1⟩, ⟨5, -5, 1⟩, ⟨0, 5, 1⟩) := by
      decide!
    rw [e] at h
    cases h
    decide!

end Raytracer
